import Mathlib

/-!
# CPU scheduling simulator (`osproject/Source.cpp`)

A shallow embedding of the three scheduling routines `simulate_fcfs`,
`simulate_srt` and `simulate_rr` together with the process control block
`PCB` they operate on, followed by theorems about them.

Modelling conventions.

* C++ `int` is `Int` restricted to the 32-bit range: every `+`, `-`, `+=` and
  `-=` of the source is `int_add` or `int_sub`, which wrap around the way the
  compiled code does (`2147483647 + 1 = -2147483648`).  Theorems on clock
  values and metrics carry the hypothesis that the input is small enough for
  no operation to wrap (`Fits`, `FcfsFits`).
* `vector<PCB>& processes` is a `List PCB`; a `PCB*` into that vector is the
  index of the element it points at, and `p->field` is `deref processes i`.
* `vector<tuple<string,int,int>>& gantt_chart` is a list of triples; it is
  an in/out parameter of every routine, so the embeddings take the initial
  chart as an argument (`main` passes an empty one).
* The `while` loops of `simulate_srt` and `simulate_rr` are run with a fuel
  argument and return `none` when the fuel is exhausted before the loop
  condition turns false.
* `std::sort` is not a stable sort: the order it gives to elements the
  comparator does not separate is unspecified.  `simulate_srt` therefore
  takes the sorting procedure as a parameter, constrained by `IsStdSort`;
  `insertion_sort` is the concrete instance used for evaluation.
* `cpu_utilization` is a `double` in the source; here it is the exact
  rational value of the quotient, and `none` when the divisor is zero.
-/

namespace OsProject

/-- Reduction of an integer to the range of the 32-bit `int`,
`-2147483648 .. 2147483647`, by wrap-around. -/
def wrap (x : Int) : Int := (x + 2147483648) % 4294967296 - 2147483648

/-- Addition of two `int` values, `a + b` of the source. -/
def int_add (a b : Int) : Int := wrap (a + b)

/-- Subtraction of two `int` values, `a - b` of the source. -/
def int_sub (a b : Int) : Int := wrap (a - b)

/-- The value lies in the range of the 32-bit `int`. -/
def IsInt (x : Int) : Prop := -2147483648 ≤ x ∧ x ≤ 2147483647

/-- The class `PCB` (Source.cpp lines 9-32).  The members of type `int` are
integers of the range `IsInt`: the constructor receives `int` values
(`ValidProcesses` and `PositiveBursts` say so for `arrival_time` and
`burst_time`), and the routines write the other members with `int_add` and
`int_sub` only, or copy a member or the clock. -/
structure PCB where
  pid : String
  arrival_time : Int
  burst_time : Int
  remaining_time : Int
  start_time : Int
  finish_time : Int
  waiting_time : Int
  turnaround_time : Int
deriving DecidableEq, Repr, Inhabited

/-- The constructor `PCB(string id, int arrival, int burst)` (lines 20-23). -/
def PCB.create (id : String) (arrival burst : Int) : PCB :=
  { pid := id, arrival_time := arrival, burst_time := burst,
    remaining_time := burst, start_time := 0, finish_time := 0,
    waiting_time := 0, turnaround_time := 0 }

/-- One entry of the Gantt chart, `tuple<string, int, int>`. -/
abbrev Interval := String × Int × Int

/-- Process id of an interval, `get<0>`. -/
def Interval.id (x : Interval) : String := x.1

/-- Start tick of an interval, `get<1>`. -/
def Interval.start (x : Interval) : Int := x.2.1

/-- End tick of an interval, `get<2>`. -/
def Interval.stop (x : Interval) : Int := x.2.2

/-- Length of an interval, end tick minus start tick. -/
def Interval.len (x : Interval) : Int := x.2.2 - x.2.1

/-- The value `(double)total_burst_time / current_time * 100` computed at the
end of every routine (lines 74, 125, 180), as an exact rational; `none` when
`current_time` is zero, where the floating-point quotient is not a number of
the range the routines report. -/
def cpu_utilization (total_burst_time current_time : Int) : Option ℚ :=
  if current_time = 0 then none
  else some ((total_burst_time : ℚ) / (current_time : ℚ) * 100)

/-! ## FCFS -/

/-- Local variables of `simulate_fcfs` together with its in/out parameters. -/
structure FcfsState where
  processes : List PCB
  gantt_chart : List Interval
  current_time : Int
  total_burst_time : Int
deriving DecidableEq, Repr

/-- The body of the `for` loop of `simulate_fcfs` (lines 60-72) for one
process: returns the updated process, the chart, the clock and the
accumulated burst time. -/
def fcfs_body (context_switch : Int) (process : PCB) (gantt_chart : List Interval)
    (current_time total_burst_time : Int) : PCB × List Interval × Int × Int :=
  let current_time := if current_time < process.arrival_time then process.arrival_time
    else current_time
  let current_time := if gantt_chart ≠ [] then int_add current_time context_switch
    else current_time
  let process := { process with start_time := current_time }
  let gantt_chart := gantt_chart ++
    [(process.pid, current_time, int_add current_time process.burst_time)]
  let current_time := int_add current_time process.burst_time
  let process := { process with finish_time := current_time }
  let process :=
    { process with waiting_time := int_sub process.start_time process.arrival_time }
  let process :=
    { process with turnaround_time := int_sub process.finish_time process.arrival_time }
  let total_burst_time := int_add total_burst_time process.burst_time
  (process, gantt_chart, current_time, total_burst_time)

/-- The `for (PCB& process : processes)` loop of `simulate_fcfs` (lines 59-73):
the processes still to visit are the first argument, the state reached so
far follows; the visited processes are returned updated, in order. -/
def fcfs_loop (context_switch : Int) : List PCB → List Interval → Int → Int → FcfsState
  | [], gantt_chart, current_time, total_burst_time =>
      { processes := [], gantt_chart := gantt_chart, current_time := current_time,
        total_burst_time := total_burst_time }
  | process :: rest, gantt_chart, current_time, total_burst_time =>
      let r := fcfs_body context_switch process gantt_chart current_time total_burst_time
      let s := fcfs_loop context_switch rest r.2.1 r.2.2.1 r.2.2.2
      { s with processes := r.1 :: s.processes }

/-- The routine `simulate_fcfs` (lines 56-75): the final state; the reported
utilisation is `cpu_utilization` of its last two fields. -/
def simulate_fcfs (processes : List PCB) (context_switch : Int)
    (gantt_chart : List Interval) : FcfsState :=
  fcfs_loop context_switch processes gantt_chart 0 0

/-! ## State shared by SRT and RR -/

/-- Local variables of `simulate_srt` / `simulate_rr` together with their
in/out parameters.  `all_processes` and `ready_queue` hold pointers into
`processes`, represented as indices (`ready_queue` is the variable `queue`
of `simulate_rr`). -/
structure SimState where
  processes : List PCB
  all_processes : List Nat
  ready_queue : List Nat
  gantt_chart : List Interval
  current_time : Int
  total_burst_time : Int
deriving DecidableEq, Repr

/-- Dereference of a `PCB*`: the element of the vector the pointer refers to. -/
def deref (processes : List PCB) (i : Nat) : PCB := processes.getD i default

/-- State at loop entry (lines 78-85 and 130-136): clock and accumulator are
zero, the ready queue is empty and `all_processes` points at every element of
`processes` in order. -/
def init_state (processes : List PCB) (gantt_chart : List Interval) : SimState :=
  { processes := processes, all_processes := List.range processes.length,
    ready_queue := [], gantt_chart := gantt_chart, current_time := 0,
    total_burst_time := 0 }

/-- Admission pass (lines 89-96 of `simulate_srt`, a `remove_if` whose
predicate appends to `ready_queue`, followed by `erase`; lines 140-148 of
`simulate_rr`, an erase-while-iterating loop): every pointer of
`all_processes` with `arrival_time <= current_time` is appended to the ready
queue, in the order of `all_processes`; the others stay, in order.  (The
predicate of `remove_if` is applied once to every element, front to back.) -/
def enqueue_arrived (s : SimState) : SimState :=
  { s with
    ready_queue := s.ready_queue ++
      s.all_processes.filter (fun i => decide ((deref s.processes i).arrival_time ≤ s.current_time)),
    all_processes :=
      s.all_processes.filter (fun i => !decide ((deref s.processes i).arrival_time ≤ s.current_time)) }

/-- The branch taken when the ready queue is empty (lines 99-104 and 150-155):
if `all_processes` is not empty the clock is set to the arrival time of its
front element; then `continue`. -/
def idle_jump (s : SimState) : SimState :=
  match s.all_processes with
  | [] => s
  | j :: _ => { s with current_time := (deref s.processes j).arrival_time }

/-- Dispatch of the process `i` for `execution_time` ticks (lines 107-114 and
160-167): the context switch is added to the clock when the chart is not
empty and its last entry has another id; an interval is appended, the clock
advanced and `remaining_time` decreased. -/
def run_slice (context_switch : Int) (s : SimState) (i : Nat) (execution_time : Int) : SimState :=
  let process := deref s.processes i
  let current_time :=
    match s.gantt_chart.getLast? with
    | some last => if last.1 ≠ process.pid then int_add s.current_time context_switch
        else s.current_time
    | none => s.current_time
  { s with
    current_time := int_add current_time execution_time,
    gantt_chart := s.gantt_chart ++
      [(process.pid, current_time, int_add current_time execution_time)],
    processes := s.processes.set i
      { process with remaining_time := int_sub process.remaining_time execution_time } }

/-- Completion bookkeeping (lines 118-121 and 174-177): finish, turnaround and
waiting time of process `i` are written and its burst time is added to
`total_burst_time`. -/
def complete (s : SimState) (i : Nat) : SimState :=
  let process := deref s.processes i
  let process := { process with finish_time := s.current_time }
  let process :=
    { process with turnaround_time := int_sub process.finish_time process.arrival_time }
  let process :=
    { process with waiting_time := int_sub process.turnaround_time process.burst_time }
  { s with
    processes := s.processes.set i process,
    total_burst_time := int_add s.total_burst_time process.burst_time }

/-- The loop `while (!all_processes.empty() || !ready_queue.empty())` of
`simulate_srt` (line 87) and `while (!all_processes.empty() || !queue.empty())`
of `simulate_rr` (line 138), run for at most `fuel` iterations of the given
body: `none` when the condition still holds after `fuel` iterations. -/
def run_loop (body : SimState → SimState) : Nat → SimState → Option SimState
  | 0, _ => none
  | fuel + 1, s =>
      if s.all_processes ≠ [] ∨ s.ready_queue ≠ [] then run_loop body fuel (body s)
      else some s

/-! ## SRT -/

/-- The comparator `comp` of `simulate_srt` (line 81):
`a->remaining_time > b->remaining_time`. -/
def comp (processes : List PCB) (a b : Nat) : Bool :=
  decide ((deref processes a).remaining_time > (deref processes b).remaining_time)

/-- What `std::sort(first, last, comp)` guarantees about its result: it is a
rearrangement of the input in which no later element is ordered by `comp`
before an earlier one. -/
def IsStdSort (sort : List PCB → List Nat → List Nat) : Prop :=
  ∀ processes queue, (sort processes queue).Perm queue ∧
    (sort processes queue).Pairwise (fun a b => comp processes b a = false)

/-- Insertion of one pointer into a queue sorted by `comp`, behind every
element that `comp` does not order after it. -/
def ordered_insert (processes : List PCB) (a : Nat) : List Nat → List Nat
  | [] => [a]
  | b :: rest => if comp processes a b then a :: b :: rest
      else b :: ordered_insert processes a rest

/-- A concrete sorting procedure meeting `IsStdSort`: stable insertion sort,
which is what the usual `std::sort` implementations run on short ranges. -/
def insertion_sort (processes : List PCB) (queue : List Nat) : List Nat :=
  queue.reverse.foldr (fun a acc => ordered_insert processes a acc) []

/-- One iteration of the `while` loop of `simulate_srt` (lines 88-123). -/
def srt_body (sort : List PCB → List Nat → List Nat) (context_switch : Int)
    (s : SimState) : SimState :=
  let s := enqueue_arrived s
  let s := { s with ready_queue := sort s.processes s.ready_queue }
  match s.ready_queue with
  | [] => idle_jump s
  | i :: rest =>
      let s := run_slice context_switch s i 1
      if (deref s.processes i).remaining_time = 0 then
        { complete s i with ready_queue := rest }
      else s

/-- The routine `simulate_srt` (lines 77-126): the final state when the loop
ends within `fuel` iterations; the reported utilisation is `cpu_utilization`
of its last two fields. -/
def simulate_srt (sort : List PCB → List Nat → List Nat) (fuel : Nat)
    (processes : List PCB) (context_switch : Int) (gantt_chart : List Interval) :
    Option SimState :=
  run_loop (srt_body sort context_switch) fuel (init_state processes gantt_chart)

/-! ## RR -/

/-- One iteration of the `while` loop of `simulate_rr` (lines 139-178). -/
def rr_body (quantum context_switch : Int) (s : SimState) : SimState :=
  let s := enqueue_arrived s
  match s.ready_queue with
  | [] => idle_jump s
  | i :: rest =>
      let s := { s with ready_queue := rest }
      let execution_time := min (deref s.processes i).remaining_time quantum
      let s := run_slice context_switch s i execution_time
      if (deref s.processes i).remaining_time > 0 then
        { s with ready_queue := s.ready_queue ++ [i] }
      else complete s i

/-- The routine `simulate_rr` (lines 129-181): the final state when the loop
ends within `fuel` iterations; the reported utilisation is `cpu_utilization`
of its last two fields. -/
def simulate_rr (fuel : Nat) (processes : List PCB) (quantum context_switch : Int)
    (gantt_chart : List Interval) : Option SimState :=
  run_loop (rr_body quantum context_switch) fuel (init_state processes gantt_chart)

/-! ## Predicates used in the statements -/

/-- Sum of `end_tick - start_tick` over the intervals of the chart whose id
is `pid`. -/
def duration_of (pid : String) (g : List Interval) : Int :=
  ((g.filter (fun x => decide (x.1 = pid))).map Interval.len).sum

/-- Validity of a process list: arrival times are not negative, burst times
are positive, every record is as its constructor leaves it with respect to the
remaining time (`remaining_time` equals `burst_time`), and arrival and burst
time are values of the type `int`. -/
def ValidProcesses (ps : List PCB) : Prop :=
  ∀ p ∈ ps, 0 ≤ p.arrival_time ∧ 0 < p.burst_time ∧ p.remaining_time = p.burst_time ∧
    IsInt p.arrival_time ∧ IsInt p.burst_time

/-- Processes as the loops of `simulate_srt` and `simulate_rr` need them to
end: burst times are positive and `remaining_time` equals `burst_time`, as the
constructor leaves it; arrival and burst time are values of the type `int`. -/
def PositiveBursts (ps : List PCB) : Prop :=
  ∀ p ∈ ps, 0 < p.burst_time ∧ p.remaining_time = p.burst_time ∧
    IsInt p.arrival_time ∧ IsInt p.burst_time

/-- Largest arrival time of the list, 0 for the empty list. -/
def max_arrival (ps : List PCB) : Int := (ps.map PCB.arrival_time).foldr max 0

/-- The input is small enough for no clock value or metric of a run to leave
the range of `int`: the largest arrival time, plus the total burst time, plus
one context switch for every tick of burst time, is at most `2147483647`. -/
def Fits (ps : List PCB) (cs : Int) : Prop :=
  max_arrival ps + (1 + cs) * (ps.map PCB.burst_time).sum ≤ 2147483647

/-- Process ids are pairwise different. -/
def UniquePids (ps : List PCB) : Prop := (ps.map PCB.pid).Nodup

/-- Ordering of a chart: every interval has `start_tick < end_tick`, and of
two consecutive intervals the earlier one ends no later than the later one
starts. -/
def TimelineOrdered (g : List Interval) : Prop :=
  (∀ x ∈ g, x.start < x.stop) ∧ g.Chain' (fun a b => a.stop ≤ b.start)

/-- The interval `simulate_fcfs` records for a process, read off the fields
the routine leaves in the record. -/
def fcfs_interval (q : PCB) : Interval := (q.pid, q.start_time, q.start_time + q.burst_time)

/-- Relation between a process before and after its visit by the loop of
`simulate_fcfs`: identity, arrival and burst are kept and the metrics obey
the three equations of the routine. -/
def FcfsDone (p q : PCB) : Prop :=
  q.pid = p.pid ∧ q.arrival_time = p.arrival_time ∧ q.burst_time = p.burst_time ∧
  q.waiting_time = q.start_time - q.arrival_time ∧
  q.turnaround_time = q.finish_time - q.arrival_time ∧
  q.finish_time - q.start_time = q.burst_time

/-- Tick at which the loop body of `simulate_fcfs` dispatches a process when
no operation wraps. -/
def fcfs_dispatch_tick (cs : Int) (p : PCB) (g : List Interval) (t : Int) : Int :=
  max t p.arrival_time + (if g = [] then 0 else cs)

/-- No `int` operation of the loop of `simulate_fcfs` wraps on the processes
still to visit, from the chart, clock and accumulated burst time reached so
far: the dispatch tick, the end tick, the waiting time, the turnaround time
and the accumulated burst time of every visit lie in the range of `int`. -/
def FcfsFits (cs : Int) : List PCB → List Interval → Int → Int → Prop
  | [], _, _, _ => True
  | p :: rest, g, t, tot =>
      IsInt (fcfs_dispatch_tick cs p g t) ∧
      IsInt (fcfs_dispatch_tick cs p g t + p.burst_time) ∧
      IsInt (fcfs_dispatch_tick cs p g t - p.arrival_time) ∧
      IsInt (fcfs_dispatch_tick cs p g t + p.burst_time - p.arrival_time) ∧
      IsInt (tot + p.burst_time) ∧
      FcfsFits cs rest
        (g ++ [(p.pid, fcfs_dispatch_tick cs p g t, fcfs_dispatch_tick cs p g t + p.burst_time)])
        (fcfs_dispatch_tick cs p g t + p.burst_time) (tot + p.burst_time)

/-! ## One loop iteration of SRT and RR, abstractly, and the loop invariants -/

/-- Remaining time of the process a pointer refers to. -/
def rem_of (s : SimState) (i : Nat) : Int := (deref s.processes i).remaining_time

/-- One iteration of the loop of `simulate_srt` or `simulate_rr`, up to the
order of the ready queue.  `slice` gives the execution time of a dispatch from
the remaining time of the dispatched process. -/
inductive Step (slice : Int → Int) (cs : Int) : SimState → SimState → Prop
  | idle (s : SimState) (hq : (enqueue_arrived s).ready_queue = []) (hall : s.all_processes ≠ []) :
      Step slice cs s (idle_jump (enqueue_arrived s))
  | run (s : SimState) (i : Nat) (rest q : List Nat)
      (hq : (enqueue_arrived s).ready_queue.Perm (i :: rest))
      (hpos : 0 < slice (rem_of s i)) (hlt : slice (rem_of s i) < rem_of s i)
      (hperm : q.Perm (i :: rest)) :
      Step slice cs s { run_slice cs (enqueue_arrived s) i (slice (rem_of s i)) with ready_queue := q }
  | finish (s : SimState) (i : Nat) (rest q : List Nat)
      (hq : (enqueue_arrived s).ready_queue.Perm (i :: rest))
      (heq : slice (rem_of s i) = rem_of s i)
      (hperm : q.Perm rest) :
      Step slice cs s
        { complete (run_slice cs (enqueue_arrived s) i (slice (rem_of s i))) i with ready_queue := q }

/-- A process that has passed the completion branch: nothing remains and the
metrics are the `int` differences the branch computes. -/
def Completed (p : PCB) : Prop :=
  p.remaining_time = 0 ∧ p.turnaround_time = int_sub p.finish_time p.arrival_time ∧
    p.waiting_time = int_sub p.turnaround_time p.burst_time

/-- Loop invariant of `simulate_srt` and `simulate_rr` on the process records,
relative to the process list `ps0` the routine was called with. -/
structure Inv (ps0 : List PCB) (s : SimState) : Prop where
  len : s.processes.length = ps0.length
  static : ∀ i, (deref s.processes i).pid = (deref ps0 i).pid ∧
    (deref s.processes i).arrival_time = (deref ps0 i).arrival_time ∧
    (deref s.processes i).burst_time = (deref ps0 i).burst_time
  nodup : (s.all_processes ++ s.ready_queue).Nodup
  bound : ∀ i ∈ s.all_processes ++ s.ready_queue, i < ps0.length
  pending : ∀ i ∈ s.all_processes,
    rem_of s i = (deref ps0 i).burst_time ∧ 0 < (deref ps0 i).burst_time
  ready : ∀ i ∈ s.ready_queue, 0 < rem_of s i ∧ rem_of s i ≤ (deref ps0 i).burst_time
  done : ∀ i, i < ps0.length → i ∉ s.all_processes ++ s.ready_queue →
    Completed (deref s.processes i)
  range : ∀ i, i < ps0.length →
    IsInt (deref ps0 i).arrival_time ∧ (deref ps0 i).burst_time ≤ 2147483647

/-- Clock value at which `run_slice` starts the interval it records: the
clock, after the `int` addition of the context switch when the last interval
has another id. -/
def switch_clock (cs : Int) (s : SimState) (i : Nat) : Int :=
  match s.gantt_chart.getLast? with
  | some last => if last.1 ≠ (deref s.processes i).pid then int_add s.current_time cs
      else s.current_time
  | none => s.current_time

/-- Clock value at which `run_slice` starts the interval it records when the
addition of the context switch does not wrap. -/
def dispatch_tick (cs : Int) (s : SimState) (i : Nat) : Int :=
  match s.gantt_chart.getLast? with
  | some last => if last.1 ≠ (deref s.processes i).pid then s.current_time + cs
      else s.current_time
  | none => s.current_time

/-- Total remaining time of the processes that are pending or ready. -/
def work (s : SimState) : Int :=
  ((s.all_processes ++ s.ready_queue).map (rem_of s)).sum

/-- One when no pending process has arrived by the current clock value. -/
def no_arrival (s : SimState) : Int :=
  if ∀ i ∈ s.all_processes, s.current_time < (deref s.processes i).arrival_time then 1 else 0

/-- Termination measure of the loops of `simulate_srt` and `simulate_rr`. -/
def measure (s : SimState) : Int := 2 * work s + no_arrival s

/-- Fuel that suffices for `simulate_srt` and `simulate_rr` on a valid process
list: twice the total burst time plus two iterations. -/
def enough_fuel (ps : List PCB) : Nat := 2 * ((ps.map PCB.burst_time).sum).toNat + 2

/-- An iteration that found the ready queue empty after the admission pass:
only the clock changes, to the arrival time of the front pending process,
which lies ahead. -/
structure Idled (s t : SimState) : Prop where
  queue : s.ready_queue = []
  not_arrived : ∀ i ∈ s.all_processes, s.current_time < (deref s.processes i).arrival_time
  processes : t.processes = s.processes
  all : t.all_processes = s.all_processes
  queue_after : t.ready_queue = []
  gantt : t.gantt_chart = s.gantt_chart
  total : t.total_burst_time = s.total_burst_time
  clock : ∃ j l, s.all_processes = j :: l ∧ t.current_time = (deref s.processes j).arrival_time

/-- An iteration that dispatched the process `i` for `e` ticks from a ready
queue that was `i :: rest` up to order: what it does to the queue and the
records, and the interval, clock and accumulated burst time as the `int`
operations give them. -/
structure Ran (ps0 : List PCB) (slice : Int → Int) (cs : Int) (s t : SimState)
    (i : Nat) (rest : List Nat) (e : Int) : Prop where
  queue : (enqueue_arrived s).ready_queue.Perm (i :: rest)
  slice_eq : e = slice (rem_of s i)
  pos : 0 < e
  le : e ≤ rem_of s i
  int_gantt : t.gantt_chart = s.gantt_chart ++
    [((deref ps0 i).pid, switch_clock cs (enqueue_arrived s) i, t.current_time)]
  int_clock : t.current_time = int_add (switch_clock cs (enqueue_arrived s) i) e
  all : t.all_processes = (enqueue_arrived s).all_processes
  queue_after : t.ready_queue.Perm (if e < rem_of s i then i :: rest else rest)
  int_total : t.total_burst_time =
    if e < rem_of s i then s.total_burst_time
    else int_add s.total_burst_time (deref ps0 i).burst_time
  rem_self : rem_of t i = rem_of s i - e
  other : ∀ j, j ≠ i → deref t.processes j = deref s.processes j
  unfinished : e < rem_of s i → deref t.processes i =
    { deref s.processes i with remaining_time := rem_of s i - e }
  finished : e = rem_of s i → (deref t.processes i).finish_time = t.current_time

/-- An iteration that dispatched the process `i` for `e` ticks without any
wrap-around: in addition to `Ran`, the interval, the clock and the accumulated
burst time are the plain sums. -/
structure Dispatched (ps0 : List PCB) (slice : Int → Int) (cs : Int) (s t : SimState)
    (i : Nat) (rest : List Nat) (e : Int) extends Ran ps0 slice cs s t i rest e : Prop where
  gantt : t.gantt_chart = s.gantt_chart ++
    [((deref ps0 i).pid, dispatch_tick cs (enqueue_arrived s) i,
      dispatch_tick cs (enqueue_arrived s) i + e)]
  clock : t.current_time = dispatch_tick cs (enqueue_arrived s) i + e
  total : t.total_burst_time =
    s.total_burst_time + (if e < rem_of s i then 0 else (deref ps0 i).burst_time)

/-- Loop invariant of `simulate_srt` and `simulate_rr` that keeps the clock
and the accumulated burst time inside the range of `int`: the clock is at most
the largest arrival time plus `1 + cs` for every tick executed so far, and the
accumulated burst time is that of the finished processes. -/
structure FitInv (ps0 : List PCB) (cs : Int) (s : SimState) : Prop where
  lo : -2147483648 ≤ s.current_time
  hi : s.current_time ≤
    max_arrival ps0 + (1 + cs) * ((ps0.map PCB.burst_time).sum - work s)
  executed : work s ≤ (ps0.map PCB.burst_time).sum
  total_lo : 0 ≤ s.total_burst_time
  acc : s.total_burst_time +
    ((s.all_processes ++ s.ready_queue).map (fun i => (deref ps0 i).burst_time)).sum =
      (ps0.map PCB.burst_time).sum

/-- The chart is ordered and the clock is not behind the end of its last
interval. -/
structure ClockInv (s : SimState) : Prop where
  ordered : TimelineOrdered s.gantt_chart
  last_le : ∀ y ∈ s.gantt_chart.getLast?, y.stop ≤ s.current_time

/-- The accumulated burst time is that of the finished processes, and the
clock is not behind the number of ticks executed so far. -/
structure WorkInv (ps0 : List PCB) (s : SimState) : Prop where
  total : s.total_burst_time +
    ((s.all_processes ++ s.ready_queue).map (fun i => (deref ps0 i).burst_time)).sum =
      (ps0.map PCB.burst_time).sum
  served : (ps0.map PCB.burst_time).sum - work s ≤ s.current_time

/-- Relation between two consecutive intervals of a chart of `simulate_srt`
or `simulate_rr`: with equal ids the later one starts where the earlier one
ends; with different ids at least the context switch lies between them. -/
def SwitchRel (cs : Int) (a b : Interval) : Prop :=
  (a.1 = b.1 → b.start = a.stop) ∧ (a.1 ≠ b.1 → a.stop + cs ≤ b.start)

/-- Invariant on the chart in terms of the ids of the processes. -/
structure PidInv (ps0 : List PCB) (cs : Int) (s : SimState) : Prop where
  fresh : ∀ i ∈ s.all_processes, ∀ x ∈ s.gantt_chart, x.1 ≠ (deref ps0 i).pid
  dur : ∀ i, i < ps0.length →
    duration_of (deref ps0 i).pid s.gantt_chart + rem_of s i = (deref ps0 i).burst_time
  chain : s.gantt_chart.Chain' (SwitchRel cs)
  last : ∀ y ∈ s.gantt_chart.getLast?, y.stop ≤ s.current_time ∧
    (s.current_time = y.stop ∨ ∀ i ∈ s.ready_queue, (deref ps0 i).pid ≠ y.1)

/-- Every interval of the chart is non-empty and no longer than the quantum. -/
def LenInv (quantum : Int) (s : SimState) : Prop :=
  ∀ x ∈ s.gantt_chart, 0 < x.len ∧ x.len ≤ quantum

/-- An interval shorter than the quantum belongs to a process that is neither
pending nor ready any more, and every interval that is followed by a later
interval of the same id has the length of the quantum. -/
structure QuantumInv (ps0 : List PCB) (quantum : Int) (s : SimState) : Prop where
  short : ∀ x ∈ s.gantt_chart, x.len ≠ quantum →
    ∀ i ∈ s.all_processes ++ s.ready_queue, (deref ps0 i).pid ≠ x.1
  full : s.gantt_chart.Pairwise (fun a b => a.1 = b.1 → a.len = quantum)

/-! ## Concrete inputs and the predicates of the claims -/

/-- Two processes, the second arriving while the first one runs. -/
def sample_processes : List PCB := [PCB.create "P1" 0 2, PCB.create "P2" 1 1]

/-- Scenario 4 of the specification: `(P1, arrival 0, burst 8)` and
`(P2, arrival 1, burst 4)`. -/
def scenario4 : List PCB := [PCB.create "P1" 0 8, PCB.create "P2" 1 4]

/-- State of `simulate_srt` on `scenario4` (context switch 0) after the first
loop iteration: `P1` has run the tick `[0,1]`, `P2` is still pending. -/
def scenario4_after_one : SimState :=
  { processes := [{ PCB.create "P1" 0 8 with remaining_time := 7 }, PCB.create "P2" 1 4],
    all_processes := [1], ready_queue := [0], gantt_chart := [("P1", 0, 1)],
    current_time := 1, total_burst_time := 0 }

/-- Input of the example of C4: `(P1, arrival 0, burst 4)` and
`(P2, arrival 1, burst 2)`. -/
def arrival_during_slice : List PCB := [PCB.create "P1" 0 4, PCB.create "P2" 1 2]

/-- Scenario 2 of the specification: `(P1, 0, 3)` and `(P2, 5, 2)`. -/
def scenario2 : List PCB := [PCB.create "P1" 0 3, PCB.create "P2" 5 2]

/-- Scenario 1 of the specification: the single process `(P1, 0, 5)`. -/
def scenario1 : List PCB := [PCB.create "P1" 0 5]

/-- The record of `P2` after `simulate_fcfs` on `scenario2` with context
switch 0. -/
def scenario2_p2_done : PCB :=
  { pid := "P2", arrival_time := 5, burst_time := 2, remaining_time := 2, start_time := 5,
    finish_time := 7, waiting_time := 0, turnaround_time := 2 }

/-! ## Definitions for the claims on iterations, arrivals and finish times -/

/-- State of the loop of `simulate_srt` / `simulate_rr` after exactly `k`
iterations of the given body; `none` when the loop condition turns false
before the `k`-th iteration. -/
def state_after (body : SimState → SimState) : Nat → SimState → Option SimState
  | 0, s => some s
  | k + 1, s =>
      if s.all_processes ≠ [] ∨ s.ready_queue ≠ [] then state_after body k (body s)
      else none

/-- Two processes given out of arrival order: `(P1, arrival 10, burst 1)` and
`(P2, arrival 5, burst 1)`. -/
def unsorted_arrivals : List PCB := [PCB.create "P1" 10 1, PCB.create "P2" 5 1]

/-- Loop invariant of `simulate_rr` with quantum 0: some process is pending or
ready, every such process is in range with a positive remaining time, and the
clock, the remaining times and the arrival times are values of the type
`int`. -/
def ZeroQuantumInv (s : SimState) : Prop :=
  s.all_processes ++ s.ready_queue ≠ [] ∧
    (∀ i ∈ s.all_processes ++ s.ready_queue,
      i < s.processes.length ∧ 0 < rem_of s i ∧ rem_of s i ≤ 2147483647 ∧
        IsInt (deref s.processes i).arrival_time) ∧
    IsInt s.current_time

/-- End tick of the last interval of the chart whose id is `pid`, if there is
one. -/
def last_stop_of (pid : String) (g : List Interval) : Option Int :=
  ((g.filter (fun x => decide (x.1 = pid))).getLast?).map Interval.stop

/-- Invariant on finish times: the chart has an interval with the id of each
finished process that ends at its finish time. -/
def FinishInv (ps0 : List PCB) (s : SimState) : Prop :=
  ∀ i, i < ps0.length → i ∉ s.all_processes ++ s.ready_queue →
    ∃ x ∈ s.gantt_chart, x.1 = (deref ps0 i).pid ∧
      x.stop = (deref s.processes i).finish_time

/-- Invariant on finish times with unique ids: the finish time of a finished
process is the end tick of the last interval of its id. -/
def FinishLastInv (ps0 : List PCB) (s : SimState) : Prop :=
  ∀ i, i < ps0.length → i ∉ s.all_processes ++ s.ready_queue →
    last_stop_of (deref ps0 i).pid s.gantt_chart = some (deref s.processes i).finish_time

/-- Invariant of `simulate_srt` and `simulate_rr` on a list with the single
process `p`: while it is pending nothing has been recorded and the clock is
not past its arrival; while it is ready the clock is its arrival time plus the
ticks it has executed; all intervals carry its id; once finished, its finish
time is its arrival time plus its burst time. -/
structure SoleInv (p : PCB) (s : SimState) : Prop where
  pending : 0 ∈ s.all_processes → s.gantt_chart = [] ∧ s.current_time ≤ p.arrival_time
  ready : 0 ∈ s.ready_queue →
    s.current_time = p.arrival_time + (p.burst_time - rem_of s 0)
  pids : ∀ x ∈ s.gantt_chart, x.1 = p.pid
  done : 0 ∉ s.all_processes ++ s.ready_queue →
    (deref s.processes 0).finish_time = p.arrival_time + p.burst_time

/-! ## Inputs at the edge of the range of `int` -/

/-- A single process that arrives at the largest `int`: `(P1, 2147483647, 1)`. -/
def late_arrival : List PCB := [PCB.create "P1" 2147483647 1]

theorem wrap_of_isInt {x : Int} (h : IsInt x) : wrap x = x := by
  unfold IsInt at h
  unfold wrap
  omega

theorem isInt_wrap (x : Int) : IsInt (wrap x) := by
  unfold IsInt wrap
  omega

theorem int_add_of_isInt {a b : Int} (h : IsInt (a + b)) : int_add a b = a + b :=
  wrap_of_isInt h

theorem int_sub_of_isInt {a b : Int} (h : IsInt (a - b)) : int_sub a b = a - b :=
  wrap_of_isInt h

theorem isInt_int_add (a b : Int) : IsInt (int_add a b) := isInt_wrap _

theorem isInt_int_sub (a b : Int) : IsInt (int_sub a b) := isInt_wrap _

/-- The sum of the largest `int` and 1 is the smallest `int`, and the
difference of the smallest `int` and 1 is the largest one. -/
theorem int_add_wraps :
    int_add 2147483647 1 = -2147483648 ∧ int_sub (-2147483648) 1 = 2147483647 := by
  decide

theorem ValidProcesses.positive {ps : List PCB} (h : ValidProcesses ps) : PositiveBursts ps :=
  fun p hp => (h p hp).2

/-! ## Lemmas on charts -/

theorem duration_of_nil (pid : String) : duration_of pid [] = 0 := rfl

theorem duration_of_append (pid : String) (g h : List Interval) :
    duration_of pid (g ++ h) = duration_of pid g + duration_of pid h := by
  simp [duration_of, List.filter_append, List.map_append, List.sum_append]

theorem duration_of_cons (pid : String) (x : Interval) (g : List Interval) :
    duration_of pid (x :: g) = (if x.1 = pid then x.len else 0) + duration_of pid g := by
  by_cases h : x.1 = pid <;> simp [duration_of, List.filter_cons, h]

theorem duration_of_single (pid : String) (x : Interval) :
    duration_of pid [x] = if x.1 = pid then x.len else 0 := by
  rw [duration_of_cons, duration_of_nil, add_zero]

theorem timelineOrdered_nil : TimelineOrdered [] := by
  constructor
  · intro x hx; cases hx
  · exact List.chain'_nil

theorem timelineOrdered_concat (g : List Interval) (x : Interval)
    (hg : TimelineOrdered g) (hx : x.start < x.stop)
    (hlast : ∀ y ∈ g.getLast?, y.stop ≤ x.start) : TimelineOrdered (g ++ [x]) := by
  refine ⟨?_, ?_⟩
  · intro y hy
    rcases List.mem_append.1 hy with h | h
    · exact hg.1 y h
    · rw [List.mem_singleton] at h; subst h; exact hx
  · rw [List.chain'_append]
    refine ⟨hg.2, List.chain'_singleton _, ?_⟩
    intro a ha b hb
    simp only [List.head?_cons, Option.mem_def, Option.some.injEq] at hb
    subst hb
    exact hlast a ha

theorem fcfs_loop_nil (cs : Int) (g : List Interval) (t tot : Int) :
    fcfs_loop cs [] g t tot =
      { processes := [], gantt_chart := g, current_time := t, total_burst_time := tot } := rfl

theorem fcfs_loop_cons (cs : Int) (p : PCB) (ps : List PCB) (g : List Interval) (t tot : Int) :
    fcfs_loop cs (p :: ps) g t tot =
      { fcfs_loop cs ps (fcfs_body cs p g t tot).2.1 (fcfs_body cs p g t tot).2.2.1
          (fcfs_body cs p g t tot).2.2.2 with
        processes := (fcfs_body cs p g t tot).1 ::
          (fcfs_loop cs ps (fcfs_body cs p g t tot).2.1 (fcfs_body cs p g t tot).2.2.1
            (fcfs_body cs p g t tot).2.2.2).processes } := rfl

theorem fcfsFits_cons {cs : Int} {p : PCB} {ps : List PCB} {g : List Interval} {t tot : Int}
    (h : FcfsFits cs (p :: ps) g t tot) :
    IsInt (fcfs_dispatch_tick cs p g t) ∧
      IsInt (fcfs_dispatch_tick cs p g t + p.burst_time) ∧
      IsInt (fcfs_dispatch_tick cs p g t - p.arrival_time) ∧
      IsInt (fcfs_dispatch_tick cs p g t + p.burst_time - p.arrival_time) ∧
      IsInt (tot + p.burst_time) ∧
      FcfsFits cs ps
        (g ++ [(p.pid, fcfs_dispatch_tick cs p g t, fcfs_dispatch_tick cs p g t + p.burst_time)])
        (fcfs_dispatch_tick cs p g t + p.burst_time) (tot + p.burst_time) := h

/-- The clock value the loop body of `simulate_fcfs` reaches before it writes
`start_time` is `fcfs_dispatch_tick` when that value is in the range of `int`. -/
theorem fcfs_switch_eq (cs : Int) (p : PCB) (g : List Interval) (t : Int)
    (h : IsInt (fcfs_dispatch_tick cs p g t)) :
    (if g ≠ [] then int_add (if t < p.arrival_time then p.arrival_time else t) cs
      else (if t < p.arrival_time then p.arrival_time else t)) = fcfs_dispatch_tick cs p g t := by
  have hm : (if t < p.arrival_time then p.arrival_time else t) = max t p.arrival_time := by
    split_ifs <;> omega
  rw [hm]
  unfold fcfs_dispatch_tick at h ⊢
  by_cases hg : g = []
  · simp [hg]
  · rw [if_neg hg] at h
    rw [if_pos hg, if_neg hg]
    exact int_add_of_isInt h

theorem fcfs_body_proc (cs : Int) (p : PCB) (ps : List PCB) (g : List Interval) (t tot : Int)
    (hf : FcfsFits cs (p :: ps) g t tot) :
    (fcfs_body cs p g t tot).1 =
      { p with start_time := fcfs_dispatch_tick cs p g t,
               finish_time := fcfs_dispatch_tick cs p g t + p.burst_time,
               waiting_time := fcfs_dispatch_tick cs p g t - p.arrival_time,
               turnaround_time := fcfs_dispatch_tick cs p g t + p.burst_time - p.arrival_time } := by
  obtain ⟨h1, h2, h3, h4, -, -⟩ := fcfsFits_cons hf
  simp only [fcfs_body, fcfs_switch_eq cs p g t h1, int_add_of_isInt h2, int_sub_of_isInt h3,
    int_sub_of_isInt h4]

theorem fcfs_body_rest (cs : Int) (p : PCB) (ps : List PCB) (g : List Interval) (t tot : Int)
    (hf : FcfsFits cs (p :: ps) g t tot) :
    (fcfs_body cs p g t tot).2 =
      (g ++ [(p.pid, fcfs_dispatch_tick cs p g t, fcfs_dispatch_tick cs p g t + p.burst_time)],
        fcfs_dispatch_tick cs p g t + p.burst_time, tot + p.burst_time) := by
  obtain ⟨h1, h2, -, -, h5, -⟩ := fcfsFits_cons hf
  simp only [fcfs_body, fcfs_switch_eq cs p g t h1, int_add_of_isInt h2, int_add_of_isInt h5]

/-- The state the loop of `simulate_fcfs` continues from after the visit of
`p` meets `FcfsFits` for the processes still to visit. -/
theorem fcfsFits_tail (cs : Int) (p : PCB) (ps : List PCB) (g : List Interval) (t tot : Int)
    (hf : FcfsFits cs (p :: ps) g t tot) :
    FcfsFits cs ps (fcfs_body cs p g t tot).2.1 (fcfs_body cs p g t tot).2.2.1
      (fcfs_body cs p g t tot).2.2.2 := by
  rw [fcfs_body_rest cs p ps g t tot hf]
  exact (fcfsFits_cons hf).2.2.2.2.2

theorem fcfs_loop_done (cs : Int) (ps : List PCB) :
    ∀ (g : List Interval) (t tot : Int), FcfsFits cs ps g t tot →
      List.Forall₂ FcfsDone ps (fcfs_loop cs ps g t tot).processes := by
  induction ps with
  | nil => intro g t tot _; exact List.Forall₂.nil
  | cons p ps ih =>
    intro g t tot hf
    rw [fcfs_loop_cons]
    refine List.Forall₂.cons ?_ (ih _ _ _ (fcfsFits_tail cs p ps g t tot hf))
    rw [fcfs_body_proc cs p ps g t tot hf]
    refine ⟨rfl, rfl, rfl, rfl, rfl, ?_⟩
    simp

theorem fcfs_loop_gantt (cs : Int) (ps : List PCB) :
    ∀ (g : List Interval) (t tot : Int), FcfsFits cs ps g t tot →
      (fcfs_loop cs ps g t tot).gantt_chart =
        g ++ (fcfs_loop cs ps g t tot).processes.map fcfs_interval := by
  induction ps with
  | nil => intro g t tot _; simp [fcfs_loop_nil]
  | cons p ps ih =>
    intro g t tot hf
    rw [fcfs_loop_cons]
    simp only [List.map_cons]
    rw [ih _ _ _ (fcfsFits_tail cs p ps g t tot hf), fcfs_body_proc cs p ps g t tot hf,
      fcfs_body_rest cs p ps g t tot hf]
    simp [fcfs_interval]

theorem fcfs_loop_starts (cs : Int) (ps : List PCB) :
    ∀ (g : List Interval) (t tot : Int), FcfsFits cs ps g t tot →
      (∀ q ∈ (fcfs_loop cs ps g t tot).processes.head?,
        q.start_time = max t q.arrival_time + (if g = [] then 0 else cs)) ∧
      (fcfs_loop cs ps g t tot).processes.Chain'
        (fun p q => q.start_time = max p.finish_time q.arrival_time + cs) := by
  induction ps with
  | nil =>
    intro g t tot _
    simp [fcfs_loop_nil]
  | cons p ps ih =>
    intro g t tot hf
    rw [fcfs_loop_cons]
    have h := ih (fcfs_body cs p g t tot).2.1 (fcfs_body cs p g t tot).2.2.1
      (fcfs_body cs p g t tot).2.2.2 (fcfsFits_tail cs p ps g t tot hf)
    refine ⟨?_, ?_⟩
    · intro q hq
      simp only [List.head?_cons, Option.mem_def, Option.some.injEq] at hq
      subst hq
      rw [fcfs_body_proc cs p ps g t tot hf]
      rfl
    · rw [List.chain'_cons']
      refine ⟨?_, h.2⟩
      intro q hq
      have h1 := h.1 q hq
      rw [fcfs_body_rest cs p ps g t tot hf] at h1
      rw [fcfs_body_proc cs p ps g t tot hf]
      simpa using h1

theorem mem_le_max_arrival (ps : List PCB) : ∀ p ∈ ps, p.arrival_time ≤ max_arrival ps := by
  induction ps with
  | nil => intro p hp; cases hp
  | cons a ps ih =>
    intro p hp
    have e : max_arrival (a :: ps) = max a.arrival_time (max_arrival ps) := rfl
    rw [e]
    rcases List.mem_cons.1 hp with h | h
    · rw [h]; exact le_max_left _ _
    · exact le_trans (ih p h) (le_max_right _ _)

theorem max_arrival_nonneg (ps : List PCB) : 0 ≤ max_arrival ps := by
  cases ps with
  | nil => exact le_refl _
  | cons a ps =>
    have e : max_arrival (a :: ps) = max a.arrival_time (max_arrival ps) := rfl
    induction ps generalizing a with
    | nil => rw [e]; exact le_max_right _ _
    | cons b ps ih =>
      rw [e]
      exact le_trans (ih b rfl) (le_max_right _ _)

/-- On valid processes with a context switch that is not negative, the loop
of `simulate_fcfs` never wraps when it starts from a clock value `t` and an
accumulator `tot` such that a bound `B` on `t` and on the arrival times,
increased by `1 + cs` for every tick of burst time still to execute, stays in
the range of `int`. -/
theorem fcfsFits_of_bound (cs : Int) (hcs : 0 ≤ cs) (ps : List PCB) :
    ∀ (g : List Interval) (t tot B : Int),
      (∀ p ∈ ps, 0 ≤ p.arrival_time ∧ 0 < p.burst_time) → 0 ≤ t → 0 ≤ tot → t ≤ B →
      (∀ p ∈ ps, p.arrival_time ≤ B) →
      B + (1 + cs) * (ps.map PCB.burst_time).sum ≤ 2147483647 →
      tot + (ps.map PCB.burst_time).sum ≤ 2147483647 →
      FcfsFits cs ps g t tot := by
  induction ps with
  | nil => intro g t tot B _ _ _ _ _ _ _; trivial
  | cons p ps ih =>
    intro g t tot B hv ht htot htB harr hB hT
    obtain ⟨hpa, hpb⟩ := hv p (List.mem_cons_self _ _)
    have hpB := harr p (List.mem_cons_self _ _)
    simp only [List.map_cons, List.sum_cons] at hB hT
    have hsum : 0 ≤ (ps.map PCB.burst_time).sum :=
      List.sum_nonneg (fun x hx => by
        rcases List.mem_map.1 hx with ⟨q, hq, rfl⟩
        exact le_of_lt (hv q (List.mem_cons_of_mem _ hq)).2)
    have hmul : cs ≤ cs * p.burst_time := le_mul_of_one_le_right hcs (by omega)
    have hrest : 0 ≤ (1 + cs) * (ps.map PCB.burst_time).sum :=
      mul_nonneg (by omega) hsum
    have hexp : (1 + cs) * (p.burst_time + (ps.map PCB.burst_time).sum) =
        p.burst_time + cs * p.burst_time + (1 + cs) * (ps.map PCB.burst_time).sum := by ring
    rw [hexp] at hB
    have hd1 : p.arrival_time ≤ fcfs_dispatch_tick cs p g t ∧ t ≤ fcfs_dispatch_tick cs p g t ∧
        fcfs_dispatch_tick cs p g t ≤ B + cs := by
      unfold fcfs_dispatch_tick
      split_ifs <;> omega
    obtain ⟨hda, hdt, hdB⟩ := hd1
    refine ⟨?_, ?_, ?_, ?_, ?_, ?_⟩
    · unfold IsInt; omega
    · unfold IsInt; omega
    · unfold IsInt; omega
    · unfold IsInt; omega
    · unfold IsInt; omega
    · refine ih _ _ _ (B + p.burst_time + cs * p.burst_time)
        (fun q hq => hv q (List.mem_cons_of_mem _ hq)) (by omega) (by omega) (by omega)
        (fun q hq => ?_) ?_ ?_
      · have := harr q (List.mem_cons_of_mem _ hq)
        have h0 : 0 ≤ cs * p.burst_time := mul_nonneg hcs (by omega)
        omega
      · omega
      · omega

/-- Valid processes that meet `Fits` are processed by `simulate_fcfs` without
any wrap-around. -/
theorem fcfsFits_of_fits (ps : List PCB) (cs : Int) (hv : ValidProcesses ps) (hcs : 0 ≤ cs)
    (hfit : Fits ps cs) (g : List Interval) : FcfsFits cs ps g 0 0 := by
  have hsum : 0 ≤ (ps.map PCB.burst_time).sum :=
    List.sum_nonneg (fun x hx => by
      rcases List.mem_map.1 hx with ⟨q, hq, rfl⟩
      exact le_of_lt (hv q hq).2.1)
  have hM := max_arrival_nonneg ps
  have hle : (ps.map PCB.burst_time).sum ≤ (1 + cs) * (ps.map PCB.burst_time).sum := by
    have := mul_nonneg hcs hsum
    have e : (1 + cs) * (ps.map PCB.burst_time).sum =
        (ps.map PCB.burst_time).sum + cs * (ps.map PCB.burst_time).sum := by ring
    omega
  unfold Fits at hfit
  exact fcfsFits_of_bound cs hcs ps g 0 0 (max_arrival ps)
    (fun p hp => ⟨(hv p hp).1, (hv p hp).2.1⟩) (le_refl _) (le_refl _) hM
    (mem_le_max_arrival ps) hfit (by omega)

theorem forall₂_fcfsDone_pid {ps qs : List PCB} (h : List.Forall₂ FcfsDone ps qs) :
    qs.map PCB.pid = ps.map PCB.pid := by
  induction h with
  | nil => rfl
  | cons hpq _ ih => simp [hpq.1, ih]

theorem deref_set_self (ps : List PCB) (i : Nat) (x : PCB) (h : i < ps.length) :
    deref (ps.set i x) i = x := by
  simp [deref, List.getD_eq_getElem?_getD, List.getElem?_set, h]

theorem deref_set_ne (ps : List PCB) (i j : Nat) (x : PCB) (h : i ≠ j) :
    deref (ps.set i x) j = deref ps j := by
  simp [deref, List.getD_eq_getElem?_getD, List.getElem?_set, h]

theorem deref_of_lt (ps : List PCB) (i : Nat) (h : i < ps.length) :
    deref ps i = ps.get ⟨i, h⟩ := by
  simp [deref, List.getD_eq_getElem?_getD, h]

theorem deref_mem (ps : List PCB) (i : Nat) (h : i < ps.length) : deref ps i ∈ ps := by
  rw [deref_of_lt ps i h]; exact List.get_mem ps i h

theorem exists_deref_of_mem (ps : List PCB) (p : PCB) (h : p ∈ ps) :
    ∃ i, i < ps.length ∧ deref ps i = p := by
  obtain ⟨n, hn⟩ := List.get_of_mem h
  exact ⟨n.1, n.2, by rw [deref_of_lt ps n.1 n.2]; exact hn⟩

theorem map_range_deref {β : Type} (f : PCB → β) (ps : List PCB) :
    (List.range ps.length).map (fun i => f (deref ps i)) = ps.map f := by
  apply List.ext_getElem
  · simp
  · intro i h1 h2
    simp at h1
    simp [deref, List.getD_eq_getElem?_getD, h1]

theorem deref_pid_inj (ps : List PCB) (hu : UniquePids ps) (i j : Nat)
    (hi : i < ps.length) (hj : j < ps.length)
    (h : (deref ps i).pid = (deref ps j).pid) : i = j := by
  rw [deref_of_lt ps i hi, deref_of_lt ps j hj] at h
  have hi2 : i < (ps.map PCB.pid).length := by simpa using hi
  have hj2 : j < (ps.map PCB.pid).length := by simpa using hj
  have h1 : (ps.map PCB.pid).get ⟨i, hi2⟩ = (ps.map PCB.pid).get ⟨j, hj2⟩ := by
    simpa using h
  have := (List.Nodup.get_inj_iff hu).1 h1
  simpa using this

/-! ### The admission pass -/

theorem enqueue_arrived_processes (s : SimState) : (enqueue_arrived s).processes = s.processes := rfl

theorem enqueue_arrived_gantt (s : SimState) : (enqueue_arrived s).gantt_chart = s.gantt_chart := rfl

theorem enqueue_arrived_clock (s : SimState) : (enqueue_arrived s).current_time = s.current_time := rfl

theorem enqueue_arrived_total (s : SimState) : (enqueue_arrived s).total_burst_time = s.total_burst_time := rfl

theorem rem_of_enqueue_arrived (s : SimState) (i : Nat) : rem_of (enqueue_arrived s) i = rem_of s i := rfl

theorem mem_enqueue_arrived_all (s : SimState) (i : Nat) :
    i ∈ (enqueue_arrived s).all_processes ↔
      i ∈ s.all_processes ∧ s.current_time < (deref s.processes i).arrival_time := by
  simp [enqueue_arrived, List.mem_filter]

theorem mem_enqueue_arrived_queue (s : SimState) (i : Nat) :
    i ∈ (enqueue_arrived s).ready_queue ↔ i ∈ s.ready_queue ∨
      (i ∈ s.all_processes ∧ (deref s.processes i).arrival_time ≤ s.current_time) := by
  simp [enqueue_arrived, List.mem_filter]

theorem enqueue_arrived_perm (s : SimState) :
    ((enqueue_arrived s).all_processes ++ (enqueue_arrived s).ready_queue).Perm
      (s.all_processes ++ s.ready_queue) := by
  have h := List.filter_append_perm
    (fun i => decide ((deref s.processes i).arrival_time ≤ s.current_time)) s.all_processes
  show (List.filter _ s.all_processes ++ (s.ready_queue ++ List.filter _ s.all_processes)).Perm _
  calc (List.filter (fun i => !decide ((deref s.processes i).arrival_time ≤ s.current_time))
          s.all_processes ++ (s.ready_queue ++ List.filter
            (fun i => decide ((deref s.processes i).arrival_time ≤ s.current_time))
            s.all_processes)).Perm
        (List.filter (fun i => !decide ((deref s.processes i).arrival_time ≤ s.current_time))
          s.all_processes ++ (List.filter
            (fun i => decide ((deref s.processes i).arrival_time ≤ s.current_time))
            s.all_processes ++ s.ready_queue)) :=
        List.Perm.append_left _ List.perm_append_comm
    _ = ((List.filter (fun i => !decide ((deref s.processes i).arrival_time ≤ s.current_time))
          s.all_processes ++ List.filter
            (fun i => decide ((deref s.processes i).arrival_time ≤ s.current_time))
            s.all_processes) ++ s.ready_queue) := (List.append_assoc _ _ _).symm
    _ |>.Perm (s.all_processes ++ s.ready_queue) :=
        List.Perm.append_right _ (List.perm_append_comm.trans h)

/-- When the admission pass leaves the ready queue empty, it was empty before
and no pending process has arrived; the pass changes nothing. -/
theorem enqueue_arrived_of_queue_nil (s : SimState) (h : (enqueue_arrived s).ready_queue = []) :
    s.ready_queue = [] ∧
      (∀ i ∈ s.all_processes, s.current_time < (deref s.processes i).arrival_time) ∧
      enqueue_arrived s = s := by
  have hq : s.ready_queue = [] := by
    cases hs : s.ready_queue with
    | nil => rfl
    | cons a l =>
      have : a ∈ (enqueue_arrived s).ready_queue := (mem_enqueue_arrived_queue s a).2 (Or.inl (by simp [hs]))
      rw [h] at this; cases this
  have hno : ∀ i ∈ s.all_processes, s.current_time < (deref s.processes i).arrival_time := by
    intro i hi
    by_contra hc
    have : i ∈ (enqueue_arrived s).ready_queue := (mem_enqueue_arrived_queue s i).2 (Or.inr ⟨hi, by omega⟩)
    rw [h] at this; cases this
  refine ⟨hq, hno, ?_⟩
  have hall : (enqueue_arrived s).all_processes = s.all_processes := by
    apply List.filter_eq_self.2
    intro i hi
    have := hno i hi
    simp only [Bool.not_eq_true', decide_eq_false_iff_not, not_le]
    exact this
  cases s with
  | mk ps al rq g t tot =>
    have h1 : (enqueue_arrived (SimState.mk ps al rq g t tot)).ready_queue = rq := by
      rw [h]; exact hq.symm
    show SimState.mk ps (enqueue_arrived (SimState.mk ps al rq g t tot)).all_processes
      (enqueue_arrived (SimState.mk ps al rq g t tot)).ready_queue g t tot = _
    rw [hall, h1]

theorem run_slice_all (cs : Int) (s : SimState) (i : Nat) (e : Int) :
    (run_slice cs s i e).all_processes = s.all_processes := rfl

theorem run_slice_queue (cs : Int) (s : SimState) (i : Nat) (e : Int) :
    (run_slice cs s i e).ready_queue = s.ready_queue := rfl

theorem run_slice_total (cs : Int) (s : SimState) (i : Nat) (e : Int) :
    (run_slice cs s i e).total_burst_time = s.total_burst_time := rfl

theorem run_slice_clock (cs : Int) (s : SimState) (i : Nat) (e : Int) :
    (run_slice cs s i e).current_time = int_add (switch_clock cs s i) e := rfl

theorem run_slice_gantt (cs : Int) (s : SimState) (i : Nat) (e : Int) :
    (run_slice cs s i e).gantt_chart =
      s.gantt_chart ++ [((deref s.processes i).pid, switch_clock cs s i,
        int_add (switch_clock cs s i) e)] := rfl

theorem run_slice_processes (cs : Int) (s : SimState) (i : Nat) (e : Int) :
    (run_slice cs s i e).processes = s.processes.set i
      { deref s.processes i with
        remaining_time := int_sub (deref s.processes i).remaining_time e } := rfl

/-- A slice that is positive and no longer than the remaining time of a ready
process leaves a remaining time in the range of `int`: the subtraction does
not wrap. -/
theorem run_slice_remaining (ps0 : List PCB) (s : SimState) (h : Inv ps0 s) (i : Nat)
    (hi : i ∈ s.ready_queue) (e : Int) (hpos : 0 < e) (hle : e ≤ rem_of s i) :
    int_sub (deref s.processes i).remaining_time e = (deref s.processes i).remaining_time - e := by
  have h1 := h.ready i hi
  have h2 := (h.range i (h.bound i (List.mem_append_right _ hi))).2
  unfold rem_of at h1 hle
  apply int_sub_of_isInt
  unfold IsInt
  omega

theorem switch_clock_eq (cs : Int) (s : SimState) (i : Nat)
    (h : IsInt (s.current_time + cs)) : switch_clock cs s i = dispatch_tick cs s i := by
  unfold switch_clock dispatch_tick
  split
  · split_ifs
    · exact int_add_of_isInt h
    · rfl
  · rfl

theorem complete_all (s : SimState) (i : Nat) :
    (complete s i).all_processes = s.all_processes := rfl

theorem complete_queue (s : SimState) (i : Nat) :
    (complete s i).ready_queue = s.ready_queue := rfl

theorem complete_gantt (s : SimState) (i : Nat) :
    (complete s i).gantt_chart = s.gantt_chart := rfl

theorem complete_clock (s : SimState) (i : Nat) :
    (complete s i).current_time = s.current_time := rfl

theorem complete_total (s : SimState) (i : Nat) :
    (complete s i).total_burst_time =
      int_add s.total_burst_time (deref s.processes i).burst_time := rfl

theorem complete_processes (s : SimState) (i : Nat) :
    (complete s i).processes = s.processes.set i
      { deref s.processes i with
        finish_time := s.current_time,
        turnaround_time := int_sub s.current_time (deref s.processes i).arrival_time,
        waiting_time := int_sub (int_sub s.current_time (deref s.processes i).arrival_time)
          (deref s.processes i).burst_time } := rfl

theorem idle_jump_processes (s : SimState) : (idle_jump s).processes = s.processes := by
  unfold idle_jump; split <;> rfl

theorem idle_jump_all (s : SimState) : (idle_jump s).all_processes = s.all_processes := by
  unfold idle_jump; split <;> rfl

theorem idle_jump_queue (s : SimState) : (idle_jump s).ready_queue = s.ready_queue := by
  unfold idle_jump; split <;> rfl

theorem idle_jump_gantt (s : SimState) : (idle_jump s).gantt_chart = s.gantt_chart := by
  unfold idle_jump; split <;> rfl

theorem idle_jump_total (s : SimState) :
    (idle_jump s).total_burst_time = s.total_burst_time := by
  unfold idle_jump; split <;> rfl

theorem dispatch_tick_ge (cs : Int) (hcs : 0 ≤ cs) (s : SimState) (i : Nat) :
    s.current_time ≤ dispatch_tick cs s i := by
  unfold dispatch_tick
  split
  · split_ifs <;> omega
  · exact le_refl _

/-! ### Preservation of the invariant on the records -/

theorem inv_init (ps0 : List PCB) (g : List Interval) (hv : PositiveBursts ps0) :
    Inv ps0 (init_state ps0 g) where
  len := rfl
  static := fun _ => ⟨rfl, rfl, rfl⟩
  nodup := by simpa [init_state] using List.nodup_range ps0.length
  bound := by
    intro i hi
    simpa [init_state] using hi
  pending := by
    intro i hi
    have hi2 : i < ps0.length := by simpa [init_state] using hi
    have := hv _ (deref_mem ps0 i hi2)
    exact ⟨this.2.1, this.1⟩
  ready := by
    intro i hi
    simp [init_state] at hi
  done := by
    intro i hi hn
    exact absurd (by simpa [init_state] using hi) hn
  range := fun i hi =>
    ⟨(hv _ (deref_mem ps0 i hi)).2.2.1, (hv _ (deref_mem ps0 i hi)).2.2.2.2⟩

theorem inv_enqueue_arrived (ps0 : List PCB) (s : SimState) (h : Inv ps0 s) : Inv ps0 (enqueue_arrived s) where
  len := h.len
  static := h.static
  nodup := (enqueue_arrived_perm s).nodup_iff.2 h.nodup
  bound := fun i hi => h.bound i ((enqueue_arrived_perm s).mem_iff.1 hi)
  pending := fun i hi => h.pending i ((mem_enqueue_arrived_all s i).1 hi).1
  ready := by
    intro i hi
    rcases (mem_enqueue_arrived_queue s i).1 hi with hq | ⟨ha, _⟩
    · exact h.ready i hq
    · have := h.pending i ha
      rw [rem_of_enqueue_arrived]
      constructor <;> omega
  done := fun i hi hn => h.done i hi (fun hm => hn ((enqueue_arrived_perm s).mem_iff.2 hm))
  range := h.range

theorem inv_idle_jump (ps0 : List PCB) (s : SimState) (h : Inv ps0 s) :
    Inv ps0 (idle_jump s) where
  len := by rw [idle_jump_processes]; exact h.len
  static := by rw [idle_jump_processes]; exact h.static
  nodup := by rw [idle_jump_all, idle_jump_queue]; exact h.nodup
  bound := by rw [idle_jump_all, idle_jump_queue]; exact h.bound
  pending := by
    rw [idle_jump_all]; unfold rem_of; rw [idle_jump_processes]; exact h.pending
  ready := by
    rw [idle_jump_queue]; unfold rem_of; rw [idle_jump_processes]; exact h.ready
  done := by rw [idle_jump_all, idle_jump_queue, idle_jump_processes]; exact h.done
  range := h.range

/-- Facts about the pointer dispatched from a queue that is, up to order,
`i :: rest`: it is in range, nothing else in the pending list or the rest of
the queue equals it. -/
theorem inv_dispatch_facts (ps0 : List PCB) (s : SimState) (h : Inv ps0 s) (i : Nat)
    (rest : List Nat) (hq : s.ready_queue.Perm (i :: rest)) :
    i < s.processes.length ∧ i ∈ s.ready_queue ∧ i ∉ s.all_processes ∧ i ∉ rest ∧
      (∀ j ∈ rest, j ∈ s.ready_queue) := by
  have hi : i ∈ s.ready_queue := hq.mem_iff.2 (List.mem_cons_self _ _)
  have hnd := h.nodup
  rw [List.nodup_append] at hnd
  have hnd2 : (i :: rest).Nodup := hq.nodup_iff.1 hnd.2.1
  refine ⟨?_, hi, ?_, (List.nodup_cons.1 hnd2).1, ?_⟩
  · rw [h.len]; exact h.bound i (List.mem_append_right _ hi)
  · intro ha; exact hnd.2.2 ha hi
  · intro j hj; exact hq.mem_iff.2 (List.mem_cons_of_mem _ hj)

theorem inv_run (ps0 : List PCB) (cs : Int) (s : SimState) (h : Inv ps0 s) (i : Nat)
    (rest q : List Nat) (e : Int) (hq : s.ready_queue.Perm (i :: rest))
    (hpos : 0 < e) (hlt : e < rem_of s i) (hperm : q.Perm (i :: rest)) :
    Inv ps0 { run_slice cs s i e with ready_queue := q } := by
  obtain ⟨hil, hiq, hia, hir, hrest⟩ := inv_dispatch_facts ps0 s h i rest hq
  have hqq : q.Perm s.ready_queue := hperm.trans hq.symm
  have hother : ∀ j, j ≠ i → deref (run_slice cs s i e).processes j = deref s.processes j := by
    intro j hj
    rw [run_slice_processes, deref_set_ne _ _ _ _ (Ne.symm hj)]
  have hself : deref (run_slice cs s i e).processes i =
      { deref s.processes i with
        remaining_time := (deref s.processes i).remaining_time - e } := by
    rw [run_slice_processes, deref_set_self _ _ _ hil,
      run_slice_remaining ps0 s h i hiq e hpos (le_of_lt hlt)]
  refine ⟨?_, ?_, ?_, ?_, ?_, ?_, ?_, h.range⟩
  · show (run_slice cs s i e).processes.length = _
    rw [run_slice_processes, List.length_set]; exact h.len
  · intro j
    show (deref (run_slice cs s i e).processes j).pid = _ ∧ _
    by_cases hj : j = i
    · subst hj; rw [hself]; exact h.static j
    · rw [hother j hj]; exact h.static j
  · show (s.all_processes ++ q).Nodup
    exact (List.Perm.append_left _ hqq).nodup_iff.2 h.nodup
  · intro j hj
    exact h.bound j ((List.Perm.append_left _ hqq).mem_iff.1 hj)
  · intro j hj
    have hja : j ∈ s.all_processes := hj
    have hne : j ≠ i := fun hji => hia (hji ▸ hja)
    show (deref (run_slice cs s i e).processes j).remaining_time = _ ∧ _
    rw [hother j hne]; exact h.pending j hja
  · intro j hj
    have hjq : j ∈ s.ready_queue := hqq.mem_iff.1 hj
    show 0 < (deref (run_slice cs s i e).processes j).remaining_time ∧
      (deref (run_slice cs s i e).processes j).remaining_time ≤ _
    by_cases hji : j = i
    · subst hji
      rw [hself]
      have := h.ready j hjq
      unfold rem_of at this hlt
      simp only
      constructor <;> omega
    · rw [hother j hji]; exact h.ready j hjq
  · intro j hj hn
    have hn2 : j ∉ s.all_processes ++ s.ready_queue :=
      fun hm => hn ((List.Perm.append_left _ hqq).mem_iff.2 hm)
    have hne : j ≠ i := fun hji => hn2 (List.mem_append_right _ (hji ▸ hiq))
    show Completed (deref (run_slice cs s i e).processes j)
    rw [hother j hne]; exact h.done j hj hn2

theorem inv_finish (ps0 : List PCB) (cs : Int) (s : SimState) (h : Inv ps0 s) (i : Nat)
    (rest q : List Nat) (e : Int) (hq : s.ready_queue.Perm (i :: rest))
    (heq : e = rem_of s i) (hperm : q.Perm rest) :
    Inv ps0 { complete (run_slice cs s i e) i with ready_queue := q } := by
  obtain ⟨hil, hiq, hia, hir, hrest⟩ := inv_dispatch_facts ps0 s h i rest hq
  have hlen1 : (run_slice cs s i e).processes.length = s.processes.length := by
    rw [run_slice_processes, List.length_set]
  have hother : ∀ j, j ≠ i →
      deref (complete (run_slice cs s i e) i).processes j = deref s.processes j := by
    intro j hj
    rw [complete_processes, deref_set_ne _ _ _ _ (Ne.symm hj), run_slice_processes,
      deref_set_ne _ _ _ _ (Ne.symm hj)]
  have hpos : 0 < e := by rw [heq]; exact (h.ready i hiq).1
  have hself1 : deref (run_slice cs s i e).processes i =
      { deref s.processes i with
        remaining_time := (deref s.processes i).remaining_time - e } := by
    rw [run_slice_processes, deref_set_self _ _ _ hil,
      run_slice_remaining ps0 s h i hiq e hpos (le_of_eq heq)]
  have hself : deref (complete (run_slice cs s i e) i).processes i =
      { deref s.processes i with
        remaining_time := (deref s.processes i).remaining_time - e,
        finish_time := (run_slice cs s i e).current_time,
        turnaround_time :=
          int_sub (run_slice cs s i e).current_time (deref s.processes i).arrival_time,
        waiting_time :=
          int_sub (int_sub (run_slice cs s i e).current_time (deref s.processes i).arrival_time)
            (deref s.processes i).burst_time } := by
    rw [complete_processes, deref_set_self _ _ _ (by rw [hlen1]; exact hil), hself1]
  have hmem : ∀ j, j ∈ s.all_processes ++ q → j ∈ s.all_processes ++ s.ready_queue := by
    intro j hj
    rcases List.mem_append.1 hj with ha | hb
    · exact List.mem_append_left _ ha
    · exact List.mem_append_right _ (hrest j (hperm.mem_iff.1 hb))
  have hniq : i ∉ q := fun hm => hir (hperm.mem_iff.1 hm)
  refine ⟨?_, ?_, ?_, ?_, ?_, ?_, ?_, h.range⟩
  · show (complete (run_slice cs s i e) i).processes.length = _
    rw [complete_processes, List.length_set, hlen1]; exact h.len
  · intro j
    show (deref (complete (run_slice cs s i e) i).processes j).pid = _ ∧ _
    by_cases hj : j = i
    · subst hj; rw [hself]; exact h.static j
    · rw [hother j hj]; exact h.static j
  · show (s.all_processes ++ q).Nodup
    have hnd := h.nodup
    have h1 : (s.all_processes ++ (i :: rest)).Nodup :=
      (List.Perm.append_left _ hq).nodup_iff.1 hnd
    have h2 : (s.all_processes ++ rest).Nodup := by
      refine List.Nodup.sublist ?_ h1
      exact List.Sublist.append_left (List.sublist_cons_self _ _) _
    exact (List.Perm.append_left _ hperm).nodup_iff.2 h2
  · intro j hj
    exact h.bound j (hmem j hj)
  · intro j hj
    have hja : j ∈ s.all_processes := hj
    have hne : j ≠ i := fun hji => hia (hji ▸ hja)
    show (deref (complete (run_slice cs s i e) i).processes j).remaining_time = _ ∧ _
    rw [hother j hne]; exact h.pending j hja
  · intro j hj
    have hjq : j ∈ q := hj
    have hne : j ≠ i := fun hji => hniq (hji ▸ hjq)
    show 0 < (deref (complete (run_slice cs s i e) i).processes j).remaining_time ∧
      (deref (complete (run_slice cs s i e) i).processes j).remaining_time ≤ _
    rw [hother j hne]; exact h.ready j (hrest j (hperm.mem_iff.1 hjq))
  · intro j hj hn
    show Completed (deref (complete (run_slice cs s i e) i).processes j)
    by_cases hji : j = i
    · subst hji
      rw [hself]
      unfold rem_of at heq
      refine ⟨?_, rfl, rfl⟩
      simp only
      omega
    · rw [hother j hji]
      apply h.done j hj
      intro hm
      rcases List.mem_append.1 hm with ha | hb
      · exact hn (List.mem_append_left _ ha)
      · have : j ∈ i :: rest := hq.mem_iff.1 hb
        rcases List.mem_cons.1 this with h1 | h1
        · exact hji h1
        · exact hn (List.mem_append_right _ (hperm.mem_iff.2 h1))

/-- The invariant on the records is kept by every loop iteration. -/
theorem inv_step (ps0 : List PCB) (slice : Int → Int) (cs : Int) (s t : SimState)
    (h : Inv ps0 s) (hst : Step slice cs s t) : Inv ps0 t := by
  cases hst with
  | idle hq hall => exact inv_idle_jump ps0 _ (inv_enqueue_arrived ps0 s h)
  | run i rest q hq hpos hlt hperm =>
    exact inv_run ps0 cs (enqueue_arrived s) (inv_enqueue_arrived ps0 s h) i rest q _ hq hpos hlt hperm
  | finish i rest q hq heq hperm =>
    exact inv_finish ps0 cs (enqueue_arrived s) (inv_enqueue_arrived ps0 s h) i rest q _ hq heq hperm

/-! ### The loop bodies are iterations in the sense of `Step` -/

theorem srt_body_nil (sort : List PCB → List Nat → List Nat) (cs : Int) (s : SimState)
    (h : sort (enqueue_arrived s).processes (enqueue_arrived s).ready_queue = []) :
    srt_body sort cs s = idle_jump { enqueue_arrived s with ready_queue := [] } := by
  unfold srt_body
  simp only [h]

theorem srt_body_cons (sort : List PCB → List Nat → List Nat) (cs : Int) (s : SimState)
    (i : Nat) (rest : List Nat)
    (h : sort (enqueue_arrived s).processes (enqueue_arrived s).ready_queue = i :: rest) :
    srt_body sort cs s =
      if (deref (run_slice cs (enqueue_arrived s) i 1).processes i).remaining_time = 0 then
        { complete (run_slice cs (enqueue_arrived s) i 1) i with ready_queue := rest }
      else { run_slice cs (enqueue_arrived s) i 1 with ready_queue := i :: rest } := by
  unfold srt_body
  simp only [h]
  rfl

theorem rr_body_nil (quantum cs : Int) (s : SimState) (h : (enqueue_arrived s).ready_queue = []) :
    rr_body quantum cs s = idle_jump (enqueue_arrived s) := by
  unfold rr_body
  simp only [h]

theorem rr_body_cons (quantum cs : Int) (s : SimState) (i : Nat) (rest : List Nat)
    (h : (enqueue_arrived s).ready_queue = i :: rest) :
    rr_body quantum cs s =
      if (deref (run_slice cs (enqueue_arrived s) i (min (rem_of s i) quantum)).processes i).remaining_time
          > 0 then
        { run_slice cs (enqueue_arrived s) i (min (rem_of s i) quantum) with ready_queue := rest ++ [i] }
      else
        { complete (run_slice cs (enqueue_arrived s) i (min (rem_of s i) quantum)) i with
          ready_queue := rest } := by
  unfold rr_body
  simp only [h]
  rfl

theorem queue_nil_eta (s : SimState) (h : s.ready_queue = []) :
    ({ s with ready_queue := [] } : SimState) = s := by
  cases s with
  | mk ps al rq g t tot =>
    have h1 : rq = [] := h
    subst h1
    rfl

theorem srt_body_step (ps0 : List PCB) (sort : List PCB → List Nat → List Nat)
    (hsort : IsStdSort sort) (cs : Int) (s : SimState) (h : Inv ps0 s)
    (hc : s.all_processes ≠ [] ∨ s.ready_queue ≠ []) :
    Step (fun _ => 1) cs s (srt_body sort cs s) := by
  have hp := (hsort (enqueue_arrived s).processes (enqueue_arrived s).ready_queue).1
  cases hsq : sort (enqueue_arrived s).processes (enqueue_arrived s).ready_queue with
  | nil =>
    rw [hsq] at hp
    have hq : (enqueue_arrived s).ready_queue = [] := List.Perm.eq_nil hp.symm
    have hs := enqueue_arrived_of_queue_nil s hq
    have hall : s.all_processes ≠ [] := by
      rcases hc with hc | hc
      · exact hc
      · exact absurd hs.1 hc
    rw [srt_body_nil sort cs s hsq, queue_nil_eta _ hq]
    exact Step.idle s hq hall
  | cons i rest =>
    rw [hsq] at hp
    have hi := inv_enqueue_arrived ps0 s h
    obtain ⟨hil, hiq, -, -, -⟩ := inv_dispatch_facts ps0 (enqueue_arrived s) hi i rest hp.symm
    have hrem := hi.ready i hiq
    rw [rem_of_enqueue_arrived] at hrem
    have hself : (deref (run_slice cs (enqueue_arrived s) i 1).processes i).remaining_time =
        rem_of s i - 1 := by
      rw [run_slice_processes, deref_set_self _ _ _ hil]
      exact run_slice_remaining ps0 (enqueue_arrived s) hi i hiq 1 (by norm_num)
        (by show 1 ≤ rem_of s i; omega)
    rw [srt_body_cons sort cs s i rest hsq, hself]
    split_ifs with h0
    · have heq : (fun _ : Int => (1 : Int)) (rem_of s i) = rem_of s i := by
        show (1 : Int) = rem_of s i
        omega
      exact @Step.finish (fun _ => 1) cs s i rest rest hp.symm heq (List.Perm.refl _)
    · have hlt : (fun _ : Int => (1 : Int)) (rem_of s i) < rem_of s i := by
        show (1 : Int) < rem_of s i
        omega
      exact @Step.run (fun _ => 1) cs s i rest (i :: rest) hp.symm (by norm_num) hlt
        (List.Perm.refl _)

theorem rr_body_step (ps0 : List PCB) (quantum cs : Int) (hquantum : 0 < quantum)
    (s : SimState) (h : Inv ps0 s)
    (hc : s.all_processes ≠ [] ∨ s.ready_queue ≠ []) :
    Step (fun r => min r quantum) cs s (rr_body quantum cs s) := by
  cases hsq : (enqueue_arrived s).ready_queue with
  | nil =>
    have hs := enqueue_arrived_of_queue_nil s hsq
    have hall : s.all_processes ≠ [] := by
      rcases hc with hc | hc
      · exact hc
      · exact absurd hs.1 hc
    rw [rr_body_nil quantum cs s hsq]
    exact Step.idle s hsq hall
  | cons i rest =>
    have hi := inv_enqueue_arrived ps0 s h
    have hp : (enqueue_arrived s).ready_queue.Perm (i :: rest) := by rw [hsq]
    obtain ⟨hil, hiq, -, -, -⟩ := inv_dispatch_facts ps0 (enqueue_arrived s) hi i rest hp
    have hrem := hi.ready i hiq
    rw [rem_of_enqueue_arrived] at hrem
    have hself : (deref (run_slice cs (enqueue_arrived s) i (min (rem_of s i) quantum)).processes
        i).remaining_time = rem_of s i - min (rem_of s i) quantum := by
      rw [run_slice_processes, deref_set_self _ _ _ hil]
      exact run_slice_remaining ps0 (enqueue_arrived s) hi i hiq (min (rem_of s i) quantum)
        (by omega) (by show min (rem_of s i) quantum ≤ rem_of s i; omega)
    rw [rr_body_cons quantum cs s i rest hsq, hself]
    split_ifs with h0
    · have hlt : (fun r : Int => min r quantum) (rem_of s i) < rem_of s i := by
        show min (rem_of s i) quantum < rem_of s i
        omega
      have hpos : 0 < (fun r : Int => min r quantum) (rem_of s i) := by
        show 0 < min (rem_of s i) quantum
        omega
      exact @Step.run (fun r => min r quantum) cs s i rest (rest ++ [i]) hp hpos hlt
        (List.perm_append_singleton i rest)
    · have heq : (fun r : Int => min r quantum) (rem_of s i) = rem_of s i := by
        show min (rem_of s i) quantum = rem_of s i
        omega
      exact @Step.finish (fun r => min r quantum) cs s i rest rest hp heq (List.Perm.refl _)

/-! ## The loop: invariants, fuel and termination -/

theorem run_loop_zero (body : SimState → SimState) (s : SimState) :
    run_loop body 0 s = none := rfl

theorem run_loop_succ_of_cond (body : SimState → SimState) (fuel : Nat) (s : SimState)
    (hc : s.all_processes ≠ [] ∨ s.ready_queue ≠ []) :
    run_loop body (fuel + 1) s = run_loop body fuel (body s) := by
  show (if s.all_processes ≠ [] ∨ s.ready_queue ≠ [] then _ else _) = _
  rw [if_pos hc]

theorem run_loop_succ_of_not_cond (body : SimState → SimState) (fuel : Nat) (s : SimState)
    (hc : ¬ (s.all_processes ≠ [] ∨ s.ready_queue ≠ [])) :
    run_loop body (fuel + 1) s = some s := by
  show (if s.all_processes ≠ [] ∨ s.ready_queue ≠ [] then _ else _) = _
  rw [if_neg hc]

/-- A property kept by the body while the loop condition holds is true of the
state the loop ends in, where both the pending list and the ready queue are
empty. -/
theorem run_loop_invariant (body : SimState → SimState) (P : SimState → Prop)
    (hP : ∀ s, P s → (s.all_processes ≠ [] ∨ s.ready_queue ≠ []) → P (body s)) :
    ∀ (fuel : Nat) (s t : SimState), P s → run_loop body fuel s = some t →
      P t ∧ t.all_processes = [] ∧ t.ready_queue = [] := by
  intro fuel
  induction fuel with
  | zero => intro s t _ h; simp [run_loop_zero] at h
  | succ n ih =>
    intro s t hs h
    by_cases hc : s.all_processes ≠ [] ∨ s.ready_queue ≠ []
    · rw [run_loop_succ_of_cond body n s hc] at h
      exact ih (body s) t (hP s hs hc) h
    · rw [run_loop_succ_of_not_cond body n s hc] at h
      have hst : s = t := by simpa using h
      subst hst
      push_neg at hc
      exact ⟨hs, hc.1, hc.2⟩

/-- More fuel does not change the result of a loop that has ended. -/
theorem run_loop_mono (body : SimState → SimState) :
    ∀ (fuel fuel2 : Nat) (s t : SimState), fuel ≤ fuel2 → run_loop body fuel s = some t →
      run_loop body fuel2 s = some t := by
  intro fuel
  induction fuel with
  | zero => intro fuel2 s t _ h; simp [run_loop_zero] at h
  | succ n ih =>
    intro fuel2 s t hle h
    obtain ⟨m, rfl⟩ : ∃ m, fuel2 = m + 1 := ⟨fuel2 - 1, by omega⟩
    by_cases hc : s.all_processes ≠ [] ∨ s.ready_queue ≠ []
    · rw [run_loop_succ_of_cond body n s hc] at h
      rw [run_loop_succ_of_cond body m s hc]
      exact ih m (body s) t (by omega) h
    · rw [run_loop_succ_of_not_cond body n s hc] at h
      rw [run_loop_succ_of_not_cond body m s hc]
      exact h

theorem no_arrival_bounds (s : SimState) : 0 ≤ no_arrival s ∧ no_arrival s ≤ 1 := by
  unfold no_arrival; split_ifs <;> omega

theorem sum_map_perm_cons (f : Nat → Int) (l L : List Nat) (i : Nat)
    (h : l.Perm (i :: L)) : (l.map f).sum = f i + (L.map f).sum := by
  rw [(h.map f).sum_eq, List.map_cons, List.sum_cons]

theorem sum_map_congr_mem (f g : Nat → Int) (L : List Nat)
    (h : ∀ j ∈ L, f j = g j) : (L.map f).sum = (L.map g).sum := by
  rw [List.map_congr_left h]

theorem sum_map_nonneg (f : Nat → Int) (L : List Nat) (h : ∀ j ∈ L, 0 ≤ f j) :
    0 ≤ (L.map f).sum := by
  apply List.sum_nonneg
  intro x hx
  rcases List.mem_map.1 hx with ⟨j, hj, rfl⟩
  exact h j hj

theorem work_nonneg (ps0 : List PCB) (s : SimState) (h : Inv ps0 s) : 0 ≤ work s := by
  apply sum_map_nonneg
  intro j hj
  rcases List.mem_append.1 hj with ha | hq
  · have := h.pending j ha; omega
  · have := h.ready j hq; omega

theorem measure_nonneg (ps0 : List PCB) (s : SimState) (h : Inv ps0 s) : 0 ≤ measure s := by
  have := work_nonneg ps0 s h
  have := no_arrival_bounds s
  unfold measure; omega

theorem work_enqueue_arrived (s : SimState) : work (enqueue_arrived s) = work s :=
  ((enqueue_arrived_perm s).map (rem_of s)).sum_eq

/-- Sum of a pointer-indexed quantity over the pending list and a queue that is
`i :: rest` up to order. -/
theorem sum_split (f : Nat → Int) (al q rest : List Nat) (i : Nat)
    (hq : q.Perm (i :: rest)) :
    ((al ++ q).map f).sum = f i + ((al ++ rest).map f).sum := by
  apply sum_map_perm_cons
  calc (al ++ q).Perm (al ++ (i :: rest)) := List.Perm.append_left _ hq
    _ |>.Perm (i :: (al ++ rest)) := List.perm_middle

theorem work_run (ps0 : List PCB) (cs : Int) (s : SimState) (h : Inv ps0 s) (i : Nat)
    (rest q : List Nat) (e : Int) (hq : s.ready_queue.Perm (i :: rest))
    (hperm : q.Perm (i :: rest)) (hpos : 0 < e) (hle : e ≤ rem_of s i) :
    work { run_slice cs s i e with ready_queue := q } = work s - e := by
  obtain ⟨hil, hiq, hia, hir, hrest⟩ := inv_dispatch_facts ps0 s h i rest hq
  have h1 : work s = rem_of s i + ((s.all_processes ++ rest).map (rem_of s)).sum :=
    sum_split _ _ _ _ _ hq
  have h2 : work { run_slice cs s i e with ready_queue := q } =
      rem_of { run_slice cs s i e with ready_queue := q } i +
        ((s.all_processes ++ rest).map
          (rem_of { run_slice cs s i e with ready_queue := q })).sum :=
    sum_split _ _ _ _ _ hperm
  have h3 : rem_of { run_slice cs s i e with ready_queue := q } i = rem_of s i - e := by
    show (deref (run_slice cs s i e).processes i).remaining_time = _
    rw [run_slice_processes, deref_set_self _ _ _ hil]
    exact run_slice_remaining ps0 s h i hiq e hpos hle
  have h4 : ((s.all_processes ++ rest).map
      (rem_of { run_slice cs s i e with ready_queue := q })).sum =
      ((s.all_processes ++ rest).map (rem_of s)).sum := by
    apply sum_map_congr_mem
    intro j hj
    have hne : i ≠ j := by
      intro hij; subst hij
      rcases List.mem_append.1 hj with ha | hb
      · exact hia ha
      · exact hir hb
    show (deref (run_slice cs s i e).processes j).remaining_time = _
    rw [run_slice_processes, deref_set_ne _ _ _ _ hne]; rfl
  rw [h2, h3, h4, h1]; ring

theorem work_finish (ps0 : List PCB) (cs : Int) (s : SimState) (h : Inv ps0 s) (i : Nat)
    (rest q : List Nat) (e : Int) (hq : s.ready_queue.Perm (i :: rest))
    (hperm : q.Perm rest) :
    work { complete (run_slice cs s i e) i with ready_queue := q } = work s - rem_of s i := by
  obtain ⟨hil, hiq, hia, hir, hrest⟩ := inv_dispatch_facts ps0 s h i rest hq
  have h1 : work s = rem_of s i + ((s.all_processes ++ rest).map (rem_of s)).sum :=
    sum_split _ _ _ _ _ hq
  have h2 : work { complete (run_slice cs s i e) i with ready_queue := q } =
      ((s.all_processes ++ rest).map
        (rem_of { complete (run_slice cs s i e) i with ready_queue := q })).sum :=
    ((List.Perm.append_left s.all_processes hperm).map _).sum_eq
  have h4 : ((s.all_processes ++ rest).map
      (rem_of { complete (run_slice cs s i e) i with ready_queue := q })).sum =
      ((s.all_processes ++ rest).map (rem_of s)).sum := by
    apply sum_map_congr_mem
    intro j hj
    have hne : i ≠ j := by
      intro hij; subst hij
      rcases List.mem_append.1 hj with ha | hb
      · exact hia ha
      · exact hir hb
    show (deref (complete (run_slice cs s i e) i).processes j).remaining_time = _
    rw [complete_processes, deref_set_ne _ _ _ _ hne, run_slice_processes,
      deref_set_ne _ _ _ _ hne]; rfl
  rw [h2, h4, h1]; ring

/-- Every loop iteration decreases the termination measure. -/
theorem measure_step (ps0 : List PCB) (slice : Int → Int) (cs : Int) (s t : SimState)
    (h : Inv ps0 s) (hst : Step slice cs s t) : measure t < measure s := by
  have hi := inv_enqueue_arrived ps0 s h
  have hw := work_enqueue_arrived s
  cases hst with
  | idle hq hall =>
    obtain ⟨hq0, hno, hs⟩ := enqueue_arrived_of_queue_nil s hq
    rw [hs]
    cases hal : s.all_processes with
    | nil => exact absurd hal hall
    | cons j l =>
      have hw2 : work (idle_jump s) = work s := by
        unfold work rem_of
        rw [idle_jump_all, idle_jump_queue, idle_jump_processes]
      have hj1 : no_arrival s = 1 := by
        unfold no_arrival; rw [if_pos hno]
      have hj2 : no_arrival (idle_jump s) = 0 := by
        unfold no_arrival
        rw [if_neg]
        intro hcon
        have hj := hcon j (by rw [idle_jump_all, hal]; exact List.mem_cons_self _ _)
        rw [idle_jump_processes] at hj
        have hc : (idle_jump s).current_time = (deref s.processes j).arrival_time := by
          unfold idle_jump; rw [hal]
        rw [hc] at hj
        exact lt_irrefl _ hj
      unfold measure
      rw [hw2, hj1, hj2]; omega
  | run i rest q hq hpos hlt hperm =>
    have := work_run ps0 cs (enqueue_arrived s) hi i rest q (slice (rem_of s i)) hq hperm
      hpos (le_of_lt hlt)
    have hb1 := no_arrival_bounds s
    have hb2 := no_arrival_bounds
      { run_slice cs (enqueue_arrived s) i (slice (rem_of s i)) with ready_queue := q }
    unfold measure
    omega
  | finish i rest q hq heq hperm =>
    have := work_finish ps0 cs (enqueue_arrived s) hi i rest q (slice (rem_of s i)) hq hperm
    have hiq : i ∈ (enqueue_arrived s).ready_queue := hq.mem_iff.2 (List.mem_cons_self _ _)
    have hr := hi.ready i hiq
    rw [rem_of_enqueue_arrived] at hr this
    have hb1 := no_arrival_bounds s
    have hb2 := no_arrival_bounds
      { complete (run_slice cs (enqueue_arrived s) i (slice (rem_of s i))) i with
        ready_queue := q }
    unfold measure
    omega

/-- A loop whose body is an iteration in the sense of `Step` on every state
satisfying the invariant ends within `measure s + 1` iterations. -/
theorem run_loop_terminates (ps0 : List PCB) (slice : Int → Int) (cs : Int)
    (body : SimState → SimState)
    (hbody : ∀ s, Inv ps0 s → (s.all_processes ≠ [] ∨ s.ready_queue ≠ []) →
      Step slice cs s (body s)) :
    ∀ (n : Nat) (s : SimState), Inv ps0 s → measure s ≤ n →
      ∃ t, run_loop body (n + 1) s = some t := by
  intro n
  induction n with
  | zero =>
    intro s hs hm
    by_cases hc : s.all_processes ≠ [] ∨ s.ready_queue ≠ []
    · have h1 := measure_step ps0 slice cs s (body s) hs (hbody s hs hc)
      have h2 := measure_nonneg ps0 (body s) (inv_step ps0 slice cs s (body s) hs (hbody s hs hc))
      omega
    · exact ⟨s, run_loop_succ_of_not_cond body 0 s hc⟩
  | succ n ih =>
    intro s hs hm
    by_cases hc : s.all_processes ≠ [] ∨ s.ready_queue ≠ []
    · have h1 := measure_step ps0 slice cs s (body s) hs (hbody s hs hc)
      have h2 := inv_step ps0 slice cs s (body s) hs (hbody s hs hc)
      obtain ⟨t, ht⟩ := ih (body s) h2 (by push_cast at hm ⊢; omega)
      exact ⟨t, by rw [run_loop_succ_of_cond body (n + 1) s hc]; exact ht⟩
    · exact ⟨s, run_loop_succ_of_not_cond body (n + 1) s hc⟩

/-- A property kept by every iteration (in the sense of `Step`) from states
satisfying the invariant holds when the loop ends. -/
theorem run_loop_step_invariant (ps0 : List PCB) (slice : Int → Int) (cs : Int)
    (body : SimState → SimState)
    (hbody : ∀ s, Inv ps0 s → (s.all_processes ≠ [] ∨ s.ready_queue ≠ []) →
      Step slice cs s (body s))
    (Q : SimState → Prop)
    (hQ : ∀ s t, Inv ps0 s → Q s → Step slice cs s t → Q t)
    (fuel : Nat) (s t : SimState) (hs : Inv ps0 s) (hq : Q s)
    (hrun : run_loop body fuel s = some t) :
    Inv ps0 t ∧ Q t ∧ t.all_processes = [] ∧ t.ready_queue = [] := by
  have := run_loop_invariant body (fun s => Inv ps0 s ∧ Q s)
    (fun s hs hc => ⟨inv_step ps0 slice cs s (body s) hs.1 (hbody s hs.1 hc),
      hQ s (body s) hs.1 hs.2 (hbody s hs.1 hc)⟩) fuel s t ⟨hs, hq⟩ hrun
  exact ⟨this.1.1, this.1.2, this.2.1, this.2.2⟩

theorem measure_init (ps0 : List PCB) (g : List Interval) (hv : PositiveBursts ps0) :
    measure (init_state ps0 g) ≤ 2 * (ps0.map PCB.burst_time).sum + 1 := by
  have hw : work (init_state ps0 g) = (ps0.map PCB.burst_time).sum := by
    show ((List.range ps0.length ++ []).map (fun i => (deref ps0 i).remaining_time)).sum = _
    rw [List.append_nil, map_range_deref (fun p => p.remaining_time) ps0]
    congr 1
    exact List.map_congr_left (fun p hp => (hv p hp).2.1)
  have := no_arrival_bounds (init_state ps0 g)
  unfold measure
  omega

theorem sum_burst_nonneg (ps0 : List PCB) (hv : PositiveBursts ps0) :
    0 ≤ (ps0.map PCB.burst_time).sum := by
  apply List.sum_nonneg
  intro x hx
  rcases List.mem_map.1 hx with ⟨p, hp, rfl⟩
  exact le_of_lt (hv p hp).1

/-- With `enough_fuel` the loop ends, for every body that is an iteration in
the sense of `Step`. -/
theorem run_loop_enough_fuel (ps0 : List PCB) (g : List Interval) (hv : PositiveBursts ps0)
    (slice : Int → Int) (cs : Int) (body : SimState → SimState)
    (hbody : ∀ s, Inv ps0 s → (s.all_processes ≠ [] ∨ s.ready_queue ≠ []) →
      Step slice cs s (body s)) :
    ∃ t, ∀ fuel, enough_fuel ps0 ≤ fuel → run_loop body fuel (init_state ps0 g) = some t := by
  have hm := measure_init ps0 g hv
  have hn := sum_burst_nonneg ps0 hv
  obtain ⟨t, ht⟩ := run_loop_terminates ps0 slice cs body hbody
    (2 * ((ps0.map PCB.burst_time).sum).toNat + 1) (init_state ps0 g) (inv_init ps0 g hv)
    (by push_cast; rw [Int.toNat_of_nonneg hn]; exact hm)
  exact ⟨t, fun fuel hf => run_loop_mono body _ fuel _ t hf ht⟩

theorem step_view (ps0 : List PCB) (slice : Int → Int) (cs : Int) (s t : SimState)
    (h : Inv ps0 s) (hst : Step slice cs s t) :
    Idled s t ∨ ∃ i rest e, Ran ps0 slice cs s t i rest e := by
  have hi := inv_enqueue_arrived ps0 s h
  cases hst with
  | idle hq hall =>
    left
    obtain ⟨hq0, hno, hs⟩ := enqueue_arrived_of_queue_nil s hq
    rw [hs]
    refine ⟨hq0, hno, idle_jump_processes s, idle_jump_all s, ?_, idle_jump_gantt s,
      idle_jump_total s, ?_⟩
    · rw [idle_jump_queue]; exact hq0
    · cases hal : s.all_processes with
      | nil => exact absurd hal hall
      | cons j l =>
        refine ⟨j, l, rfl, ?_⟩
        unfold idle_jump; rw [hal]
  | run i rest q hq hpos hlt hperm =>
    right
    obtain ⟨hil, hiq, hia, hir, hrest⟩ := inv_dispatch_facts ps0 _ hi i rest hq
    have hrem := run_slice_remaining ps0 (enqueue_arrived s) hi i hiq (slice (rem_of s i)) hpos
      (le_of_lt hlt)
    refine ⟨i, rest, slice (rem_of s i), hq, rfl, hpos, le_of_lt hlt, ?_, rfl, rfl, ?_, ?_,
      ?_, ?_, ?_, ?_⟩
    · show (run_slice cs (enqueue_arrived s) i _).gantt_chart = _
      rw [run_slice_gantt, enqueue_arrived_gantt, enqueue_arrived_processes, (h.static i).1]
      rfl
    · rw [if_pos hlt]; exact hperm
    · rw [if_pos hlt]; rfl
    · show (deref (run_slice cs (enqueue_arrived s) i _).processes i).remaining_time = _
      rw [run_slice_processes, deref_set_self _ _ _ hil]
      exact hrem
    · intro j hj
      show deref (run_slice cs (enqueue_arrived s) i _).processes j = _
      rw [run_slice_processes, deref_set_ne _ _ _ _ (Ne.symm hj)]; rfl
    · intro _
      show deref (run_slice cs (enqueue_arrived s) i _).processes i = _
      rw [run_slice_processes, deref_set_self _ _ _ hil, hrem]; rfl
    · intro he; omega
  | finish i rest q hq heq hperm =>
    right
    obtain ⟨hil, hiq, hia, hir, hrest⟩ := inv_dispatch_facts ps0 _ hi i rest hq
    have hr := hi.ready i hiq
    rw [rem_of_enqueue_arrived] at hr
    have hnlt : ¬ slice (rem_of s i) < rem_of s i := by omega
    have hrem := run_slice_remaining ps0 (enqueue_arrived s) hi i hiq (slice (rem_of s i))
      (by omega) (le_of_eq heq)
    have hlen1 : i < (run_slice cs (enqueue_arrived s) i (slice (rem_of s i))).processes.length := by
      rw [run_slice_processes, List.length_set]; exact hil
    refine ⟨i, rest, slice (rem_of s i), hq, rfl, by omega, by omega, ?_, rfl, rfl, ?_, ?_,
      ?_, ?_, ?_, ?_⟩
    · show (complete (run_slice cs (enqueue_arrived s) i _) i).gantt_chart = _
      rw [complete_gantt, run_slice_gantt, enqueue_arrived_gantt, enqueue_arrived_processes,
        (h.static i).1]
      rfl
    · rw [if_neg hnlt]; exact hperm
    · rw [if_neg hnlt]
      show (complete (run_slice cs (enqueue_arrived s) i _) i).total_burst_time = _
      rw [complete_total, run_slice_total, run_slice_processes, deref_set_self _ _ _ hil,
        enqueue_arrived_total]
      show int_add _ (deref s.processes i).burst_time = _
      rw [(h.static i).2.2]
    · show (deref (complete (run_slice cs (enqueue_arrived s) i _) i).processes i).remaining_time
        = _
      rw [complete_processes, deref_set_self _ _ _ hlen1, run_slice_processes,
        deref_set_self _ _ _ hil]
      exact hrem
    · intro j hj
      show deref (complete (run_slice cs (enqueue_arrived s) i _) i).processes j = _
      rw [complete_processes, deref_set_ne _ _ _ _ (Ne.symm hj), run_slice_processes,
        deref_set_ne _ _ _ _ (Ne.symm hj)]; rfl
    · intro he; omega
    · intro _
      show (deref (complete (run_slice cs (enqueue_arrived s) i _) i).processes i).finish_time
        = (complete (run_slice cs (enqueue_arrived s) i _) i).current_time
      rw [complete_processes, deref_set_self _ _ _ hlen1, complete_clock]

/-- Consequences of a dispatch for the pointers involved. -/
theorem Ran.facts {ps0 : List PCB} {slice : Int → Int} {cs : Int} {s t : SimState}
    {i : Nat} {rest : List Nat} {e : Int} (hd : Ran ps0 slice cs s t i rest e)
    (h : Inv ps0 s) :
    i < ps0.length ∧ i ∈ (enqueue_arrived s).ready_queue ∧
      i ∉ (enqueue_arrived s).all_processes ∧ i ∉ rest ∧
      (∀ j ∈ t.ready_queue, j ∈ (enqueue_arrived s).ready_queue) ∧
      (∀ j ∈ t.ready_queue, j ≠ i → j ∈ rest) := by
  have hi := inv_enqueue_arrived ps0 s h
  obtain ⟨hil, hiq, hia, hir, hrest⟩ := inv_dispatch_facts ps0 _ hi i rest hd.queue
  refine ⟨?_, hiq, hia, hir, ?_, ?_⟩
  · rw [← hi.len]; exact hil
  · intro j hj
    have := hd.queue_after.mem_iff.1 hj
    split_ifs at this
    · exact hd.queue.mem_iff.2 this
    · exact hrest j this
  · intro j hj hne
    have := hd.queue_after.mem_iff.1 hj
    split_ifs at this
    · rcases List.mem_cons.1 this with h1 | h1
      · exact absurd h1 hne
      · exact h1
    · exact this

/-! ### Invariants on the chart, the clock and the accumulated burst time -/

theorem dispatch_tick_enqueue_arrived_ge (cs : Int) (hcs : 0 ≤ cs) (s : SimState) (i : Nat) :
    s.current_time ≤ dispatch_tick cs (enqueue_arrived s) i :=
  dispatch_tick_ge cs hcs (enqueue_arrived s) i

theorem Idled.clock_lt {s t : SimState} (hd : Idled s t) : s.current_time < t.current_time := by
  obtain ⟨j, l, hjl, hc⟩ := hd.clock
  rw [hc]
  exact hd.not_arrived j (by rw [hjl]; exact List.mem_cons_self _ _)

theorem Idled.rem_of_eq {s t : SimState} (hd : Idled s t) (j : Nat) :
    rem_of t j = rem_of s j := by
  unfold rem_of; rw [hd.processes]

theorem Idled.work_same {s t : SimState} (hd : Idled s t) : work t = work s := by
  unfold work
  rw [hd.all, hd.queue_after, hd.queue]
  exact sum_map_congr_mem _ _ _ (fun j _ => hd.rem_of_eq j)

/-- Sum over the pending and ready pointers after a dispatch, for a quantity
that the dispatch changes at most for the dispatched process. -/
theorem Ran.sum_after {ps0 : List PCB} {slice : Int → Int} {cs : Int} {s t : SimState}
    {i : Nat} {rest : List Nat} {e : Int} (hd : Ran ps0 slice cs s t i rest e)
    (h : Inv ps0 s) (f g : Nat → Int) (hfg : ∀ j, j ≠ i → g j = f j) :
    ((t.all_processes ++ t.ready_queue).map g).sum =
      ((s.all_processes ++ s.ready_queue).map f).sum - f i +
        (if e < rem_of s i then g i else 0) := by
  obtain ⟨hil, hiq, hia, hir, -, -⟩ := hd.facts h
  have h1 : ((s.all_processes ++ s.ready_queue).map f).sum =
      f i + (((enqueue_arrived s).all_processes ++ rest).map f).sum := by
    rw [← ((enqueue_arrived_perm s).map f).sum_eq]
    exact sum_split _ _ _ _ _ hd.queue
  have h2 : (((enqueue_arrived s).all_processes ++ rest).map g).sum =
      (((enqueue_arrived s).all_processes ++ rest).map f).sum := by
    apply sum_map_congr_mem
    intro j hj
    apply hfg
    intro hji; subst hji
    rcases List.mem_append.1 hj with ha | hb
    · exact hia ha
    · exact hir hb
  rw [hd.all]
  by_cases hlt : e < rem_of s i
  · have hq := hd.queue_after
    rw [if_pos hlt] at hq
    rw [if_pos hlt, sum_split g _ _ _ _ hq, h2, h1]; ring
  · have hq := hd.queue_after
    rw [if_neg hlt] at hq
    rw [if_neg hlt, ((List.Perm.append_left _ hq).map g).sum_eq, h2, h1]; ring

theorem Ran.work_eq {ps0 : List PCB} {slice : Int → Int} {cs : Int} {s t : SimState}
    {i : Nat} {rest : List Nat} {e : Int} (hd : Ran ps0 slice cs s t i rest e)
    (h : Inv ps0 s) : work t = work s - e := by
  have h1 := hd.sum_after h (rem_of s) (rem_of t)
    (fun j hj => by unfold rem_of; rw [hd.other j hj])
  unfold work
  rw [h1, hd.rem_self]
  have := hd.le
  split_ifs with hlt
  · ring
  · have : e = rem_of s i := by omega
    rw [this]; ring

/-! ### The clock and the accumulated burst time stay in the range of `int` -/

theorem dispatch_tick_le (cs : Int) (hcs : 0 ≤ cs) (s : SimState) (i : Nat) :
    dispatch_tick cs s i ≤ s.current_time + cs := by
  unfold dispatch_tick
  split
  · split_ifs <;> omega
  · omega

theorem sum_burst_pending_nonneg (ps0 : List PCB) (t : SimState) (h : Inv ps0 t) :
    0 ≤ ((t.all_processes ++ t.ready_queue).map (fun i => (deref ps0 i).burst_time)).sum := by
  apply sum_map_nonneg
  intro j hj
  rcases List.mem_append.1 hj with ha | hq
  · have := h.pending j ha; omega
  · have := h.ready j hq; omega

theorem fitInv_init (ps0 : List PCB) (cs : Int) (hv : PositiveBursts ps0) :
    FitInv ps0 cs (init_state ps0 []) := by
  have hw : work (init_state ps0 []) = (ps0.map PCB.burst_time).sum := by
    show ((List.range ps0.length ++ []).map (fun i => (deref ps0 i).remaining_time)).sum = _
    rw [List.append_nil, map_range_deref (fun p => p.remaining_time) ps0]
    congr 1
    exact List.map_congr_left (fun p hp => (hv p hp).2.1)
  have hM := max_arrival_nonneg ps0
  refine ⟨?_, ?_, ?_, ?_, ?_⟩
  · show (-2147483648 : Int) ≤ 0
    decide
  · rw [hw, sub_self, mul_zero, add_zero]; exact hM
  · rw [hw]
  · exact le_refl _
  · show (0 : Int) + ((List.range ps0.length ++ []).map (fun i => (deref ps0 i).burst_time)).sum
      = _
    rw [List.append_nil, map_range_deref (fun p => p.burst_time) ps0, zero_add]

/-- A dispatch from a state that meets the range invariant does not wrap: the
interval, the clock and the accumulated burst time are the plain sums, and
the range invariant holds again. -/
theorem Ran.fits {ps0 : List PCB} {slice : Int → Int} {cs : Int} {s t : SimState}
    {i : Nat} {rest : List Nat} {e : Int} (hd : Ran ps0 slice cs s t i rest e)
    (h : Inv ps0 s) (ht : Inv ps0 t) (hf : FitInv ps0 cs s) (hcs : 0 ≤ cs)
    (hfit : Fits ps0 cs) :
    Dispatched ps0 slice cs s t i rest e ∧ FitInv ps0 cs t := by
  have hw := hd.work_eq h
  have hwt := work_nonneg ps0 t ht
  have hws := work_nonneg ps0 s h
  have hpos := hd.pos
  have hM := max_arrival_nonneg ps0
  have hlo := hf.lo
  have hhi := hf.hi
  have hex := hf.executed
  have htl := hf.total_lo
  have hacc := hf.acc
  unfold Fits at hfit
  obtain ⟨-, hiq, -, -, -, -⟩ := hd.facts h
  have hready := (inv_enqueue_arrived ps0 s h).ready i hiq
  rw [rem_of_enqueue_arrived] at hready
  have hle := hd.le
  have hce : 0 ≤ cs * (e - 1) := mul_nonneg hcs (by omega)
  have hcw : 0 ≤ (1 + cs) * work t := mul_nonneg (by omega) hwt
  have hcS : 0 ≤ cs * (ps0.map PCB.burst_time).sum := mul_nonneg hcs (by omega)
  have hx1 : (1 + cs) * ((ps0.map PCB.burst_time).sum - work t) =
      (1 + cs) * ((ps0.map PCB.burst_time).sum - work s) + e + cs + cs * (e - 1) := by
    rw [hw]; ring
  have hx2 : (1 + cs) * ((ps0.map PCB.burst_time).sum - work t) =
      (1 + cs) * (ps0.map PCB.burst_time).sum - (1 + cs) * work t := by ring
  have hx3 : (1 + cs) * (ps0.map PCB.burst_time).sum =
      (ps0.map PCB.burst_time).sum + cs * (ps0.map PCB.burst_time).sum := by ring
  have hint : IsInt ((enqueue_arrived s).current_time + cs) := by
    rw [enqueue_arrived_clock]
    unfold IsInt
    constructor <;> linarith
  have hsw := switch_clock_eq cs (enqueue_arrived s) i hint
  have hge := dispatch_tick_ge cs hcs (enqueue_arrived s) i
  have hdle := dispatch_tick_le cs hcs (enqueue_arrived s) i
  rw [enqueue_arrived_clock] at hge hdle
  have hclock : t.current_time = dispatch_tick cs (enqueue_arrived s) i + e := by
    rw [hd.int_clock, hsw]
    apply int_add_of_isInt
    unfold IsInt
    constructor <;> linarith
  have hsa := hd.sum_after h (fun j => (deref ps0 j).burst_time)
    (fun j => (deref ps0 j).burst_time) (fun _ _ => rfl)
  have hnn := sum_burst_pending_nonneg ps0 t ht
  have htotal : t.total_burst_time =
      s.total_burst_time + (if e < rem_of s i then 0 else (deref ps0 i).burst_time) := by
    rw [hd.int_total]
    split_ifs with hlt
    · rw [add_zero]
    · apply int_add_of_isInt
      rw [if_neg hlt] at hsa
      unfold IsInt
      constructor <;> linarith
  refine ⟨⟨hd, ?_, hclock, htotal⟩, ⟨?_, ?_, ?_, ?_, ?_⟩⟩
  · rw [hd.int_gantt, hsw, hclock]
  · linarith
  · rw [hclock]; linarith
  · linarith
  · rw [htotal]
    split_ifs <;> linarith
  · rw [htotal, hsa]
    split_ifs <;> linarith

/-- An idle jump keeps the range invariant: the clock becomes an arrival
time. -/
theorem Idled.fit {ps0 : List PCB} {cs : Int} {s t : SimState} (hd : Idled s t)
    (h : Inv ps0 s) (hf : FitInv ps0 cs s) (hcs : 0 ≤ cs) : FitInv ps0 cs t := by
  obtain ⟨j, l, hjl, hc⟩ := hd.clock
  have hj : j ∈ s.all_processes := by rw [hjl]; exact List.mem_cons_self _ _
  have hjn : j < ps0.length := h.bound j (List.mem_append_left _ hj)
  have htyped := (h.range j hjn).1
  have hmax := mem_le_max_arrival ps0 _ (deref_mem ps0 j hjn)
  have hex := hf.executed
  have hk : 0 ≤ (1 + cs) * ((ps0.map PCB.burst_time).sum - work s) :=
    mul_nonneg (by omega) (by omega)
  rw [← (h.static j).2.1] at htyped hmax
  unfold IsInt at htyped
  refine ⟨?_, ?_, ?_, ?_, ?_⟩
  · rw [hc]; exact htyped.1
  · rw [hc, hd.work_same]; linarith
  · rw [hd.work_same]; exact hex
  · rw [hd.total]; exact hf.total_lo
  · rw [hd.total, hd.all, hd.queue_after, ← hd.queue]; exact hf.acc

/-- The range invariant is kept by every loop iteration when the context
switch is not negative and the input meets `Fits`. -/
theorem fitInv_step (ps0 : List PCB) (slice : Int → Int) (cs : Int) (hcs : 0 ≤ cs)
    (hfit : Fits ps0 cs) (s t : SimState) (h : Inv ps0 s) (hf : FitInv ps0 cs s)
    (hst : Step slice cs s t) : FitInv ps0 cs t := by
  rcases step_view ps0 slice cs s t h hst with hd | ⟨i, rest, e, hd⟩
  · exact hd.fit h hf hcs
  · exact (hd.fits h (inv_step ps0 slice cs s t h hst) hf hcs hfit).2

/-- Every loop iteration from a state that meets the range invariant is an
idle jump or a dispatch without wrap-around. -/
theorem step_view_fit (ps0 : List PCB) (slice : Int → Int) (cs : Int) (hcs : 0 ≤ cs)
    (hfit : Fits ps0 cs) (s t : SimState) (h : Inv ps0 s) (hf : FitInv ps0 cs s)
    (hst : Step slice cs s t) :
    Idled s t ∨ ∃ i rest e, Dispatched ps0 slice cs s t i rest e := by
  rcases step_view ps0 slice cs s t h hst with hd | ⟨i, rest, e, hd⟩
  · exact Or.inl hd
  · exact Or.inr ⟨i, rest, e, (hd.fits h (inv_step ps0 slice cs s t h hst) hf hcs hfit).1⟩

theorem clockInv_init (ps0 : List PCB) : ClockInv (init_state ps0 []) where
  ordered := timelineOrdered_nil
  last_le := by intro y hy; simp [init_state] at hy

theorem clockInv_step (ps0 : List PCB) (slice : Int → Int) (cs : Int) (hcs : 0 ≤ cs)
    (hfit : Fits ps0 cs) (s t : SimState) (h : Inv ps0 s) (hf : FitInv ps0 cs s)
    (hc : ClockInv s) (hst : Step slice cs s t) :
    ClockInv t := by
  rcases step_view_fit ps0 slice cs hcs hfit s t h hf hst with hd | ⟨i, rest, e, hd⟩
  · refine ⟨by rw [hd.gantt]; exact hc.ordered, ?_⟩
    rw [hd.gantt]
    intro y hy
    have := hc.last_le y hy
    have := hd.clock_lt
    omega
  · have htick := dispatch_tick_enqueue_arrived_ge cs hcs s i
    have hpos := hd.pos
    refine ⟨?_, ?_⟩
    · rw [hd.gantt]
      apply timelineOrdered_concat _ _ hc.ordered
      · show dispatch_tick cs (enqueue_arrived s) i < dispatch_tick cs (enqueue_arrived s) i + e
        omega
      · intro y hy
        have := hc.last_le y hy
        show y.stop ≤ dispatch_tick cs (enqueue_arrived s) i
        omega
    · rw [hd.gantt, List.getLast?_concat]
      intro y hy
      simp only [Option.mem_def, Option.some.injEq] at hy
      subst hy
      rw [hd.clock]
      exact le_refl _

theorem workInv_init (ps0 : List PCB) (g : List Interval) (hv : PositiveBursts ps0) :
    WorkInv ps0 (init_state ps0 g) := by
  have hw : work (init_state ps0 g) = (ps0.map PCB.burst_time).sum := by
    show ((List.range ps0.length ++ []).map (fun i => (deref ps0 i).remaining_time)).sum = _
    rw [List.append_nil, map_range_deref (fun p => p.remaining_time) ps0]
    congr 1
    exact List.map_congr_left (fun p hp => (hv p hp).2.1)
  refine ⟨?_, ?_⟩
  · show (0 : Int) + ((List.range ps0.length ++ []).map (fun i => (deref ps0 i).burst_time)).sum = _
    rw [List.append_nil, map_range_deref (fun p => p.burst_time) ps0, zero_add]
  · rw [hw]
    show _ ≤ (0 : Int)
    omega

theorem workInv_step (ps0 : List PCB) (slice : Int → Int) (cs : Int) (hcs : 0 ≤ cs)
    (hfit : Fits ps0 cs) (s t : SimState) (h : Inv ps0 s) (hf : FitInv ps0 cs s)
    (hw : WorkInv ps0 s) (hst : Step slice cs s t) :
    WorkInv ps0 t := by
  rcases step_view_fit ps0 slice cs hcs hfit s t h hf hst with hd | ⟨i, rest, e, hd⟩
  · refine ⟨?_, ?_⟩
    · rw [hd.total, hd.all, hd.queue_after, ← hd.queue]; exact hw.total
    · rw [hd.work_same]
      have := hw.served
      have := hd.clock_lt
      omega
  · have htick := dispatch_tick_enqueue_arrived_ge cs hcs s i
    refine ⟨?_, ?_⟩
    · have h1 := hd.sum_after h (fun i => (deref ps0 i).burst_time)
        (fun i => (deref ps0 i).burst_time) (fun _ _ => rfl)
      have h2 := hw.total
      rw [h1, hd.total]
      simp only at h2 ⊢
      split_ifs <;> omega
    · rw [hd.work_eq h, hd.clock]
      have := hw.served
      omega

theorem pidInv_init (ps0 : List PCB) (cs : Int) (hv : PositiveBursts ps0) :
    PidInv ps0 cs (init_state ps0 []) where
  fresh := by intro i _ x hx; simp [init_state] at hx
  dur := by
    intro i hi
    show duration_of _ [] + (deref ps0 i).remaining_time = _
    rw [duration_of_nil, zero_add]
    exact (hv _ (deref_mem ps0 i hi)).2.1
  chain := List.chain'_nil
  last := by intro y hy; simp [init_state] at hy

theorem dispatch_tick_of_last (cs : Int) (s : SimState) (i : Nat) (y : Interval)
    (hy : s.gantt_chart.getLast? = some y) :
    dispatch_tick cs (enqueue_arrived s) i =
      if y.1 ≠ (deref s.processes i).pid then s.current_time + cs else s.current_time := by
  unfold dispatch_tick
  rw [enqueue_arrived_gantt, hy]
  rfl

theorem pidInv_step (ps0 : List PCB) (hu : UniquePids ps0) (slice : Int → Int) (cs : Int)
    (hcs : 0 ≤ cs) (hfit : Fits ps0 cs) (s t : SimState) (h : Inv ps0 s)
    (hf : FitInv ps0 cs s) (hp : PidInv ps0 cs s) (hst : Step slice cs s t) :
    PidInv ps0 cs t := by
  rcases step_view_fit ps0 slice cs hcs hfit s t h hf hst with hd | ⟨i, rest, e, hd⟩
  · refine ⟨?_, ?_, ?_, ?_⟩
    · rw [hd.all, hd.gantt]; exact hp.fresh
    · intro i hi
      rw [hd.gantt, hd.rem_of_eq]; exact hp.dur i hi
    · rw [hd.gantt]; exact hp.chain
    · rw [hd.gantt, hd.queue_after]
      intro y hy
      have := (hp.last y hy).1
      have := hd.clock_lt
      refine ⟨by omega, Or.inr ?_⟩
      intro i hi; cases hi
  · obtain ⟨hil, hiq, hia, hir, hsub, -⟩ := hd.facts h
    have hi1 := inv_enqueue_arrived ps0 s h
    have hpid : ∀ j, j < ps0.length → j ≠ i → (deref ps0 i).pid ≠ (deref ps0 j).pid := by
      intro j hj hne heq
      exact hne (deref_pid_inj ps0 hu i j hil hj heq).symm
    refine ⟨?_, ?_, ?_, ?_⟩
    · intro j hj x hx
      rw [hd.all] at hj
      have hja := ((mem_enqueue_arrived_all s j).1 hj).1
      rw [hd.gantt] at hx
      rcases List.mem_append.1 hx with hx1 | hx1
      · exact hp.fresh j hja x hx1
      · rw [List.mem_singleton] at hx1
        subst hx1
        have hjl : j < ps0.length := h.bound j (List.mem_append_left _ hja)
        exact hpid j hjl (fun hji => hia (hji ▸ hj))
    · intro j hj
      rw [hd.gantt, duration_of_append, duration_of_single]
      have hold := hp.dur j hj
      by_cases hji : j = i
      · subst hji
        rw [if_pos rfl, hd.rem_self]
        simp only [Interval.len]
        omega
      · rw [if_neg (hpid j hj hji)]
        have : rem_of t j = rem_of s j := by unfold rem_of; rw [hd.other j hji]
        rw [this]; omega
    · rw [hd.gantt, List.chain'_append]
      refine ⟨hp.chain, List.chain'_singleton _, ?_⟩
      intro y hy x hx
      simp only [List.head?_cons, Option.mem_def, Option.some.injEq] at hx
      subst hx
      have hy2 : s.gantt_chart.getLast? = some y := hy
      have hl := hp.last y hy
      have htick := dispatch_tick_of_last cs s i y hy2
      rw [(h.static i).1] at htick
      constructor
      · intro heq
        have heq2 : y.1 = (deref ps0 i).pid := heq
        rw [if_neg (by simpa using heq2)] at htick
        show dispatch_tick cs (enqueue_arrived s) i = y.stop
        rw [htick]
        rcases hl.2 with h1 | h1
        · exact h1
        · rcases (mem_enqueue_arrived_queue s i).1 hiq with hq | ⟨ha, _⟩
          · exact absurd heq2.symm (h1 i hq)
          · exact absurd heq2 (hp.fresh i ha y (List.mem_of_mem_getLast? hy))
      · intro hne
        have hne2 : y.1 ≠ (deref ps0 i).pid := hne
        rw [if_pos hne2] at htick
        show y.stop + cs ≤ dispatch_tick cs (enqueue_arrived s) i
        rw [htick]
        have := hl.1
        omega
    · rw [hd.gantt, List.getLast?_concat]
      intro y hy
      simp only [Option.mem_def, Option.some.injEq] at hy
      subst hy
      rw [hd.clock]
      exact ⟨le_refl _, Or.inl rfl⟩

theorem lenInv_step (ps0 : List PCB) (quantum cs : Int) (hcs : 0 ≤ cs) (hfit : Fits ps0 cs)
    (s t : SimState) (h : Inv ps0 s) (hf : FitInv ps0 cs s) (hl : LenInv quantum s)
    (hst : Step (fun r => min r quantum) cs s t) : LenInv quantum t := by
  rcases step_view_fit ps0 _ cs hcs hfit s t h hf hst with hd | ⟨i, rest, e, hd⟩
  · intro x hx; rw [hd.gantt] at hx; exact hl x hx
  · intro x hx
    rw [hd.gantt] at hx
    rcases List.mem_append.1 hx with hx1 | hx1
    · exact hl x hx1
    · rw [List.mem_singleton] at hx1
      subst hx1
      have h1 := hd.pos
      have h2 : e = min (rem_of s i) quantum := hd.slice_eq
      simp only [Interval.len]
      constructor <;> omega

theorem quantumInv_init (ps0 : List PCB) (quantum : Int) :
    QuantumInv ps0 quantum (init_state ps0 []) where
  short := by intro x hx; simp [init_state] at hx
  full := List.Pairwise.nil

theorem quantumInv_step (ps0 : List PCB) (hu : UniquePids ps0) (quantum cs : Int)
    (hcs : 0 ≤ cs) (hfit : Fits ps0 cs) (s t : SimState) (h : Inv ps0 s)
    (hf : FitInv ps0 cs s) (hq : QuantumInv ps0 quantum s)
    (hst : Step (fun r => min r quantum) cs s t) : QuantumInv ps0 quantum t := by
  rcases step_view_fit ps0 _ cs hcs hfit s t h hf hst with hd | ⟨i, rest, e, hd⟩
  · refine ⟨?_, ?_⟩
    · rw [hd.gantt, hd.all, hd.queue_after, ← hd.queue]; exact hq.short
    · rw [hd.gantt]; exact hq.full
  · obtain ⟨hil, hiq, hia, hir, hsub, hrest⟩ := hd.facts h
    have hmem : ∀ j ∈ t.all_processes ++ t.ready_queue, j ∈ s.all_processes ++ s.ready_queue := by
      intro j hj
      apply (enqueue_arrived_perm s).mem_iff.1
      rcases List.mem_append.1 hj with ha | hb
      · rw [hd.all] at ha; exact List.mem_append_left _ ha
      · exact List.mem_append_right _ (hsub j hb)
    have hiq0 : i ∈ s.all_processes ++ s.ready_queue :=
      (enqueue_arrived_perm s).mem_iff.1 (List.mem_append_right _ hiq)
    refine ⟨?_, ?_⟩
    · intro x hx hne j hj
      rw [hd.gantt] at hx
      rcases List.mem_append.1 hx with hx1 | hx1
      · exact hq.short x hx1 hne j (hmem j hj)
      · rw [List.mem_singleton] at hx1
        subst hx1
        have h2 : e = min (rem_of s i) quantum := hd.slice_eq
        have hlen : e ≠ quantum := by
          intro he; apply hne; simp only [Interval.len]; omega
        have hnlt : ¬ e < rem_of s i := by omega
        have hji : j ≠ i := by
          intro hji; subst hji
          rcases List.mem_append.1 hj with ha | hb
          · rw [hd.all] at ha; exact hia ha
          · have := hd.queue_after.mem_iff.1 hb
            rw [if_neg hnlt] at this
            exact hir this
        have hjl : j < ps0.length := h.bound j (hmem j hj)
        intro heq
        exact hji (deref_pid_inj ps0 hu j i hjl hil heq)
    · rw [hd.gantt, List.pairwise_append]
      refine ⟨hq.full, List.pairwise_singleton _ _, ?_⟩
      intro a ha b hb
      rw [List.mem_singleton] at hb
      subst hb
      intro heq
      by_contra hne
      exact hq.short a ha hne i hiq0 heq.symm

theorem Idled.mem_iff {s t : SimState} (hd : Idled s t) (j : Nat) :
    j ∈ t.all_processes ++ t.ready_queue ↔ j ∈ s.all_processes ++ s.ready_queue := by
  rw [hd.all, hd.queue_after, hd.queue]

/-- After a dispatch of `i`, a process other than `i` that is neither pending
nor ready was so before; `i` itself is neither pending nor ready only if it
ran for all of its remaining time; the rest of the queue stays ready. -/
theorem Ran.after {ps0 : List PCB} {slice : Int → Int} {cs : Int} {s t : SimState}
    {i : Nat} {rest : List Nat} {e : Int} (hd : Ran ps0 slice cs s t i rest e)
    (h : Inv ps0 s) :
    (∀ j, j ≠ i → j ∉ t.all_processes ++ t.ready_queue →
      j ∉ s.all_processes ++ s.ready_queue) ∧
    (i ∉ t.all_processes ++ t.ready_queue → e = rem_of s i) ∧
    (e = rem_of s i → i ∉ t.all_processes ++ t.ready_queue) := by
  obtain ⟨hil, hiq, hia, hir, hsub, hrest⟩ := hd.facts h
  refine ⟨?_, ?_, ?_⟩
  · intro j hji hn hm
    apply hn
    have hm1 := (enqueue_arrived_perm s).mem_iff.2 hm
    rcases List.mem_append.1 hm1 with ha | hb
    · exact List.mem_append_left _ (by rw [hd.all]; exact ha)
    · apply List.mem_append_right
      have hj : j ∈ rest := by
        rcases List.mem_cons.1 (hd.queue.mem_iff.1 hb) with h1 | h1
        · exact absurd h1 hji
        · exact h1
      apply hd.queue_after.mem_iff.2
      split_ifs
      · exact List.mem_cons_of_mem _ hj
      · exact hj
  · intro hn
    by_contra hne
    have hlt : e < rem_of s i := lt_of_le_of_ne hd.le hne
    apply hn
    apply List.mem_append_right
    apply hd.queue_after.mem_iff.2
    rw [if_pos hlt]
    exact List.mem_cons_self _ _
  · intro he hm
    have hnlt : ¬ e < rem_of s i := by omega
    rcases List.mem_append.1 hm with ha | hb
    · rw [hd.all] at ha; exact hia ha
    · have := hd.queue_after.mem_iff.1 hb
      rw [if_neg hnlt] at this
      exact hir this

theorem comp_eq_false_iff (ps : List PCB) (a b : Nat) :
    comp ps b a = false ↔ (deref ps b).remaining_time ≤ (deref ps a).remaining_time := by
  unfold comp
  simp

theorem ordered_insert_perm (ps : List PCB) (a : Nat) (l : List Nat) :
    (ordered_insert ps a l).Perm (a :: l) := by
  induction l with
  | nil => exact List.Perm.refl _
  | cons b rest ih =>
    unfold ordered_insert
    split_ifs
    · exact List.Perm.refl _
    · exact (List.Perm.cons b ih).trans (List.Perm.swap a b rest)

theorem ordered_insert_sorted (ps : List PCB) (a : Nat) (l : List Nat)
    (hl : l.Pairwise (fun x y => comp ps y x = false)) :
    (ordered_insert ps a l).Pairwise (fun x y => comp ps y x = false) := by
  induction l with
  | nil => exact List.pairwise_singleton _ _
  | cons b rest ih =>
    rw [List.pairwise_cons] at hl
    unfold ordered_insert
    split_ifs with hab
    · refine List.Pairwise.cons ?_ (List.Pairwise.cons hl.1 hl.2)
      have hab2 : (deref ps a).remaining_time > (deref ps b).remaining_time := by
        simpa [comp] using hab
      intro x hx
      rw [comp_eq_false_iff]
      rcases List.mem_cons.1 hx with h | h
      · subst h; omega
      · have := (comp_eq_false_iff ps b x).1 (hl.1 x h)
        omega
    · refine List.Pairwise.cons ?_ (ih hl.2)
      intro x hx
      rcases List.mem_cons.1 ((ordered_insert_perm ps a rest).mem_iff.1 hx) with h | h
      · subst h
        rw [comp_eq_false_iff]
        have : ¬ (deref ps x).remaining_time > (deref ps b).remaining_time := by
          simpa [comp] using hab
        omega
      · exact hl.1 x h

theorem insertion_sort_isStdSort : IsStdSort insertion_sort := by
  intro ps queue
  have key : ∀ l : List Nat,
      (l.foldr (fun a acc => ordered_insert ps a acc) []).Perm l ∧
      (l.foldr (fun a acc => ordered_insert ps a acc) []).Pairwise
        (fun x y => comp ps y x = false) := by
    intro l
    induction l with
    | nil => exact ⟨List.Perm.refl _, List.Pairwise.nil⟩
    | cons a l ih =>
      rw [List.foldr_cons]
      exact ⟨(ordered_insert_perm ps a _).trans (List.Perm.cons a ih.1),
        ordered_insert_sorted ps a _ ih.2⟩
  exact ⟨(key queue.reverse).1.trans (List.reverse_perm queue), (key queue.reverse).2⟩

/-! ## The loop seen iteration by iteration -/

theorem state_after_zero (body : SimState → SimState) (s : SimState) :
    state_after body 0 s = some s := rfl

theorem state_after_succ_of_cond (body : SimState → SimState) (k : Nat) (s : SimState)
    (hc : s.all_processes ≠ [] ∨ s.ready_queue ≠ []) :
    state_after body (k + 1) s = state_after body k (body s) := by
  show (if s.all_processes ≠ [] ∨ s.ready_queue ≠ [] then _ else _) = _
  rw [if_pos hc]

theorem state_after_succ_of_not_cond (body : SimState → SimState) (k : Nat) (s : SimState)
    (hc : ¬ (s.all_processes ≠ [] ∨ s.ready_queue ≠ [])) :
    state_after body (k + 1) s = none := by
  show (if s.all_processes ≠ [] ∨ s.ready_queue ≠ [] then _ else _) = _
  rw [if_neg hc]

/-- A property kept by the body while the loop condition holds is true after
every number of iterations. -/
theorem state_after_invariant (body : SimState → SimState) (P : SimState → Prop)
    (hP : ∀ s, P s → (s.all_processes ≠ [] ∨ s.ready_queue ≠ []) → P (body s)) :
    ∀ (k : Nat) (s t : SimState), P s → state_after body k s = some t → P t := by
  intro k
  induction k with
  | zero =>
    intro s t hs h
    rw [state_after_zero] at h
    have hst : s = t := by simpa using h
    exact hst ▸ hs
  | succ n ih =>
    intro s t hs h
    by_cases hc : s.all_processes ≠ [] ∨ s.ready_queue ≠ []
    · rw [state_after_succ_of_cond body n s hc] at h
      exact ih (body s) t (hP s hs hc) h
    · rw [state_after_succ_of_not_cond body n s hc] at h
      cases h

/-- When a property forces the loop condition and is kept by the body, the
loop runs any number of iterations and never ends. -/
theorem loop_never_ends (body : SimState → SimState) (P : SimState → Prop)
    (hP : ∀ s, P s → (s.all_processes ≠ [] ∨ s.ready_queue ≠ []) ∧ P (body s)) :
    ∀ (n : Nat) (s : SimState), P s →
      run_loop body n s = none ∧ ∃ t, state_after body n s = some t ∧ P t := by
  intro n
  induction n with
  | zero => intro s hs; exact ⟨rfl, s, rfl, hs⟩
  | succ n ih =>
    intro s hs
    obtain ⟨hc, hb⟩ := hP s hs
    rw [run_loop_succ_of_cond body n s hc, state_after_succ_of_cond body n s hc]
    exact ih (body s) hb

/-! ## RR with quantum 0 -/

/-- The loop of a body that is an iteration in the sense of `Step` ends on
every process list with positive burst times, and every property kept by
`Step` holds in the final state. -/
theorem loop_final (ps : List PCB) (hv : PositiveBursts ps) (slice : Int → Int) (cs : Int)
    (body : SimState → SimState)
    (hbody : ∀ s, Inv ps s → (s.all_processes ≠ [] ∨ s.ready_queue ≠ []) →
      Step slice cs s (body s))
    (Q : SimState → Prop) (hinit : Q (init_state ps []))
    (hQ : ∀ s t, Inv ps s → Q s → Step slice cs s t → Q t) :
    ∃ t, (∀ fuel, enough_fuel ps ≤ fuel → run_loop body fuel (init_state ps []) = some t) ∧
      Inv ps t ∧ Q t ∧ t.all_processes = [] ∧ t.ready_queue = [] := by
  obtain ⟨t, ht⟩ := run_loop_enough_fuel ps [] hv slice cs body hbody
  have hfin := run_loop_step_invariant ps slice cs body hbody Q hQ
    (enough_fuel ps) (init_state ps []) t (inv_init ps [] hv) hinit (ht _ (le_refl _))
  exact ⟨t, ht, hfin⟩

/-- Every property kept by `Step` holds after every number of iterations. -/
theorem state_after_step_invariant (ps : List PCB) (hv : PositiveBursts ps)
    (slice : Int → Int) (cs : Int) (body : SimState → SimState)
    (hbody : ∀ s, Inv ps s → (s.all_processes ≠ [] ∨ s.ready_queue ≠ []) →
      Step slice cs s (body s))
    (Q : SimState → Prop) (hinit : Q (init_state ps []))
    (hQ : ∀ s t, Inv ps s → Q s → Step slice cs s t → Q t)
    (k : Nat) (s : SimState) (hs : state_after body k (init_state ps []) = some s) :
    Inv ps s ∧ Q s :=
  state_after_invariant body (fun s => Inv ps s ∧ Q s)
    (fun s hs hc => ⟨inv_step ps slice cs s (body s) hs.1 (hbody s hs.1 hc),
      hQ s (body s) hs.1 hs.2 (hbody s hs.1 hc)⟩)
    k (init_state ps []) s ⟨inv_init ps [] hv, hinit⟩ hs

/-- The routine `simulate_srt` ends on every process list with positive burst
times, and the invariants hold in its final state, where no process is pending
or ready; those on clock values hold when the context switch is not negative
and the input meets `Fits`. -/
theorem srt_final (ps : List PCB) (hv : PositiveBursts ps)
    (sort : List PCB → List Nat → List Nat) (hsort : IsStdSort sort) (cs : Int) :
    ∃ t, (∀ fuel, enough_fuel ps ≤ fuel → simulate_srt sort fuel ps cs [] = some t) ∧
      Inv ps t ∧
      (0 ≤ cs → Fits ps cs → FitInv ps cs t ∧ ClockInv t ∧ WorkInv ps t ∧
        (UniquePids ps → PidInv ps cs t)) ∧
      t.all_processes = [] ∧ t.ready_queue = [] := by
  have hbody := fun s (hs : Inv ps s) hc => srt_body_step ps sort hsort cs s hs hc
  obtain ⟨t, ht⟩ := run_loop_enough_fuel ps [] hv (fun _ => 1) cs (srt_body sort cs) hbody
  have hfin := run_loop_step_invariant ps (fun _ => 1) cs (srt_body sort cs) hbody
    (fun s => 0 ≤ cs → Fits ps cs → FitInv ps cs s ∧ ClockInv s ∧ WorkInv ps s ∧
      (UniquePids ps → PidInv ps cs s))
    (fun s t hs hq hst hcs hfit =>
      ⟨fitInv_step ps _ cs hcs hfit s t hs (hq hcs hfit).1 hst,
        clockInv_step ps _ cs hcs hfit s t hs (hq hcs hfit).1 (hq hcs hfit).2.1 hst,
        workInv_step ps _ cs hcs hfit s t hs (hq hcs hfit).1 (hq hcs hfit).2.2.1 hst,
        fun hu => pidInv_step ps hu _ cs hcs hfit s t hs (hq hcs hfit).1
          ((hq hcs hfit).2.2.2 hu) hst⟩)
    (enough_fuel ps) (init_state ps []) t (inv_init ps [] hv)
    (fun _ _ => ⟨fitInv_init ps cs hv, clockInv_init ps, workInv_init ps [] hv,
      fun _ => pidInv_init ps cs hv⟩)
    (ht _ (le_refl _))
  exact ⟨t, ht, hfin.1, hfin.2.1, hfin.2.2.1, hfin.2.2.2⟩

/-- The routine `simulate_rr` ends on every process list with positive burst
times when the quantum is positive, and the invariants hold in its final
state; those on clock values hold when the context switch is not negative and
the input meets `Fits`. -/
theorem rr_final (ps : List PCB) (hv : PositiveBursts ps) (quantum cs : Int)
    (hquantum : 0 < quantum) :
    ∃ t, (∀ fuel, enough_fuel ps ≤ fuel → simulate_rr fuel ps quantum cs [] = some t) ∧
      Inv ps t ∧
      (0 ≤ cs → Fits ps cs → FitInv ps cs t ∧ ClockInv t ∧ WorkInv ps t ∧ LenInv quantum t ∧
        (UniquePids ps → PidInv ps cs t ∧ QuantumInv ps quantum t)) ∧
      t.all_processes = [] ∧ t.ready_queue = [] := by
  have hbody := fun s (hs : Inv ps s) hc => rr_body_step ps quantum cs hquantum s hs hc
  obtain ⟨t, ht⟩ := run_loop_enough_fuel ps [] hv (fun r => min r quantum) cs
    (rr_body quantum cs) hbody
  have hfin := run_loop_step_invariant ps (fun r => min r quantum) cs (rr_body quantum cs) hbody
    (fun s => 0 ≤ cs → Fits ps cs → FitInv ps cs s ∧ ClockInv s ∧ WorkInv ps s ∧
      LenInv quantum s ∧ (UniquePids ps → PidInv ps cs s ∧ QuantumInv ps quantum s))
    (fun s t hs hq hst hcs hfit =>
      ⟨fitInv_step ps _ cs hcs hfit s t hs (hq hcs hfit).1 hst,
        clockInv_step ps _ cs hcs hfit s t hs (hq hcs hfit).1 (hq hcs hfit).2.1 hst,
        workInv_step ps _ cs hcs hfit s t hs (hq hcs hfit).1 (hq hcs hfit).2.2.1 hst,
        lenInv_step ps quantum cs hcs hfit s t hs (hq hcs hfit).1 (hq hcs hfit).2.2.2.1 hst,
        fun hu => ⟨pidInv_step ps hu _ cs hcs hfit s t hs (hq hcs hfit).1
            ((hq hcs hfit).2.2.2.2 hu).1 hst,
          quantumInv_step ps hu quantum cs hcs hfit s t hs (hq hcs hfit).1
            ((hq hcs hfit).2.2.2.2 hu).2 hst⟩⟩)
    (enough_fuel ps) (init_state ps []) t (inv_init ps [] hv)
    (fun _ _ => ⟨fitInv_init ps cs hv, clockInv_init ps, workInv_init ps [] hv,
      by intro x hx; simp [init_state] at hx,
      fun _ => ⟨pidInv_init ps cs hv, quantumInv_init ps quantum⟩⟩)
    (ht _ (le_refl _))
  exact ⟨t, ht, hfin.1, hfin.2.1, hfin.2.2.1, hfin.2.2.2⟩

/-- In a final state every process of the input has passed the completion
branch. -/
theorem finished_of_final (ps : List PCB) (t : SimState) (h : Inv ps t)
    (hall : t.all_processes = []) (hq : t.ready_queue = []) (i : Nat) (hi : i < ps.length) :
    Completed (deref t.processes i) := by
  apply h.done i hi
  rw [hall, hq]
  exact List.not_mem_nil i

theorem sample_valid : ValidProcesses sample_processes := by
  unfold ValidProcesses IsInt sample_processes
  decide

theorem forall₂_exists_right {R : PCB → PCB → Prop} {l1 l2 : List PCB}
    (h : List.Forall₂ R l1 l2) : ∀ b ∈ l2, ∃ a ∈ l1, R a b := by
  induction h with
  | nil => intro a ha; cases ha
  | cons hab _ ih =>
    intro x hx
    rcases List.mem_cons.1 hx with h1 | h1
    · subst h1; exact ⟨_, List.mem_cons_self _ _, hab⟩
    · obtain ⟨b, hb, hr⟩ := ih x h1
      exact ⟨b, List.mem_cons_of_mem _ hb, hr⟩

theorem simulate_fcfs_gantt (ps : List PCB) (cs : Int) (hf : FcfsFits cs ps [] 0 0) :
    (simulate_fcfs ps cs []).gantt_chart =
      (simulate_fcfs ps cs []).processes.map fcfs_interval := by
  unfold simulate_fcfs
  rw [fcfs_loop_gantt cs ps [] 0 0 hf, List.nil_append]

theorem sort_singleton (sort : List PCB → List Nat → List Nat) (hsort : IsStdSort sort)
    (ps : List PCB) (a : Nat) : sort ps [a] = [a] :=
  List.perm_singleton.1 (hsort ps [a]).1

theorem sort_pair (sort : List PCB → List Nat → List Nat) (hsort : IsStdSort sort)
    (ps : List PCB) (a b : Nat) (hab : a ≠ b) (hc : comp ps a b = true) :
    sort ps [a, b] = [a, b] := by
  obtain ⟨hp, hs⟩ := hsort ps [a, b]
  have hlen := hp.length_eq
  have hnd : (sort ps [a, b]).Nodup := hp.nodup_iff.2 (by simp [hab])
  cases hl : sort ps [a, b] with
  | nil => rw [hl] at hlen; simp at hlen
  | cons x l =>
    cases l with
    | nil => rw [hl] at hlen; simp at hlen
    | cons y l2 =>
      cases l2 with
      | cons z l3 => rw [hl] at hlen; simp at hlen
      | nil =>
        rw [hl] at hp hs hnd
        have hx : x = a ∨ x = b := by
          have := hp.mem_iff.1 (List.mem_cons_self x [y]); simpa using this
        have hy : y = a ∨ y = b := by
          have := hp.mem_iff.1 (List.mem_cons_of_mem x (List.mem_cons_self y [])); simpa using this
        have hxy : x ≠ y := by
          intro h; subst h; simp at hnd
        have hcomp : comp ps y x = false := by
          have := List.pairwise_cons.1 hs
          exact this.1 y (List.mem_cons_self _ _)
        rcases hx with rfl | rfl <;> rcases hy with rfl | rfl
        · exact absurd rfl hxy
        · rfl
        · rw [hc] at hcomp; cases hcomp
        · exact absurd rfl hxy

/-- Whatever order `std::sort` gives to ties, the first two ticks of
`simulate_srt` on `scenario4` are both executed by `P1`: when `P2` arrives at
tick 1 with remaining time 4, `P1` with remaining time 7 stays at the front
of the queue. -/
theorem srt_scenario4_first_ticks (sort : List PCB → List Nat → List Nat)
    (hsort : IsStdSort sort) :
    srt_body sort 0 (init_state scenario4 []) = scenario4_after_one ∧
    (srt_body sort 0 scenario4_after_one).gantt_chart = [("P1", 0, 1), ("P1", 1, 2)] := by
  have e1 : sort (enqueue_arrived (init_state scenario4 [])).processes
      (enqueue_arrived (init_state scenario4 [])).ready_queue = [0] :=
    sort_singleton sort hsort _ 0
  have e2 : sort (enqueue_arrived scenario4_after_one).processes
      (enqueue_arrived scenario4_after_one).ready_queue = [0, 1] :=
    sort_pair sort hsort _ 0 1 (by decide) (by decide)
  constructor
  · rw [srt_body_cons sort 0 _ 0 [] e1]
    decide
  · rw [srt_body_cons sort 0 _ 0 [1] e2]
    decide

/-- C3 (evaluation of the code at scenario 4): with context switch 0 and the
stable insertion sort, `simulate_srt` runs `P1` for the ticks 0 to 5, then
alternates between the two processes, always taking one of largest remaining
time; the second interval is `P1 [1,2]`, `P2` finishes at 11 and `P1` at 12. -/
theorem C3_srt_scenario4_runs_longest_remaining :
    (simulate_srt insertion_sort 26 scenario4 0 []).map
        (fun t => (t.gantt_chart, t.processes.map PCB.finish_time)) =
      some ([("P1", 0, 1), ("P1", 1, 2), ("P1", 2, 3), ("P1", 3, 4), ("P1", 4, 5),
             ("P2", 5, 6), ("P2", 6, 7), ("P1", 7, 8), ("P1", 8, 9), ("P2", 9, 10),
             ("P2", 10, 11), ("P1", 11, 12)], [12, 11]) := by
  decide

theorem complete_remaining (s : SimState) (i j : Nat) :
    (deref (complete s i).processes j).remaining_time = (deref s.processes j).remaining_time := by
  rw [complete_processes]
  by_cases hij : i = j
  · subst hij
    by_cases hi : i < s.processes.length
    · rw [deref_set_self _ _ _ hi]
    · rw [List.set_eq_of_length_le (by omega)]
  · rw [deref_set_ne _ _ _ _ hij]

/-- C4 (counterexample): on `(P1,0,4)`, `(P2,1,2)` with quantum 2 and context
switch 0 the chart of `simulate_rr` is `[(P1,0,2), (P1,2,4), (P2,4,6)]`: its
second interval belongs to `P1`, not to `P2`, although `P2` arrived during the
first slice of `P1`. -/
theorem C4_counterexample :
    (simulate_rr 10 arrival_during_slice 2 0 []).map (fun t => t.gantt_chart) =
        some [("P1", 0, 2), ("P1", 2, 4), ("P2", 4, 6)] ∧
    ¬ ((simulate_rr 10 arrival_during_slice 2 0 []).map
        (fun t => (t.gantt_chart.get? 1).map Interval.id) = some (some "P2")) := by
  decide

/-- C4 (amended): when `simulate_rr` dispatches the front `i` of the ready
queue and the process has `remaining_time > 0` after its slice, the iteration
leaves the queue as the former rest followed by `i` (the process is
re-enqueued at once, line 171), and the admission pass of the next iteration
appends the processes that arrived during the slice behind it: the preempted
process stands ahead of every one of them. -/
theorem C4_preempted_process_requeued_ahead_of_arrivals (quantum cs : Int) (s : SimState)
    (i : Nat) (rest : List Nat) (hq : (enqueue_arrived s).ready_queue = i :: rest)
    (hrem : 0 < (deref (rr_body quantum cs s).processes i).remaining_time) :
    (rr_body quantum cs s).ready_queue = rest ++ [i] ∧
    (enqueue_arrived (rr_body quantum cs s)).ready_queue =
      rest ++ [i] ++ (rr_body quantum cs s).all_processes.filter
        (fun j => decide ((deref (rr_body quantum cs s).processes j).arrival_time ≤
          (rr_body quantum cs s).current_time)) := by
  have hbody := rr_body_cons quantum cs s i rest hq
  have hpos : (deref (run_slice cs (enqueue_arrived s) i (min (rem_of s i) quantum)).processes
      i).remaining_time > 0 := by
    by_contra hneg
    rw [hbody, if_neg hneg] at hrem
    have h1 := complete_remaining
      (run_slice cs (enqueue_arrived s) i (min (rem_of s i) quantum)) i i
    have h2 : (deref ({ complete (run_slice cs (enqueue_arrived s) i
        (min (rem_of s i) quantum)) i with ready_queue := rest } : SimState).processes
          i).remaining_time =
        (deref (complete (run_slice cs (enqueue_arrived s) i
          (min (rem_of s i) quantum)) i).processes i).remaining_time := rfl
    rw [h2, h1] at hrem
    exact hneg hrem
  have hres : rr_body quantum cs s =
      { run_slice cs (enqueue_arrived s) i (min (rem_of s i) quantum) with
        ready_queue := rest ++ [i] } := by
    rw [hbody, if_pos hpos]
  have hfirst : (rr_body quantum cs s).ready_queue = rest ++ [i] := by rw [hres]
  refine ⟨hfirst, ?_⟩
  show (rr_body quantum cs s).ready_queue ++ _ = _
  rw [hfirst]

/-- Instance of C4 (amended) at the first iteration on `arrival_during_slice`
with quantum 2 and context switch 0: `P1` is dispatched from the queue `[P1]`,
keeps remaining time 2, and after the next admission pass the queue is
`[P1, P2]`. -/
theorem C4_witness :
    (enqueue_arrived (init_state arrival_during_slice [])).ready_queue = 0 :: [] ∧
    0 < (deref (rr_body 2 0 (init_state arrival_during_slice [])).processes 0).remaining_time ∧
    (enqueue_arrived (rr_body 2 0 (init_state arrival_during_slice []))).ready_queue = [0, 1] :=
  ⟨by decide, by decide,
    ((C4_preempted_process_requeued_ahead_of_arrivals 2 0 (init_state arrival_during_slice [])
      0 [] (by decide) (by decide)).2).trans (by decide)⟩

theorem srt_body_gantt (sort : List PCB → List Nat → List Nat) (cs : Int) (s : SimState)
    (i : Nat) (rest : List Nat)
    (h : sort (enqueue_arrived s).processes (enqueue_arrived s).ready_queue = i :: rest) :
    (srt_body sort cs s).gantt_chart = s.gantt_chart ++
      [((deref s.processes i).pid, switch_clock cs (enqueue_arrived s) i,
        int_add (switch_clock cs (enqueue_arrived s) i) 1)] := by
  rw [srt_body_cons sort cs s i rest h]
  split_ifs <;> rfl

theorem forall₂_fcfsDone_arrival {ps qs : List PCB} (h : List.Forall₂ FcfsDone ps qs) :
    qs.map PCB.arrival_time = ps.map PCB.arrival_time := by
  induction h with
  | nil => rfl
  | cons hpq _ ih => simp [hpq.2.1, ih]

theorem forall₂_fcfsDone_burst {ps qs : List PCB} (h : List.Forall₂ FcfsDone ps qs) :
    qs.map PCB.burst_time = ps.map PCB.burst_time := by
  induction h with
  | nil => rfl
  | cons hpq _ ih => simp [hpq.2.2.1, ih]

theorem scenario2_valid : ValidProcesses scenario2 := by
  unfold ValidProcesses IsInt scenario2
  decide

theorem scenario2_fits : FcfsFits 0 scenario2 [] 0 0 :=
  fcfsFits_of_fits scenario2 0 scenario2_valid (by decide) (by unfold Fits; decide) []

/-- C6 (counterexample): on the non-empty list `(P1, arrival 2147483647,
burst 1)` with context switch 0 `simulate_fcfs` records the interval
`(P1, 2147483647, -2147483648)`: the end tick `2147483647 + 1` wraps around,
so the interval is not `(pid, start, start + burst_time)`. -/
theorem C6_counterexample :
    late_arrival ≠ [] ∧
    (simulate_fcfs late_arrival 0 []).gantt_chart = [("P1", 2147483647, -2147483648)] ∧
    (simulate_fcfs late_arrival 0 []).processes.map
        (fun q => (q.pid, q.start_time, q.burst_time)) = [("P1", 2147483647, 1)] ∧
    (simulate_fcfs late_arrival 0 []).gantt_chart ≠
      (simulate_fcfs late_arrival 0 []).processes.map
        (fun q => (q.pid, q.start_time, q.start_time + q.burst_time)) := by
  decide

/-- C6 (amended): when no `int` operation of the run wraps (`FcfsFits`, which
holds on valid input that meets `Fits`), `simulate_fcfs`, started with an
empty chart, records exactly one interval per process, in the order of the
input list: the chart is the list of `(pid, start_time, start_time +
burst_time)` over the processed list, which has the ids, arrival and burst
times of the input in the same order.  The first process starts at
`max(0, arrival_time)`, every later one at `max(finish_time of the previous
one, its arrival_time) + context_switch`.  On `(P1,0,3)`, `(P2,5,2)` with
context switch 0 the chart is `[(P1,0,3), (P2,5,7)]` and both waiting times
are 0. -/
theorem C6_fcfs_one_interval_per_process_in_list_order (ps : List PCB) (cs : Int)
    (hf : FcfsFits cs ps [] 0 0) :
    (simulate_fcfs ps cs []).gantt_chart =
      (simulate_fcfs ps cs []).processes.map
        (fun q => (q.pid, q.start_time, q.start_time + q.burst_time)) ∧
    (simulate_fcfs ps cs []).gantt_chart.length = ps.length ∧
    (simulate_fcfs ps cs []).processes.map PCB.pid = ps.map PCB.pid ∧
    (simulate_fcfs ps cs []).processes.map PCB.arrival_time = ps.map PCB.arrival_time ∧
    (simulate_fcfs ps cs []).processes.map PCB.burst_time = ps.map PCB.burst_time ∧
    (∀ q ∈ (simulate_fcfs ps cs []).processes.head?, q.start_time = max 0 q.arrival_time) ∧
    (simulate_fcfs ps cs []).processes.Chain'
      (fun p q => q.start_time = max p.finish_time q.arrival_time + cs) ∧
    ((simulate_fcfs scenario2 0 []).gantt_chart = [("P1", 0, 3), ("P2", 5, 7)] ∧
      (simulate_fcfs scenario2 0 []).processes.map PCB.waiting_time = [0, 0]) := by
  have hd : List.Forall₂ FcfsDone ps (simulate_fcfs ps cs []).processes :=
    fcfs_loop_done cs ps [] 0 0 hf
  have hst := fcfs_loop_starts cs ps [] 0 0 hf
  refine ⟨simulate_fcfs_gantt ps cs hf, ?_, forall₂_fcfsDone_pid hd,
    forall₂_fcfsDone_arrival hd, forall₂_fcfsDone_burst hd, ?_, hst.2, by decide⟩
  · rw [simulate_fcfs_gantt ps cs hf, List.length_map, hd.length_eq]
  · intro q hq
    have := hst.1 q hq
    simpa using this

/-- Instance of C6 (amended) at `scenario2` with context switch 0. -/
theorem C6_witness :
    FcfsFits 0 scenario2 [] 0 0 ∧
    (simulate_fcfs scenario2 0 []).gantt_chart =
      (simulate_fcfs scenario2 0 []).processes.map
        (fun q => (q.pid, q.start_time, q.start_time + q.burst_time)) ∧
    (simulate_fcfs scenario2 0 []).gantt_chart.length = scenario2.length :=
  ⟨scenario2_fits,
    (C6_fcfs_one_interval_per_process_in_list_order scenario2 0 scenario2_fits).1,
    (C6_fcfs_one_interval_per_process_in_list_order scenario2 0 scenario2_fits).2.1⟩

/-- In a final state every record of the process vector has passed the
completion branch. -/
theorem finished_of_final_mem (ps : List PCB) (t : SimState) (h : Inv ps t)
    (hall : t.all_processes = []) (hq : t.ready_queue = []) :
    ∀ p ∈ t.processes, Completed p := by
  intro p hp
  obtain ⟨i, hi, rfl⟩ := exists_deref_of_mem t.processes p hp
  exact finished_of_final ps t h hall hq i (by rw [← h.len]; exact hi)

/-- C9 (counterexample): on `(P1, arrival 2147483647, burst 1)` with context
switch 0 `simulate_fcfs` leaves the record with start time 2147483647, finish
time `-2147483648` (the sum `2147483647 + 1` wrapped around) and turnaround
time 1: `finish_time - start_time` is `-4294967295`, not the burst time, and
the turnaround time is not `finish_time - arrival_time`. -/
theorem C9_counterexample :
    (simulate_fcfs late_arrival 0 []).processes.map
        (fun q => (q.arrival_time, q.burst_time, q.start_time, q.finish_time,
          q.turnaround_time)) = [(2147483647, 1, 2147483647, -2147483648, 1)] ∧
    ¬ (∀ q ∈ (simulate_fcfs late_arrival 0 []).processes,
        q.finish_time - q.start_time = q.burst_time) ∧
    ¬ (∀ q ∈ (simulate_fcfs late_arrival 0 []).processes,
        q.turnaround_time = q.finish_time - q.arrival_time) := by
  decide

/-- C9 (amended): when no `int` operation of the run wraps (`FcfsFits`, which
holds on valid input that meets `Fits`), after `simulate_fcfs` every process
(the processed list has the length of the input) satisfies `waiting_time =
start_time - arrival_time`, `turnaround_time = finish_time - arrival_time` and
`finish_time - start_time = burst_time`, so that `start_time - arrival_time =
turnaround_time - burst_time`. -/
theorem C9_fcfs_metric_identities (ps : List PCB) (cs : Int) (hf : FcfsFits cs ps [] 0 0) :
    (simulate_fcfs ps cs []).processes.length = ps.length ∧
    ∀ q ∈ (simulate_fcfs ps cs []).processes,
      q.waiting_time = q.start_time - q.arrival_time ∧
      q.turnaround_time = q.finish_time - q.arrival_time ∧
      q.finish_time - q.start_time = q.burst_time ∧
      q.start_time - q.arrival_time = q.turnaround_time - q.burst_time := by
  have hd : List.Forall₂ FcfsDone ps (simulate_fcfs ps cs []).processes :=
    fcfs_loop_done cs ps [] 0 0 hf
  refine ⟨hd.length_eq.symm, ?_⟩
  intro q hq
  obtain ⟨p, -, -, -, -, h1, h2, h3⟩ := forall₂_exists_right hd q hq
  exact ⟨h1, h2, h3, by omega⟩

/-- Instance of C9 (amended) at `scenario2` with context switch 0 and the
process `P2`. -/
theorem C9_witness :
    FcfsFits 0 scenario2 [] 0 0 ∧
    scenario2_p2_done ∈ (simulate_fcfs scenario2 0 []).processes ∧
    (scenario2_p2_done.waiting_time =
        scenario2_p2_done.start_time - scenario2_p2_done.arrival_time ∧
      scenario2_p2_done.turnaround_time =
        scenario2_p2_done.finish_time - scenario2_p2_done.arrival_time ∧
      scenario2_p2_done.finish_time - scenario2_p2_done.start_time =
        scenario2_p2_done.burst_time ∧
      scenario2_p2_done.start_time - scenario2_p2_done.arrival_time =
        scenario2_p2_done.turnaround_time - scenario2_p2_done.burst_time) :=
  ⟨scenario2_fits, by decide,
    (C9_fcfs_metric_identities scenario2 0 scenario2_fits).2 scenario2_p2_done (by decide)⟩

theorem sort_head_max (sort : List PCB → List Nat → List Nat) (hsort : IsStdSort sort)
    (ps : List PCB) (q : List Nat) (i : Nat) (rest : List Nat) (h : sort ps q = i :: rest) :
    i ∈ q ∧ ∀ j ∈ q, (deref ps j).remaining_time ≤ (deref ps i).remaining_time := by
  obtain ⟨hp, hs⟩ := hsort ps q
  rw [h] at hp hs
  refine ⟨hp.mem_iff.1 (List.mem_cons_self _ _), ?_⟩
  intro j hj
  rcases List.mem_cons.1 (hp.mem_iff.2 hj) with h1 | h1
  · rw [h1]
  · exact (comp_eq_false_iff ps i j).1 ((List.pairwise_cons.1 hs).1 j h1)

theorem sort_ne_nil (sort : List PCB → List Nat → List Nat) (hsort : IsStdSort sort)
    (ps : List PCB) (q : List Nat) (h : q ≠ []) : ∃ i rest, sort ps q = i :: rest := by
  cases hs : sort ps q with
  | nil =>
    have hp := (hsort ps q).1
    rw [hs] at hp
    exact absurd (List.Perm.eq_nil hp.symm) h
  | cons i rest => exact ⟨i, rest, rfl⟩

/-- C20: in `simulate_srt`, for every state and every sorting procedure that
meets the contract of `std::sort` for the comparator
`a->remaining_time > b->remaining_time`, an iteration that finds the ready set
non-empty after the admission pass dispatches the front `i` of the sorted
queue (the interval it records carries the id of `i`), and `i` is a member of
the ready set whose remaining time is the maximum over the ready set.  The
interval starts at the clock value the switch rule leaves and ends one tick
later, both computed in `int`. -/
theorem C20_srt_dispatches_maximum_remaining (sort : List PCB → List Nat → List Nat)
    (hsort : IsStdSort sort) (cs : Int) (s : SimState)
    (hne : (enqueue_arrived s).ready_queue ≠ []) :
    ∃ i rest, sort (enqueue_arrived s).processes (enqueue_arrived s).ready_queue = i :: rest ∧
      i ∈ (enqueue_arrived s).ready_queue ∧
      (∀ j ∈ (enqueue_arrived s).ready_queue,
        (deref s.processes j).remaining_time ≤ (deref s.processes i).remaining_time) ∧
      (srt_body sort cs s).gantt_chart = s.gantt_chart ++
        [((deref s.processes i).pid, switch_clock cs (enqueue_arrived s) i,
          int_add (switch_clock cs (enqueue_arrived s) i) 1)] := by
  obtain ⟨i, rest, hq⟩ := sort_ne_nil sort hsort _ _ hne
  obtain ⟨h1, h2⟩ := sort_head_max sort hsort _ _ i rest hq
  exact ⟨i, rest, hq, h1, h2, srt_body_gantt sort cs s i rest hq⟩

/-- Instance of C20 at the state of scenario 4 after one iteration, where the
ready set becomes `{P1 (remaining 7), P2 (remaining 4)}`, with the insertion
sort and context switch 0. -/
theorem C20_witness :
    IsStdSort insertion_sort ∧ (enqueue_arrived scenario4_after_one).ready_queue ≠ [] ∧
    ∃ i rest, insertion_sort (enqueue_arrived scenario4_after_one).processes
        (enqueue_arrived scenario4_after_one).ready_queue = i :: rest ∧
      i ∈ (enqueue_arrived scenario4_after_one).ready_queue ∧
      (∀ j ∈ (enqueue_arrived scenario4_after_one).ready_queue,
        (deref scenario4_after_one.processes j).remaining_time ≤
          (deref scenario4_after_one.processes i).remaining_time) ∧
      (srt_body insertion_sort 0 scenario4_after_one).gantt_chart =
        scenario4_after_one.gantt_chart ++
        [((deref scenario4_after_one.processes i).pid,
          switch_clock 0 (enqueue_arrived scenario4_after_one) i,
          int_add (switch_clock 0 (enqueue_arrived scenario4_after_one) i) 1)] :=
  ⟨insertion_sort_isStdSort, by decide,
    C20_srt_dispatches_maximum_remaining insertion_sort insertion_sort_isStdSort 0
      scenario4_after_one (by decide)⟩

/-- C13 (counterexample): for the empty process list (context switch 1,
quantum 4) none of the three routines reports a utilisation of 0: the divisor
`current_time` is 0 and the quotient is computed without a guard, so there is
no value. -/
theorem C13_counterexample :
    cpu_utilization (simulate_fcfs [] 1 []).total_burst_time
        (simulate_fcfs [] 1 []).current_time ≠ some 0 ∧
    (simulate_srt insertion_sort 1 [] 1 []).map
        (fun t => cpu_utilization t.total_burst_time t.current_time) ≠ some (some 0) ∧
    (simulate_rr 1 [] 4 1 []).map
        (fun t => cpu_utilization t.total_burst_time t.current_time) ≠ some (some 0) := by
  refine ⟨?_, ?_, ?_⟩ <;> simp [simulate_fcfs, simulate_srt, simulate_rr, fcfs_loop, run_loop,
    init_state, cpu_utilization]

/-- C13 (amended): for the empty process list each of the three routines ends
without executing a loop iteration (one unit of fuel suffices, and there is no
state after a first iteration), leaves the chart empty, the clock and the
accumulated burst time at 0; the utilisation is then the unguarded quotient
`0 / 0`, which has no value. -/
theorem C13_empty_list_ends_at_once_without_utilization (cs quantum : Int)
    (sort : List PCB → List Nat → List Nat) (fuel : Nat) :
    (simulate_fcfs [] cs [] =
        { processes := [], gantt_chart := [], current_time := 0, total_burst_time := 0 } ∧
      cpu_utilization (simulate_fcfs [] cs []).total_burst_time
        (simulate_fcfs [] cs []).current_time = none) ∧
    (simulate_srt sort (fuel + 1) [] cs [] = some (init_state [] []) ∧
      state_after (srt_body sort cs) 1 (init_state [] []) = none) ∧
    (simulate_rr (fuel + 1) [] quantum cs [] = some (init_state [] []) ∧
      state_after (rr_body quantum cs) 1 (init_state [] []) = none) ∧
    ((init_state [] []).gantt_chart = [] ∧ (init_state [] []).current_time = 0 ∧
      (init_state [] []).total_burst_time = 0 ∧
      cpu_utilization (init_state [] []).total_burst_time (init_state [] []).current_time
        = none) := by
  refine ⟨⟨rfl, rfl⟩, ⟨?_, ?_⟩, ⟨?_, ?_⟩, rfl, rfl, rfl, rfl⟩
  · exact run_loop_succ_of_not_cond _ fuel _ (by simp [init_state])
  · simp [state_after, init_state]
  · exact run_loop_succ_of_not_cond _ fuel _ (by simp [init_state])
  · simp [state_after, init_state]

theorem zeroQuantumInv_init (ps : List PCB) (hne : ps ≠ []) (hv : PositiveBursts ps) :
    ZeroQuantumInv (init_state ps []) := by
  refine ⟨?_, ?_, ?_⟩
  · show List.range ps.length ++ [] ≠ []
    rw [List.append_nil]
    intro h
    have := congrArg List.length h
    simp at this
    exact hne this
  · intro i hi
    have hi2 : i < ps.length := by simpa [init_state] using hi
    obtain ⟨h1, h2, h3, h4⟩ := hv _ (deref_mem ps i hi2)
    unfold IsInt at h4
    refine ⟨hi2, ?_, ?_, h3⟩
    · show 0 < (deref ps i).remaining_time
      omega
    · show (deref ps i).remaining_time ≤ 2147483647
      omega
  · show IsInt 0
    unfold IsInt
    decide

theorem isInt_switch_clock (cs : Int) (s : SimState) (i : Nat) (h : IsInt s.current_time) :
    IsInt (switch_clock cs s i) := by
  unfold switch_clock
  split
  · split_ifs
    · exact isInt_wrap _
    · exact h
  · exact h

/-- What an iteration of `simulate_rr` with quantum 0 does when it dispatches
`i`: the recorded interval is empty, the remaining time of `i` is unchanged
and `i` goes back to the tail of the queue. -/
theorem rr_zero_quantum_dispatch (cs : Int) (s : SimState) (hz : ZeroQuantumInv s)
    (i : Nat) (rest : List Nat) (hq : (enqueue_arrived s).ready_queue = i :: rest) :
    rr_body 0 cs s =
        { run_slice cs (enqueue_arrived s) i 0 with ready_queue := rest ++ [i] } ∧
      (rr_body 0 cs s).gantt_chart = s.gantt_chart ++
        [((deref s.processes i).pid, switch_clock cs (enqueue_arrived s) i,
          switch_clock cs (enqueue_arrived s) i)] ∧
      rem_of (rr_body 0 cs s) i = rem_of s i ∧
      (rr_body 0 cs s).ready_queue = rest ++ [i] ∧
      (rr_body 0 cs s).current_time = switch_clock cs (enqueue_arrived s) i := by
  have hi : i ∈ s.all_processes ++ s.ready_queue := by
    apply (enqueue_arrived_perm s).mem_iff.1
    apply List.mem_append_right
    rw [hq]; exact List.mem_cons_self _ _
  obtain ⟨hil, hpos, hmax, -⟩ := hz.2.1 i hi
  have hmin : min (rem_of s i) 0 = 0 := by omega
  have hsw : int_add (switch_clock cs (enqueue_arrived s) i) 0 =
      switch_clock cs (enqueue_arrived s) i := by
    have := isInt_switch_clock cs (enqueue_arrived s) i hz.2.2
    unfold int_add
    rw [add_zero]
    exact wrap_of_isInt this
  have hself : (deref (run_slice cs (enqueue_arrived s) i 0).processes i).remaining_time =
      rem_of s i := by
    have hil2 : i < (enqueue_arrived s).processes.length := hil
    rw [run_slice_processes, deref_set_self _ _ _ hil2]
    show int_sub (deref s.processes i).remaining_time 0 = _
    unfold int_sub
    rw [sub_zero]
    apply wrap_of_isInt
    unfold rem_of at hpos hmax
    unfold IsInt
    omega
  have hbody : rr_body 0 cs s =
      { run_slice cs (enqueue_arrived s) i 0 with ready_queue := rest ++ [i] } := by
    rw [rr_body_cons 0 cs s i rest hq, hmin, if_pos (by rw [hself]; exact hpos)]
  refine ⟨hbody, ?_, ?_, ?_, ?_⟩
  · rw [hbody]
    show (run_slice cs (enqueue_arrived s) i 0).gantt_chart = _
    rw [run_slice_gantt, hsw]
    rfl
  · rw [hbody]; exact hself
  · rw [hbody]
  · rw [hbody]
    show (run_slice cs (enqueue_arrived s) i 0).current_time = _
    rw [run_slice_clock, hsw]

theorem zeroQuantumInv_body (cs : Int) (s : SimState) (hz : ZeroQuantumInv s) :
    (s.all_processes ≠ [] ∨ s.ready_queue ≠ []) ∧ ZeroQuantumInv (rr_body 0 cs s) := by
  constructor
  · by_contra hc
    push_neg at hc
    apply hz.1
    rw [hc.1, hc.2]; rfl
  · cases hq : (enqueue_arrived s).ready_queue with
    | nil =>
      obtain ⟨hq0, -, hs⟩ := enqueue_arrived_of_queue_nil s hq
      rw [rr_body_nil 0 cs s hq, hs]
      unfold ZeroQuantumInv rem_of
      rw [idle_jump_all, idle_jump_queue, idle_jump_processes]
      refine ⟨hz.1, hz.2.1, ?_⟩
      cases hal : s.all_processes with
      | nil =>
        exfalso
        apply hz.1
        rw [hal, hq0]; rfl
      | cons j l =>
        have hc : (idle_jump s).current_time = (deref s.processes j).arrival_time := by
          unfold idle_jump; rw [hal]
        rw [hc]
        exact (hz.2.1 j (List.mem_append_left _ (by rw [hal]; exact List.mem_cons_self _ _))).2.2.2
    | cons i rest =>
      obtain ⟨hbody, -, hrem, hqueue, hclock⟩ := rr_zero_quantum_dispatch cs s hz i rest hq
      have hall : (rr_body 0 cs s).all_processes = (enqueue_arrived s).all_processes := by
        rw [hbody]; rfl
      have hprocs : (rr_body 0 cs s).processes =
          (run_slice cs (enqueue_arrived s) i 0).processes := by
        rw [hbody]
      have hmem : ∀ j ∈ (rr_body 0 cs s).all_processes ++ (rr_body 0 cs s).ready_queue,
          j ∈ s.all_processes ++ s.ready_queue := by
        intro j hj
        apply (enqueue_arrived_perm s).mem_iff.1
        rw [hall, hqueue] at hj
        rw [hq]
        rcases List.mem_append.1 hj with h1 | h1
        · exact List.mem_append_left _ h1
        · apply List.mem_append_right
          rcases List.mem_append.1 h1 with h2 | h2
          · exact List.mem_cons_of_mem _ h2
          · rw [List.mem_singleton] at h2; rw [h2]; exact List.mem_cons_self _ _
      refine ⟨?_, ?_, ?_⟩
      · rw [hqueue]
        intro h
        have := congrArg List.length h
        simp at this
      · intro j hj
        obtain ⟨hjl, hjpos, hjmax, hjarr⟩ := hz.2.1 j (hmem j hj)
        have hil : i < (enqueue_arrived s).processes.length :=
          (hz.2.1 i (hmem i (by
            rw [hqueue]
            exact List.mem_append_right _
              (List.mem_append_right _ (List.mem_singleton.2 rfl))))).1
        refine ⟨?_, ?_, ?_, ?_⟩
        · rw [hprocs, run_slice_processes, List.length_set]; exact hjl
        · by_cases hji : j = i
          · rw [hji, hrem]; rw [hji] at hjpos; exact hjpos
          · show 0 < (deref (rr_body 0 cs s).processes j).remaining_time
            rw [hprocs, run_slice_processes, deref_set_ne _ _ _ _ (Ne.symm hji)]
            exact hjpos
        · by_cases hji : j = i
          · rw [hji, hrem]; rw [hji] at hjmax; exact hjmax
          · show (deref (rr_body 0 cs s).processes j).remaining_time ≤ 2147483647
            rw [hprocs, run_slice_processes, deref_set_ne _ _ _ _ (Ne.symm hji)]
            exact hjmax
        · by_cases hji : j = i
          · rw [hprocs, run_slice_processes, hji, deref_set_self _ _ _ hil]
            rw [hji] at hjarr
            exact hjarr
          · rw [hprocs, run_slice_processes, deref_set_ne _ _ _ _ (Ne.symm hji)]
            exact hjarr
      · rw [hclock]
        exact isInt_switch_clock cs (enqueue_arrived s) i hz.2.2

/-- C17: with quantum 0, on every non-empty process list with positive burst
times, `simulate_rr` does not end: it returns no result for any fuel; after
any number `k` of loop iterations there is a state, in which the pending list
or the ready queue is non-empty, and every dispatch from it records an
interval of length 0, leaves the remaining time of the dispatched process
unchanged and puts the process back at the tail of the queue. -/
theorem C17_rr_zero_quantum_never_ends (ps : List PCB) (hne : ps ≠ [])
    (hv : PositiveBursts ps) (cs : Int) :
    (∀ fuel, simulate_rr fuel ps 0 cs [] = none) ∧
    (∀ k, ∃ s, state_after (rr_body 0 cs) k (init_state ps []) = some s ∧
      (s.all_processes ≠ [] ∨ s.ready_queue ≠ []) ∧
      ∀ i rest, (enqueue_arrived s).ready_queue = i :: rest →
        (∃ x : Interval, (rr_body 0 cs s).gantt_chart = s.gantt_chart ++ [x] ∧
          x.1 = (deref s.processes i).pid ∧ x.len = 0) ∧
        (deref (rr_body 0 cs s).processes i).remaining_time =
          (deref s.processes i).remaining_time ∧
        (rr_body 0 cs s).ready_queue = rest ++ [i]) := by
  have key := loop_never_ends (rr_body 0 cs) ZeroQuantumInv
    (fun s hs => zeroQuantumInv_body cs s hs)
  have h0 := zeroQuantumInv_init ps hne hv
  constructor
  · intro fuel
    exact (key fuel (init_state ps []) h0).1
  · intro k
    obtain ⟨s, hs, hz⟩ := (key k (init_state ps []) h0).2
    refine ⟨s, hs, (zeroQuantumInv_body cs s hz).1, ?_⟩
    intro i rest hq
    obtain ⟨-, hg, hrem, hqueue, -⟩ := rr_zero_quantum_dispatch cs s hz i rest hq
    refine ⟨⟨_, hg, rfl, ?_⟩, hrem, hqueue⟩
    simp [Interval.len]

/-- Instance of C17 at `sample_processes` with context switch 1. -/
theorem C17_witness :
    sample_processes ≠ [] ∧ PositiveBursts sample_processes ∧
    (∀ fuel, simulate_rr fuel sample_processes 0 1 [] = none) :=
  ⟨by decide, sample_valid.positive,
    (C17_rr_zero_quantum_never_ends sample_processes (by decide) sample_valid.positive 1).1⟩

/-- C15 (evaluation of the code at an input not sorted by arrival): on
`(P1, arrival 10, burst 1)`, `(P2, arrival 5, burst 1)` with context switch 0
(and quantum 1) the first iteration of `simulate_srt` and of `simulate_rr`
finds nothing ready and sets the clock to 10, the arrival time of the front
of the pending list, not to the smallest pending arrival time 5; the first
interval of either chart starts at tick 10 and `P2`, which arrived at tick 5,
ends with waiting time 6. -/
theorem C15_idle_jump_takes_front_arrival :
    (srt_body insertion_sort 0 (init_state unsorted_arrivals [])).current_time = 10 ∧
    (rr_body 1 0 (init_state unsorted_arrivals [])).current_time = 10 ∧
    (simulate_srt insertion_sort 6 unsorted_arrivals 0 []).map
        (fun t => (t.gantt_chart, t.processes.map PCB.waiting_time)) =
      some ([("P1", 10, 11), ("P2", 11, 12)], [0, 6]) ∧
    (simulate_rr 6 unsorted_arrivals 1 0 []).map
        (fun t => (t.gantt_chart, t.processes.map PCB.waiting_time)) =
      some ([("P1", 10, 11), ("P2", 11, 12)], [0, 6]) := by
  decide

/-! ## Further invariants of SRT and RR -/

theorem finishInv_init (ps0 : List PCB) : FinishInv ps0 (init_state ps0 []) := by
  intro i hi hn
  exact absurd (by simpa [init_state] using hi) hn

theorem finishInv_step (ps0 : List PCB) (slice : Int → Int) (cs : Int)
    (s t : SimState) (h : Inv ps0 s) (hf : FinishInv ps0 s) (hst : Step slice cs s t) :
    FinishInv ps0 t := by
  rcases step_view ps0 slice cs s t h hst with hd | ⟨i, rest, e, hd⟩
  · intro j hj hn
    rw [hd.gantt, hd.processes]
    exact hf j hj (fun hm => hn ((hd.mem_iff j).2 hm))
  · obtain ⟨hother, hself, -⟩ := hd.after h
    intro j hj hn
    by_cases hji : j = i
    · rw [hji] at hn ⊢
      have he := hself hn
      refine ⟨((deref ps0 i).pid, switch_clock cs (enqueue_arrived s) i, t.current_time),
        ?_, rfl, ?_⟩
      · rw [hd.int_gantt]; exact List.mem_append_right _ (List.mem_singleton.2 rfl)
      · rw [hd.finished he]; rfl
    · obtain ⟨x, hx, hx1, hx2⟩ := hf j hj (hother j hji hn)
      refine ⟨x, ?_, hx1, ?_⟩
      · rw [hd.int_gantt]; exact List.mem_append_left _ hx
      · rw [hd.other j hji]; exact hx2

theorem last_stop_of_concat_ne (pid : String) (g : List Interval) (x : Interval)
    (h : x.1 ≠ pid) : last_stop_of pid (g ++ [x]) = last_stop_of pid g := by
  unfold last_stop_of
  rw [List.filter_append]
  simp [List.filter_cons, h]

theorem last_stop_of_concat_eq (pid : String) (g : List Interval) (x : Interval)
    (h : x.1 = pid) : last_stop_of pid (g ++ [x]) = some x.stop := by
  unfold last_stop_of
  rw [List.filter_append]
  simp [List.filter_cons, h]

theorem finishLastInv_init (ps0 : List PCB) : FinishLastInv ps0 (init_state ps0 []) := by
  intro i hi hn
  exact absurd (by simpa [init_state] using hi) hn

theorem finishLastInv_step (ps0 : List PCB) (hu : UniquePids ps0) (slice : Int → Int)
    (cs : Int) (s t : SimState) (h : Inv ps0 s) (hf : FinishLastInv ps0 s)
    (hst : Step slice cs s t) : FinishLastInv ps0 t := by
  rcases step_view ps0 slice cs s t h hst with hd | ⟨i, rest, e, hd⟩
  · intro j hj hn
    rw [hd.gantt, hd.processes]
    exact hf j hj (fun hm => hn ((hd.mem_iff j).2 hm))
  · obtain ⟨hil, -, -, -, -, -⟩ := hd.facts h
    obtain ⟨hother, hself, -⟩ := hd.after h
    intro j hj hn
    rw [hd.int_gantt]
    by_cases hji : j = i
    · rw [hji] at hn ⊢
      have he := hself hn
      rw [last_stop_of_concat_eq (deref ps0 i).pid s.gantt_chart
        ((deref ps0 i).pid, switch_clock cs (enqueue_arrived s) i, t.current_time) rfl,
        hd.finished he]
      rfl
    · have hne : (deref ps0 i).pid ≠ (deref ps0 j).pid := by
        intro heq
        exact hji (deref_pid_inj ps0 hu i j hil hj heq).symm
      rw [last_stop_of_concat_ne _ _ _ hne, hd.other j hji]
      exact hf j hj (hother j hji hn)

theorem soleInv_init (p : PCB) (ha : 0 ≤ p.arrival_time) : SoleInv p (init_state [p] []) where
  pending := fun _ => ⟨rfl, ha⟩
  ready := by intro h; simp [init_state] at h
  pids := by intro x hx; simp [init_state] at hx
  done := by intro h; exfalso; apply h; simp [init_state]

/-- With a single process no context switch is ever added: every interval of
the chart carries its id, so the dispatch starts at the clock. -/
theorem sole_switch_clock (p : PCB) (cs : Int) (s : SimState) (h : Inv [p] s)
    (hs : SoleInv p s) : switch_clock cs (enqueue_arrived s) 0 = s.current_time := by
  have h2 : (deref s.processes 0).pid = p.pid := (h.static 0).1
  unfold switch_clock
  rw [enqueue_arrived_gantt]
  cases hl : s.gantt_chart.getLast? with
  | none => rfl
  | some y =>
    have h1 : y.1 = p.pid := hs.pids y (List.mem_of_mem_getLast? hl)
    show (if y.1 ≠ (deref s.processes 0).pid then int_add s.current_time cs
      else s.current_time) = s.current_time
    rw [if_neg (by rw [h1, h2]; exact fun hne => hne rfl)]

theorem soleInv_step (p : PCB) (ha : 0 ≤ p.arrival_time)
    (hb : p.arrival_time + p.burst_time ≤ 2147483647) (slice : Int → Int) (cs : Int)
    (s t : SimState)
    (h : Inv [p] s) (hs : SoleInv p s) (hst : Step slice cs s t) : SoleInv p t := by
  have harr : (deref s.processes 0).arrival_time = p.arrival_time := (h.static 0).2.1
  rcases step_view [p] slice cs s t h hst with hd | ⟨i, rest, e, hd⟩
  · obtain ⟨j, l, hjl, hc⟩ := hd.clock
    have hj0 : j = 0 := by
      have := h.bound j (List.mem_append_left _ (by rw [hjl]; exact List.mem_cons_self _ _))
      simpa using this
    rw [hj0] at hjl hc
    have h0 : 0 ∈ s.all_processes := by rw [hjl]; exact List.mem_cons_self _ _
    refine ⟨?_, ?_, ?_, ?_⟩
    · intro _
      rw [hd.gantt, hc, harr]
      exact ⟨(hs.pending h0).1, le_refl _⟩
    · rw [hd.queue_after]; intro hm; cases hm
    · rw [hd.gantt]; exact hs.pids
    · intro hn
      exact absurd (List.mem_append_left _ (by rw [hd.all]; exact h0)) hn
  · obtain ⟨hil, hiq, hia, hir, hsub, hrest⟩ := hd.facts h
    obtain ⟨-, hself, -⟩ := hd.after h
    have hi0 : i = 0 := by simpa using hil
    rw [hi0] at hd hiq hia hself
    have htick := sole_switch_clock p cs s h hs
    have hready := (inv_enqueue_arrived [p] s h).ready 0 hiq
    rw [rem_of_enqueue_arrived] at hready
    have h3 : (deref [p] 0).burst_time = p.burst_time := rfl
    rw [h3] at hready
    have hclock : s.current_time = p.arrival_time + (p.burst_time - rem_of s 0) := by
      rcases (mem_enqueue_arrived_queue s 0).1 hiq with hq | ⟨hal, ha2⟩
      · exact hs.ready hq
      · have h1 := (hs.pending hal).2
        have h2 := (h.pending 0 hal).1
        rw [harr] at ha2
        omega
    have hpos := hd.pos
    have hle := hd.le
    have hnew : t.current_time = s.current_time + e := by
      rw [hd.int_clock, htick]
      apply int_add_of_isInt
      unfold IsInt
      omega
    refine ⟨?_, ?_, ?_, ?_⟩
    · intro hm
      rw [hd.all] at hm
      exact absurd hm hia
    · intro _
      rw [hnew, hd.rem_self]
      omega
    · intro x hx
      rw [hd.int_gantt] at hx
      rcases List.mem_append.1 hx with hx1 | hx1
      · exact hs.pids x hx1
      · rw [List.mem_singleton] at hx1
        rw [hx1]; rfl
    · intro hn
      have he := hself hn
      rw [hd.finished he, hnew]
      omega

/-- In the final state of a run on the single process `p`, the record has
finish time `arrival + burst`, waiting time 0 and turnaround `burst`. -/
theorem sole_final (p : PCB) (ha : 0 ≤ p.arrival_time) (hpos : 0 < p.burst_time)
    (hb : p.arrival_time + p.burst_time ≤ 2147483647) (t : SimState) (h : Inv [p] t)
    (hs : SoleInv p t)
    (hall : t.all_processes = []) (hq : t.ready_queue = []) :
    t.processes.length = 1 ∧ ∀ q ∈ t.processes,
      q.finish_time = p.arrival_time + p.burst_time ∧ q.waiting_time = 0 ∧
        q.turnaround_time = p.burst_time := by
  have hlen : t.processes.length = 1 := h.len
  refine ⟨hlen, ?_⟩
  intro q hq2
  obtain ⟨i, hi, rfl⟩ := exists_deref_of_mem t.processes q hq2
  have hi0 : i = 0 := by omega
  rw [hi0]
  have hfin := finished_of_final [p] t h hall hq 0 (by simp)
  have hdone := hs.done (by rw [hall, hq]; exact List.not_mem_nil 0)
  have harr : (deref t.processes 0).arrival_time = p.arrival_time := (h.static 0).2.1
  have hbt : (deref t.processes 0).burst_time = p.burst_time := (h.static 0).2.2
  obtain ⟨-, h2, h3⟩ := hfin
  have e2 : (deref t.processes 0).turnaround_time = p.burst_time := by
    rw [h2, hdone, harr]
    have : int_sub (p.arrival_time + p.burst_time) p.arrival_time =
        p.arrival_time + p.burst_time - p.arrival_time := by
      apply int_sub_of_isInt
      unfold IsInt
      omega
    rw [this]; ring
  refine ⟨hdone, ?_, e2⟩
  rw [h3, e2, hbt]
  have : int_sub p.burst_time p.burst_time = p.burst_time - p.burst_time := by
    apply int_sub_of_isInt
    unfold IsInt
    omega
  rw [this]; ring

/-! ## Claims on whole runs -/

theorem positiveBursts_single (id : String) (a b : Int) (ha : 0 ≤ a) (hb : 0 < b)
    (hfit : a + b ≤ 2147483647) :
    PositiveBursts [PCB.create id a b] := by
  intro p hp
  rw [List.mem_singleton] at hp
  rw [hp]
  refine ⟨hb, rfl, ?_, ?_⟩
  · show IsInt a
    unfold IsInt
    omega
  · show IsInt b
    unfold IsInt
    omega

theorem fcfs_single (id : String) (a b cs : Int) (ha : 0 ≤ a) (hb : 0 < b)
    (hfit : a + b ≤ 2147483647) :
    (simulate_fcfs [PCB.create id a b] cs []).processes =
      [{ PCB.create id a b with
          start_time := a, finish_time := a + b, waiting_time := 0, turnaround_time := b }] := by
  have h1 : (simulate_fcfs [PCB.create id a b] cs []).processes =
      [(fcfs_body cs (PCB.create id a b) [] 0 0).1] := rfl
  have h2 : fcfs_dispatch_tick cs (PCB.create id a b) [] 0 = a := by
    unfold fcfs_dispatch_tick
    simp [PCB.create, ha]
  have hf : FcfsFits cs [PCB.create id a b] [] 0 0 := by
    refine ⟨?_, ?_, ?_, ?_, ?_, trivial⟩
    · rw [h2]; unfold IsInt; omega
    · rw [h2]; show IsInt (a + b); unfold IsInt; omega
    · rw [h2]; show IsInt (a - a); unfold IsInt; omega
    · rw [h2]; show IsInt (a + b - a); unfold IsInt; omega
    · show IsInt (0 + b); unfold IsInt; omega
  rw [h1, fcfs_body_proc cs _ [] [] 0 0 hf, h2]
  simp [PCB.create]

/-- C11 (counterexample): for the single process `(P1, a = 2147483647, b = 1)`
with context switch 0 (and quantum 1) each of the three routines ends with
finish time `-2147483648`, because `a + b` wraps around; the finish time is
not `a + b = 2147483648`. -/
theorem C11_counterexample :
    (simulate_fcfs late_arrival 0 []).processes.map PCB.finish_time = [-2147483648] ∧
    (simulate_srt insertion_sort 3 late_arrival 0 []).map
      (fun t => t.processes.map PCB.finish_time) = some [-2147483648] ∧
    (simulate_rr 3 late_arrival 1 0 []).map
      (fun t => t.processes.map PCB.finish_time) = some [-2147483648] ∧
    ¬ (∀ q ∈ (simulate_fcfs [PCB.create "P1" 2147483647 1] 0 []).processes,
        q.finish_time = 2147483647 + 1) := by
  decide

/-- C11 (amended): for a single process `(id, a, b)` with `a >= 0`, `b > 0`
and `a + b <= 2147483647` (the finish time is in the range of `int`), any
context switch and any positive quantum, each of `simulate_fcfs`,
`simulate_srt` and `simulate_rr` ends with one record, whose finish time is
`a + b`, waiting time 0 and turnaround time `b`.  For `(P1, 0, 5)` with quantum
4 and context switch 1 the three routines give finish 5, waiting 0,
turnaround 5. -/
theorem C11_single_process_metrics (id : String) (a b cs quantum : Int) (ha : 0 ≤ a)
    (hb : 0 < b) (hfit : a + b ≤ 2147483647) (hquantum : 0 < quantum)
    (sort : List PCB → List Nat → List Nat)
    (hsort : IsStdSort sort) :
    ((simulate_fcfs [PCB.create id a b] cs []).processes.length = 1 ∧
      ∀ q ∈ (simulate_fcfs [PCB.create id a b] cs []).processes,
        q.finish_time = a + b ∧ q.waiting_time = 0 ∧ q.turnaround_time = b) ∧
    (∃ t, (∀ fuel, enough_fuel [PCB.create id a b] ≤ fuel →
        simulate_srt sort fuel [PCB.create id a b] cs [] = some t) ∧
      t.processes.length = 1 ∧
      ∀ q ∈ t.processes, q.finish_time = a + b ∧ q.waiting_time = 0 ∧
        q.turnaround_time = b) ∧
    (∃ t, (∀ fuel, enough_fuel [PCB.create id a b] ≤ fuel →
        simulate_rr fuel [PCB.create id a b] quantum cs [] = some t) ∧
      t.processes.length = 1 ∧
      ∀ q ∈ t.processes, q.finish_time = a + b ∧ q.waiting_time = 0 ∧
        q.turnaround_time = b) ∧
    ((simulate_fcfs scenario1 1 []).processes.map
        (fun q => (q.finish_time, q.waiting_time, q.turnaround_time)) = [(5, 0, 5)] ∧
      (simulate_srt insertion_sort 12 scenario1 1 []).map (fun t => t.processes.map
        (fun q => (q.finish_time, q.waiting_time, q.turnaround_time))) = some [(5, 0, 5)] ∧
      (simulate_rr 12 scenario1 4 1 []).map (fun t => t.processes.map
        (fun q => (q.finish_time, q.waiting_time, q.turnaround_time))) = some [(5, 0, 5)]) := by
  have hv := positiveBursts_single id a b ha hb hfit
  refine ⟨?_, ?_, ?_, by decide⟩
  · rw [fcfs_single id a b cs ha hb hfit]
    refine ⟨rfl, ?_⟩
    intro q hq
    rw [List.mem_singleton] at hq
    rw [hq]
    exact ⟨rfl, rfl, rfl⟩
  · obtain ⟨t, ht, hi, hs, hall, hq⟩ := loop_final [PCB.create id a b] hv (fun _ => 1) cs
      (srt_body sort cs) (fun s hs hc => srt_body_step _ sort hsort cs s hs hc)
      (SoleInv (PCB.create id a b)) (soleInv_init _ ha)
      (fun s t hs hq hst => soleInv_step _ ha hfit _ cs s t hs hq hst)
    exact ⟨t, ht, sole_final _ ha hb hfit t hi hs hall hq⟩
  · obtain ⟨t, ht, hi, hs, hall, hq⟩ := loop_final [PCB.create id a b] hv
      (fun r => min r quantum) cs (rr_body quantum cs)
      (fun s hs hc => rr_body_step _ quantum cs hquantum s hs hc)
      (SoleInv (PCB.create id a b)) (soleInv_init _ ha)
      (fun s t hs hq hst => soleInv_step _ ha hfit _ cs s t hs hq hst)
    exact ⟨t, ht, sole_final _ ha hb hfit t hi hs hall hq⟩

/-- Instance of C11 (amended) at the process `(P1, 3, 2)` with context switch
1, quantum 4 and the insertion sort. -/
theorem C11_witness :
    IsStdSort insertion_sort ∧
    ((simulate_fcfs [PCB.create "P1" 3 2] 1 []).processes.length = 1 ∧
      ∀ q ∈ (simulate_fcfs [PCB.create "P1" 3 2] 1 []).processes,
        q.finish_time = 3 + 2 ∧ q.waiting_time = 0 ∧ q.turnaround_time = 2) ∧
    (∃ t, (∀ fuel, enough_fuel [PCB.create "P1" 3 2] ≤ fuel →
        simulate_srt insertion_sort fuel [PCB.create "P1" 3 2] 1 [] = some t) ∧
      t.processes.length = 1 ∧
      ∀ q ∈ t.processes, q.finish_time = 3 + 2 ∧ q.waiting_time = 0 ∧
        q.turnaround_time = 2) ∧
    (∃ t, (∀ fuel, enough_fuel [PCB.create "P1" 3 2] ≤ fuel →
        simulate_rr fuel [PCB.create "P1" 3 2] 4 1 [] = some t) ∧
      t.processes.length = 1 ∧
      ∀ q ∈ t.processes, q.finish_time = 3 + 2 ∧ q.waiting_time = 0 ∧
        q.turnaround_time = 2) :=
  ⟨insertion_sort_isStdSort,
    (C11_single_process_metrics "P1" 3 2 1 4 (by decide) (by decide) (by decide) (by decide)
      insertion_sort insertion_sort_isStdSort).1,
    (C11_single_process_metrics "P1" 3 2 1 4 (by decide) (by decide) (by decide) (by decide)
      insertion_sort insertion_sort_isStdSort).2.1,
    (C11_single_process_metrics "P1" 3 2 1 4 (by decide) (by decide) (by decide) (by decide)
      insertion_sort insertion_sort_isStdSort).2.2.1⟩

/-- After an idle jump the admission pass of the next iteration enqueues the
front of the pending list. -/
theorem idle_jump_then_arrival (s : SimState) (hall : s.all_processes ≠ []) :
    (enqueue_arrived (idle_jump s)).ready_queue ≠ [] := by
  cases hal : s.all_processes with
  | nil => exact absurd hal hall
  | cons j l =>
    have hj : j ∈ (enqueue_arrived (idle_jump s)).ready_queue := by
      apply (mem_enqueue_arrived_queue (idle_jump s) j).2
      right
      refine ⟨by rw [idle_jump_all, hal]; exact List.mem_cons_self _ _, ?_⟩
      rw [idle_jump_processes]
      have hc : (idle_jump s).current_time = (deref s.processes j).arrival_time := by
        unfold idle_jump; rw [hal]
      rw [hc]
    intro h
    rw [h] at hj
    cases hj

theorem srt_body_idle (sort : List PCB → List Nat → List Nat) (hsort : IsStdSort sort)
    (cs : Int) (s : SimState) (hq : (enqueue_arrived s).ready_queue = []) :
    srt_body sort cs s = idle_jump s := by
  have hs : sort (enqueue_arrived s).processes (enqueue_arrived s).ready_queue = [] := by
    have := (hsort (enqueue_arrived s).processes (enqueue_arrived s).ready_queue).1
    rw [hq] at this ⊢
    exact List.Perm.eq_nil this
  rw [srt_body_nil sort cs s hs, queue_nil_eta _ hq, (enqueue_arrived_of_queue_nil s hq).2.2]

theorem rr_body_idle (quantum cs : Int) (s : SimState)
    (hq : (enqueue_arrived s).ready_queue = []) : rr_body quantum cs s = idle_jump s := by
  rw [rr_body_nil quantum cs s hq, (enqueue_arrived_of_queue_nil s hq).2.2]

/-- C14: on valid input the loops of `simulate_srt` and `simulate_rr` end, and
on exit both the pending list and the ready queue are empty.  The integer
`measure` (twice the remaining work, plus one when no pending process has
arrived) is not negative and decreases strictly with every iteration of the
run; an iteration that makes an idle jump is followed by an admission. -/
theorem C14_loops_terminate (ps : List PCB) (hv : ValidProcesses ps) (cs quantum : Int)
    (hquantum : 0 < quantum) (sort : List PCB → List Nat → List Nat)
    (hsort : IsStdSort sort) :
    ((∃ t, (∀ fuel, enough_fuel ps ≤ fuel → simulate_srt sort fuel ps cs [] = some t) ∧
        t.all_processes = [] ∧ t.ready_queue = []) ∧
      (∀ k s, state_after (srt_body sort cs) k (init_state ps []) = some s →
        (s.all_processes ≠ [] ∨ s.ready_queue ≠ []) →
        0 ≤ measure (srt_body sort cs s) ∧ measure (srt_body sort cs s) < measure s) ∧
      (∀ s, (enqueue_arrived s).ready_queue = [] → s.all_processes ≠ [] →
        srt_body sort cs s = idle_jump s ∧
          (enqueue_arrived (srt_body sort cs s)).ready_queue ≠ [])) ∧
    ((∃ t, (∀ fuel, enough_fuel ps ≤ fuel → simulate_rr fuel ps quantum cs [] = some t) ∧
        t.all_processes = [] ∧ t.ready_queue = []) ∧
      (∀ k s, state_after (rr_body quantum cs) k (init_state ps []) = some s →
        (s.all_processes ≠ [] ∨ s.ready_queue ≠ []) →
        0 ≤ measure (rr_body quantum cs s) ∧ measure (rr_body quantum cs s) < measure s) ∧
      (∀ s, (enqueue_arrived s).ready_queue = [] → s.all_processes ≠ [] →
        rr_body quantum cs s = idle_jump s ∧
          (enqueue_arrived (rr_body quantum cs s)).ready_queue ≠ [])) := by
  have hsb := fun s (hs : Inv ps s) hc => srt_body_step ps sort hsort cs s hs hc
  have hrb := fun s (hs : Inv ps s) hc => rr_body_step ps quantum cs hquantum s hs hc
  refine ⟨⟨?_, ?_, ?_⟩, ⟨?_, ?_, ?_⟩⟩
  · obtain ⟨t, ht, -, -, hall, hq⟩ := srt_final ps hv.positive sort hsort cs
    exact ⟨t, ht, hall, hq⟩
  · intro k s hs hc
    have hi := (state_after_step_invariant ps hv.positive (fun _ => 1) cs (srt_body sort cs)
      hsb (fun _ => True) trivial (fun _ _ _ _ _ => trivial) k s hs).1
    exact ⟨measure_nonneg ps _ (inv_step ps _ cs s _ hi (hsb s hi hc)),
      measure_step ps _ cs s _ hi (hsb s hi hc)⟩
  · intro s hq hall
    have hb := srt_body_idle sort hsort cs s hq
    exact ⟨hb, by rw [hb]; exact idle_jump_then_arrival s hall⟩
  · obtain ⟨t, ht, -, -, hall, hq⟩ := rr_final ps hv.positive quantum cs hquantum
    exact ⟨t, ht, hall, hq⟩
  · intro k s hs hc
    have hi := (state_after_step_invariant ps hv.positive (fun r => min r quantum) cs
      (rr_body quantum cs) hrb (fun _ => True) trivial (fun _ _ _ _ _ => trivial) k s hs).1
    exact ⟨measure_nonneg ps _ (inv_step ps _ cs s _ hi (hrb s hi hc)),
      measure_step ps _ cs s _ hi (hrb s hi hc)⟩
  · intro s hq hall
    have hb := rr_body_idle quantum cs s hq
    exact ⟨hb, by rw [hb]; exact idle_jump_then_arrival s hall⟩

/-- Instance of C14 at `sample_processes`, context switch 1, quantum 1 and the
insertion sort. -/
theorem C14_witness :
    ValidProcesses sample_processes ∧ IsStdSort insertion_sort ∧
    (∃ t, (∀ fuel, enough_fuel sample_processes ≤ fuel →
        simulate_srt insertion_sort fuel sample_processes 1 [] = some t) ∧
        t.all_processes = [] ∧ t.ready_queue = []) ∧
    (∃ t, (∀ fuel, enough_fuel sample_processes ≤ fuel →
        simulate_rr fuel sample_processes 1 1 [] = some t) ∧
        t.all_processes = [] ∧ t.ready_queue = []) :=
  ⟨sample_valid, insertion_sort_isStdSort,
    (C14_loops_terminate sample_processes sample_valid 1 1 (by decide) insertion_sort
      insertion_sort_isStdSort).1.1,
    (C14_loops_terminate sample_processes sample_valid 1 1 (by decide) insertion_sort
      insertion_sort_isStdSort).2.1⟩

theorem inv_rem_bounds (ps : List PCB) (hv : PositiveBursts ps) (s : SimState)
    (h : Inv ps s) :
    ∀ p ∈ s.processes, 0 ≤ p.remaining_time ∧ p.remaining_time ≤ p.burst_time := by
  intro p hp
  obtain ⟨i, hi, rfl⟩ := exists_deref_of_mem s.processes p hp
  have hin : i < ps.length := by rw [← h.len]; exact hi
  have hb := (hv _ (deref_mem ps i hin)).1
  rw [(h.static i).2.2]
  by_cases hm : i ∈ s.all_processes ++ s.ready_queue
  · rcases List.mem_append.1 hm with ha | hq
    · have := (h.pending i ha).1
      unfold rem_of at this
      omega
    · have := h.ready i hq
      unfold rem_of at this
      omega
  · have := (h.done i hin hm).1
    omega

/-- The iteration in which the remaining time of a process reaches 0 writes
the clock value it ends with, which is the end tick of the interval it
records, into the finish time of the process. -/
theorem step_finish_time (ps : List PCB) (slice : Int → Int) (cs : Int) (s t : SimState)
    (h : Inv ps s) (hst : Step slice cs s t) (i : Nat) (hpos : 0 < rem_of s i)
    (hzero : rem_of t i = 0) :
    (deref t.processes i).finish_time = t.current_time ∧
      ∃ x : Interval, t.gantt_chart = s.gantt_chart ++ [x] ∧
        x.1 = (deref s.processes i).pid ∧ x.stop = t.current_time := by
  rcases step_view ps slice cs s t h hst with hd | ⟨j, rest, e, hd⟩
  · rw [hd.rem_of_eq] at hzero
    omega
  · by_cases hij : i = j
    · rw [hij] at hpos hzero ⊢
      have he : e = rem_of s j := by
        have := hd.rem_self
        omega
      refine ⟨hd.finished he, _, hd.int_gantt, ?_, rfl⟩
      exact ((h.static j).1).symm
    · have : rem_of t i = rem_of s i := by unfold rem_of; rw [hd.other i hij]
      omega

/-- Facts on remaining and finish times for a loop whose body is an iteration
in the sense of `Step`. -/
theorem remaining_and_finish (ps : List PCB) (hv : PositiveBursts ps) (slice : Int → Int)
    (cs : Int) (body : SimState → SimState)
    (hbody : ∀ s, Inv ps s → (s.all_processes ≠ [] ∨ s.ready_queue ≠ []) →
      Step slice cs s (body s)) :
    (∀ k s, state_after body k (init_state ps []) = some s →
      ∀ p ∈ s.processes, 0 ≤ p.remaining_time ∧ p.remaining_time ≤ p.burst_time) ∧
    (∀ k s, state_after body k (init_state ps []) = some s →
      (s.all_processes ≠ [] ∨ s.ready_queue ≠ []) →
      ∀ i, 0 < (deref s.processes i).remaining_time →
        (deref (body s).processes i).remaining_time = 0 →
        (deref (body s).processes i).finish_time = (body s).current_time ∧
          ∃ x : Interval, (body s).gantt_chart = s.gantt_chart ++ [x] ∧
            x.1 = (deref s.processes i).pid ∧ x.stop = (body s).current_time) ∧
    (∃ t, (∀ fuel, enough_fuel ps ≤ fuel → run_loop body fuel (init_state ps []) = some t) ∧
      (∀ p ∈ t.processes, p.remaining_time = 0 ∧
        ∃ x ∈ t.gantt_chart, x.1 = p.pid ∧ x.stop = p.finish_time) ∧
      (UniquePids ps →
        ∀ p ∈ t.processes, last_stop_of p.pid t.gantt_chart = some p.finish_time)) := by
  refine ⟨?_, ?_, ?_⟩
  · intro k s hs
    have hi := (state_after_step_invariant ps hv slice cs body hbody (fun _ => True) trivial
      (fun _ _ _ _ _ => trivial) k s hs).1
    exact inv_rem_bounds ps hv s hi
  · intro k s hs hc i hpos hzero
    have hi := (state_after_step_invariant ps hv slice cs body hbody (fun _ => True) trivial
      (fun _ _ _ _ _ => trivial) k s hs).1
    exact step_finish_time ps slice cs s (body s) hi (hbody s hi hc) i hpos hzero
  · obtain ⟨t, ht, hi, hq, hall, hqueue⟩ := loop_final ps hv slice cs body hbody
      (fun s => FinishInv ps s ∧ (UniquePids ps → FinishLastInv ps s))
      ⟨finishInv_init ps, fun _ => finishLastInv_init ps⟩
      (fun s t hs hq hst => ⟨finishInv_step ps slice cs s t hs hq.1 hst,
        fun hu => finishLastInv_step ps hu slice cs s t hs (hq.2 hu) hst⟩)
    have hnot : ∀ i, i ∉ t.all_processes ++ t.ready_queue := by
      intro i; rw [hall, hqueue]; exact List.not_mem_nil i
    refine ⟨t, ht, ?_, ?_⟩
    · intro p hp
      obtain ⟨i, hil, rfl⟩ := exists_deref_of_mem t.processes p hp
      have hin : i < ps.length := by rw [← hi.len]; exact hil
      obtain ⟨x, hx, hx1, hx2⟩ := hq.1 i hin (hnot i)
      exact ⟨(hi.done i hin (hnot i)).1, x, hx, by rw [hx1, (hi.static i).1], hx2⟩
    · intro hu p hp
      obtain ⟨i, hil, rfl⟩ := exists_deref_of_mem t.processes p hp
      have hin : i < ps.length := by rw [← hi.len]; exact hil
      rw [(hi.static i).1]
      exact hq.2 hu i hin (hnot i)

/-- C16: on valid input (positive burst times, positive quantum) every record
satisfies `0 <= remaining_time <= burst_time` after every number of iterations
of the loops of `simulate_srt` and `simulate_rr`; the iteration in which the
remaining time of a process reaches 0 sets its finish time to the clock value
at the end of that iteration, the end tick of the interval just recorded; and
when the run ends every record has `remaining_time = 0` and the chart has an
interval of its id ending at its finish time, which with unique ids is the
last interval of that id. -/
theorem C16_remaining_time_bounds_and_finish_time (ps : List PCB) (hv : PositiveBursts ps)
    (cs quantum : Int) (hquantum : 0 < quantum) (sort : List PCB → List Nat → List Nat)
    (hsort : IsStdSort sort) :
    ((∀ k s, state_after (srt_body sort cs) k (init_state ps []) = some s →
        ∀ p ∈ s.processes, 0 ≤ p.remaining_time ∧ p.remaining_time ≤ p.burst_time) ∧
      (∀ k s, state_after (srt_body sort cs) k (init_state ps []) = some s →
        (s.all_processes ≠ [] ∨ s.ready_queue ≠ []) →
        ∀ i, 0 < (deref s.processes i).remaining_time →
          (deref (srt_body sort cs s).processes i).remaining_time = 0 →
          (deref (srt_body sort cs s).processes i).finish_time =
              (srt_body sort cs s).current_time ∧
            ∃ x : Interval, (srt_body sort cs s).gantt_chart = s.gantt_chart ++ [x] ∧
              x.1 = (deref s.processes i).pid ∧ x.stop = (srt_body sort cs s).current_time) ∧
      (∃ t, (∀ fuel, enough_fuel ps ≤ fuel → simulate_srt sort fuel ps cs [] = some t) ∧
        (∀ p ∈ t.processes, p.remaining_time = 0 ∧
          ∃ x ∈ t.gantt_chart, x.1 = p.pid ∧ x.stop = p.finish_time) ∧
        (UniquePids ps →
          ∀ p ∈ t.processes, last_stop_of p.pid t.gantt_chart = some p.finish_time))) ∧
    ((∀ k s, state_after (rr_body quantum cs) k (init_state ps []) = some s →
        ∀ p ∈ s.processes, 0 ≤ p.remaining_time ∧ p.remaining_time ≤ p.burst_time) ∧
      (∀ k s, state_after (rr_body quantum cs) k (init_state ps []) = some s →
        (s.all_processes ≠ [] ∨ s.ready_queue ≠ []) →
        ∀ i, 0 < (deref s.processes i).remaining_time →
          (deref (rr_body quantum cs s).processes i).remaining_time = 0 →
          (deref (rr_body quantum cs s).processes i).finish_time =
              (rr_body quantum cs s).current_time ∧
            ∃ x : Interval, (rr_body quantum cs s).gantt_chart = s.gantt_chart ++ [x] ∧
              x.1 = (deref s.processes i).pid ∧
              x.stop = (rr_body quantum cs s).current_time) ∧
      (∃ t, (∀ fuel, enough_fuel ps ≤ fuel → simulate_rr fuel ps quantum cs [] = some t) ∧
        (∀ p ∈ t.processes, p.remaining_time = 0 ∧
          ∃ x ∈ t.gantt_chart, x.1 = p.pid ∧ x.stop = p.finish_time) ∧
        (UniquePids ps →
          ∀ p ∈ t.processes, last_stop_of p.pid t.gantt_chart = some p.finish_time))) :=
  ⟨remaining_and_finish ps hv (fun _ => 1) cs (srt_body sort cs)
      (fun s hs hc => srt_body_step ps sort hsort cs s hs hc),
    remaining_and_finish ps hv (fun r => min r quantum) cs (rr_body quantum cs)
      (fun s hs hc => rr_body_step ps quantum cs hquantum s hs hc)⟩

/-- Instance of C16 at `sample_processes`, context switch 1, quantum 1 and the
insertion sort: the final states. -/
theorem C16_witness :
    PositiveBursts sample_processes ∧ IsStdSort insertion_sort ∧
    (∃ t, (∀ fuel, enough_fuel sample_processes ≤ fuel →
        simulate_srt insertion_sort fuel sample_processes 1 [] = some t) ∧
      (∀ p ∈ t.processes, p.remaining_time = 0 ∧
        ∃ x ∈ t.gantt_chart, x.1 = p.pid ∧ x.stop = p.finish_time) ∧
      (UniquePids sample_processes →
        ∀ p ∈ t.processes, last_stop_of p.pid t.gantt_chart = some p.finish_time)) ∧
    (∃ t, (∀ fuel, enough_fuel sample_processes ≤ fuel →
        simulate_rr fuel sample_processes 1 1 [] = some t) ∧
      (∀ p ∈ t.processes, p.remaining_time = 0 ∧
        ∃ x ∈ t.gantt_chart, x.1 = p.pid ∧ x.stop = p.finish_time) ∧
      (UniquePids sample_processes →
        ∀ p ∈ t.processes, last_stop_of p.pid t.gantt_chart = some p.finish_time)) :=
  ⟨sample_valid.positive, insertion_sort_isStdSort,
    (C16_remaining_time_bounds_and_finish_time sample_processes sample_valid.positive 1 1
      (by decide) insertion_sort insertion_sort_isStdSort).1.2.2,
    (C16_remaining_time_bounds_and_finish_time sample_processes sample_valid.positive 1 1
      (by decide) insertion_sort insertion_sort_isStdSort).2.2.2⟩

end OsProject
